import Mathlib

/-!
Verification of paperless-backup: retention cleanup, orchestration and archive engine.

A shallow embedding of the Go packages `internal/backup`, `internal/logger`,
`internal/service`, `internal/checks` and `internal/archive`.

Conventions of the embedding:

* an instant (`time.Time`) is an `Int`, nanoseconds since the Unix epoch;
  `Before` and `After` are the strict orders `<` and `>` on instants; the
  local zone is a `Location`, and `AddDate` follows package time: a civil date
  in that zone, normalised by `Date`, on 64-bit seconds that wrap;
* the logger is a list of `LogLine` values in the order they are written
  (the wall-clock prefix that `Logger.Log` puts in front of every line is left out);
* calls that reach outside the process (file system, `systemctl`, `docker`)
  take their outcome from an explicit argument, so every function is total
  and executable;
* `archive/tar` and `compress/gzip` are a `Codec`, any encoding and any pair of
  readers; `libraryCodec` gives the readers of the Go library on files made of
  stored blocks, with Huffman decoding and header parsing left open;
* `os.Exit` is the constructor `Outcome.exited`: nothing runs after it.
-/

namespace PaperlessBackup

/-! ## Time and logging -/

/-- An instant: nanoseconds since the Unix epoch. -/
abbrev Time := Int

/-- Nanoseconds in a calendar day of 24 hours. -/
def nsPerDay : Int := 86400 * 1000000000

/-- One line handed to `Logger.Log`: the level and the message. -/
structure LogLine where
  level : String
  message : String
deriving DecidableEq, Repr

/-! ## `path/filepath` on a Unix system -/

namespace filepath

/-- Where the element scanner of `Clean` stands. -/
inductive CleanMode where
  | scan
  | copy
  | skip
deriving DecidableEq, Repr

/-- The backtracking loop of `Clean` for a `..` element, started after
`out.w--`: `for out.w > dotdot && out[out.w] != '/' { out.w-- }`. -/
def cleanBacktrack (out : List Char) (dotdot : Nat) : Nat → Nat
  | 0 => 0
  | w + 1 =>
    if dotdot < w + 1 && out.get? (w + 1) != some '/' then cleanBacktrack out dotdot w
    else w + 1

/-- The main loop of `Clean` over the unread part of the path. `out` is the
buffer written so far and `dotdot` the index below which it may not backtrack.
Mode `copy` is the inner loop that copies a real element, mode `skip` consumes
the second dot of a `..` element. -/
def cleanLoop (rooted : Bool) : CleanMode → List Char → List Char → Nat → List Char
  | _, [], out, _ => out
  | .skip, _ :: rest, out, dotdot => cleanLoop rooted .scan rest out dotdot
  | .copy, c :: rest, out, dotdot =>
    if c = '/' then cleanLoop rooted .scan rest out dotdot
    else cleanLoop rooted .copy rest (out ++ [c]) dotdot
  | .scan, c :: rest, out, dotdot =>
    if c = '/' then cleanLoop rooted .scan rest out dotdot
    else if c = '.' && (rest.isEmpty || rest.head? == some '/') then
      cleanLoop rooted .scan rest out dotdot
    else if c = '.' && rest.head? == some '.'
        && (rest.tail.isEmpty || rest.tail.head? == some '/') then
      if dotdot < out.length then
        cleanLoop rooted .skip rest
          (out.take (cleanBacktrack out dotdot (out.length - 1))) dotdot
      else if !rooted then
        let out1 := (if 0 < out.length then out ++ ['/'] else out) ++ ['.', '.']
        cleanLoop rooted .skip rest out1 out1.length
      else cleanLoop rooted .skip rest out dotdot
    else
      let out1 :=
        if (rooted && out.length != 1) || (!rooted && out.length != 0) then out ++ ['/']
        else out
      cleanLoop rooted .copy rest (out1 ++ [c]) dotdot

/-- The function `filepath.Clean`: the shortest path equivalent to `path`. -/
def Clean (path : String) : String :=
  if path = "" then "."
  else
    let cs := path.toList
    let rooted := cs.head? == some '/'
    let out :=
      if rooted then cleanLoop true .scan cs.tail ['/'] 1
      else cleanLoop false .scan cs [] 0
    if out.isEmpty then "." else String.mk out

/-- The function `filepath.Join` for two elements: empty elements are ignored,
the rest are joined by `/` and the result is cleaned. -/
def Join (a b : String) : String :=
  if a ≠ "" then Clean (a ++ "/" ++ b)
  else if b ≠ "" then Clean b
  else ""

/-- Drop trailing path separators (first loop of `filepath.Base`). -/
def stripTrailingSlashes (cs : List Char) : List Char :=
  (cs.reverse.dropWhile (fun c => c == '/')).reverse

/-- The part of the path after the last separator (second loop of `filepath.Base`). -/
def lastElement (cs : List Char) : List Char :=
  (cs.reverse.takeWhile (fun c => c != '/')).reverse

/-- The function `filepath.Base`: the last element of the path. -/
def Base (path : String) : String :=
  if path = "" then "."
  else
    let e := lastElement (stripTrailingSlashes path.toList)
    if e.isEmpty then "/" else String.mk e

/-- The call `filepath.Match("*.tar.gz", name)`: the star matches any run of
characters other than the separator, the rest of the pattern is literal, so
the name matches when it ends in `.tar.gz` and nothing before that suffix is
a `/`. -/
def matchTarGz (name : String) : Bool :=
  let cs := name.toList
  let k := cs.length - 7
  decide (7 ≤ cs.length) && (cs.drop k == ".tar.gz".toList)
    && (cs.take k).all (fun c => c != '/')

end filepath


/-! ## The calendar of package `time` -/

/-- A date of the proleptic Gregorian calendar. -/
structure CivilDate where
  year : Int
  month : Nat
  day : Nat
deriving DecidableEq, Repr

/-- Leap years: every fourth year, except the centuries not divisible by 400. -/
def isLeapYear (y : Int) : Bool := y % 4 = 0 && (y % 100 != 0 || y % 400 = 0)

/-- The number of days of month `m` in a leap or a common year. -/
def daysInMonth (leap : Bool) (m : Nat) : Nat :=
  if m = 2 then (if leap then 29 else 28)
  else if m = 4 ∨ m = 6 ∨ m = 9 ∨ m = 11 then 30
  else 31

/-- The day after `d` in the calendar. -/
def CivilDate.next (d : CivilDate) : CivilDate :=
  if d.day < daysInMonth (isLeapYear d.year) d.month then ⟨d.year, d.month, d.day + 1⟩
  else if d.month < 12 then ⟨d.year, d.month + 1, 1⟩
  else ⟨d.year + 1, 1, 1⟩

/-- The number of days from 1 January of year 1 to 1 January of year `y`. -/
def daysBeforeYear (y : Int) : Int := 365 * (y - 1) + (y - 1) / 4 - (y - 1) / 100 + (y - 1) / 400

/-- The year of the day `d0` days after 1 January of year 1, computed as
package time does: cut off the cycles of 400 years, of 100 years (the fourth
century of a cycle is one day longer), of 4 years, and of one year (the fourth
year of a cycle is one day longer). -/
def yearOfDay (d0 : Int) : Int :=
  let n400 := d0 / 146097
  let d1 := d0 % 146097
  let n100 := d1 / 36524
  let n100 := n100 - n100 / 4
  let d2 := d1 - 36524 * n100
  let n4 := d2 / 1461
  let d3 := d2 - 1461 * n4
  let n1 := d3 / 365
  let n1 := n1 - n1 / 4
  400 * n400 + 100 * n100 + 4 * n4 + n1 + 1

/-- The day of the year, from 0, of the day `d0` days after 1 January of
year 1: what is left after the cycles are cut off. -/
def yearDay (d0 : Int) : Int :=
  let d1 := d0 % 146097
  let n100 := d1 / 36524
  let n100 := n100 - n100 / 4
  let d2 := d1 - 36524 * n100
  let n4 := d2 / 1461
  let d3 := d2 - 1461 * n4
  let n1 := d3 / 365
  let n1 := n1 - n1 / 4
  d3 - 365 * n1

/-- The table `daysBefore` of package time: the days of a common year before
each month. -/
def daysBefore : List Nat := [0, 31, 59, 90, 120, 151, 181, 212, 243, 273, 304, 334, 365]

/-- Month and day of the month for a day of the year, as package time
computes them: the leap day apart, estimate the month as if every month had 31
days and go one further when the day is past its end. -/
def monthDay (leap : Bool) (yday : Nat) : Nat × Nat :=
  if leap ∧ yday = 59 then (2, 29)
  else
    let day := if leap ∧ yday > 59 then yday - 1 else yday
    let month := day / 31
    let stop := daysBefore.getD (month + 1) 0
    if day ≥ stop then (month + 2, day - stop + 1)
    else (month + 1, day - daysBefore.getD month 0 + 1)

/-- The date `n` days after 1 January 1970 (before it, for negative `n`);
1 January 1970 is day 719162 after 1 January of year 1. -/
def dateOfDay (n : Int) : CivilDate :=
  let year := yearOfDay (n + 719162)
  let md := monthDay (isLeapYear year) (yearDay (n + 719162)).toNat
  ⟨year, md.1, md.2⟩

/-- The date is a day of a month: month 1 to 12, day 1 to 31. -/
def CivilDate.Valid (d : CivilDate) : Prop :=
  1 ≤ d.month ∧ d.month ≤ 12 ∧ 1 ≤ d.day ∧ d.day ≤ 31

/-- The date read as the number YYYYMMDD. -/
def CivilDate.key (d : CivilDate) : Int := d.year * 10000 + d.month * 100 + d.day

/-- Conversion to `int64`: wrap into the signed 64-bit range. -/
def toInt64 (x : Int) : Int := (x + 2 ^ 63) % 2 ^ 64 - 2 ^ 63

/-- One zone of a `*time.Location`, as `Location.lookup` reports it for an
instant: the offset east of UTC in seconds, and the seconds since the epoch at
which the zone comes into force and at which it ends. -/
structure ZoneSpan where
  offset : Int
  start : Int
  stop : Int
deriving DecidableEq, Repr

/-- A `*time.Location`: the zone in force at an instant, given in seconds
since the epoch (`Location.lookup`). -/
abbrev Location := Int → ZoneSpan

/-- The location `time.UTC`: offset zero at all times. -/
def utcLocation : Location := fun _ => ⟨0, -2 ^ 63, 2 ^ 63 - 1⟩

/-- The offset `time.Date` takes off a wall clock reading `unix` to arrive at
the instant: it looks up the zone as if the reading were UTC and, when the
instant so found lies outside that zone, looks up the zone of that instant. -/
def offsetForWall (loc : Location) (unix : Int) : Int :=
  if (loc unix).offset ≠ 0 then
    (if toInt64 (unix - (loc unix).offset) < (loc unix).start ∨
        toInt64 (unix - (loc unix).offset) ≥ (loc unix).stop
      then (loc (toInt64 (unix - (loc unix).offset))).offset
      else (loc unix).offset)
  else 0

/-- The function `time.Date(year, month, day, hour, min, sec, nsec, loc)` for a
month and a time of day in their ranges, the time of day given as the second
of the day: the days from the epoch to the date (the days before the year,
before the month, the leap day, the day of the month, which may lie outside the
month), times 86400, plus the second of the day, in 64-bit arithmetic; then the
offset of the zone is taken off. The seconds of a `Time` are kept as an `int64`
counted from year 1. -/
def goDate (loc : Location) (year : Int) (month : Nat) (day : Int) (secOfDay : Int)
    (nsec : Int) : Int :=
  let d := daysBeforeYear year - 719162 + ((daysBefore.getD (month - 1) 0 : Nat) : Int)
    + (if isLeapYear year ∧ month ≥ 3 then 1 else 0) + (day - 1)
  let unix := toInt64 (d * 86400 + secOfDay)
  let unix := unix - offsetForWall loc unix
  (toInt64 (unix + 62135596800) - 62135596800) * 1000000000 + nsec

/-- The method `t.AddDate(0, 0, days)` for a time `t` in the location `loc`,
instants being nanoseconds since the Unix epoch: the date and the clock of `t`
on the wall clock of the zone in force, then `Date` with `day + days`. -/
def AddDate (loc : Location) (t : Int) (days : Int) : Int :=
  let sec := t / 1000000000
  let wall := sec + (loc sec).offset
  let date := dateOfDay (wall / 86400)
  goDate loc date.year date.month (toInt64 ((date.day : Int) + days)) (wall % 86400)
    (t % 1000000000)

/-! ## Retention cleanup (`internal/backup/cleanup.go`) -/

/-- The type bits of a directory entry (`fs.FileMode.Type`). -/
inductive FileKind where
  | regular
  | directory
  | symlink
  | device
  | charDevice
  | namedPipe
  | socket
  | irregular
deriving DecidableEq, Repr

/-- One `os.DirEntry` returned by `os.ReadDir`: its name, its type, and what
`entry.Info()` gives: the modification time, or `none` when it returns an
error. -/
structure DirEntry where
  Name : String
  Kind : FileKind
  Info : Option Time
deriving DecidableEq, Repr

/-- The method `entry.IsDir()`. -/
def DirEntry.IsDir (e : DirEntry) : Bool := e.Kind == FileKind.directory

/-- The struct `FileInfo` of cleanup.go: backup file metadata. -/
structure FileInfo where
  Path : String
  ModTime : Time
deriving DecidableEq, Repr

/-- The value `time.Now().AddDate(0, 0, -MaxBackupAgeDays)`, with `loc` the
local time zone of the process; `MaxBackupAgeDays` is an `int` and its negation
wraps. -/
def cutoffTime (loc : Location) (now : Time) (maxBackupAgeDays : Int) : Time :=
  AddDate loc now (toInt64 (-maxBackupAgeDays))

/-- The enumeration loop of `cleanupOldBackups` (cleanup.go lines 30-59):
returns `(allBackups, oldBackups)`. -/
def scanBackups (backupDir : String) (cutoff : Time) :
    List DirEntry → List FileInfo × List FileInfo
  | [] => ([], [])
  | entry :: rest =>
    let r := scanBackups backupDir cutoff rest
    if entry.IsDir then r
    else if !filepath.matchTarGz entry.Name then r
    else
      match entry.Info with
      | none => r
      | some modTime =>
        let backupInfo : FileInfo := ⟨filepath.Join backupDir entry.Name, modTime⟩
        if modTime < cutoff then (backupInfo :: r.1, backupInfo :: r.2)
        else (backupInfo :: r.1, r.2)

/-- What `sort.Slice` promises for the comparison
`oldBackups[i].ModTime.After(oldBackups[j].ModTime)`: the result is a
rearrangement of the input in which no element is followed by one with a later
modification time. The order among equal times is not fixed. -/
def SortsNewestFirst (sortSlice : List FileInfo → List FileInfo) : Prop :=
  ∀ l, (sortSlice l).Perm l ∧ (sortSlice l).Pairwise (fun a b => ¬ b.ModTime > a.ModTime)

/-- Insert one element into a newest-first list, after every element that is
not older (the inner loop of the insertion sort `sort.Slice` runs on short
slices). -/
def insertNewestFirst (x : FileInfo) : List FileInfo → List FileInfo
  | [] => [x]
  | y :: ys => if x.ModTime > y.ModTime then x :: y :: ys else y :: insertNewestFirst x ys

/-- Stable insertion sort, newest first: what `sort.Slice` does on slices of at
most twelve elements. -/
def insertionSortNewestFirst (l : List FileInfo) : List FileInfo :=
  l.foldl (fun acc x => insertNewestFirst x acc) []

/-- The deletion list after the all-old guard (cleanup.go lines 75-82). -/
def deletionList (totalBackups : Nat) (sortedOld : List FileInfo) : List FileInfo :=
  if sortedOld.length ≥ totalBackups then
    (if sortedOld.length > 0 then sortedOld.drop 1 else sortedOld)
  else sortedOld

/-- What the deletion loop (cleanup.go lines 85-93) has done: the log lines,
the paths handed to `os.Remove` in order, and `deletedCount`. -/
structure DeleteResult where
  log : List LogLine
  removeCalls : List String
  deleted : List String
deriving DecidableEq, Repr

/-- The deletion loop. `remove path` is the result of `os.Remove(path)`:
`none` for success, `some err` for a failure with that error text. -/
def deleteLoop (remove : String → Option String) : List FileInfo → DeleteResult
  | [] => ⟨[], [], []⟩
  | backup :: rest =>
    let r := deleteLoop remove rest
    let line : LogLine := ⟨"INFO", "Deleting old backup: " ++ filepath.Base backup.Path⟩
    match remove backup.Path with
    | some err =>
      ⟨line :: ⟨"WARN", "Failed to delete " ++ backup.Path ++ ": " ++ err⟩ :: r.log,
        backup.Path :: r.removeCalls, r.deleted⟩
    | none => ⟨line :: r.log, backup.Path :: r.removeCalls, backup.Path :: r.deleted⟩

/-- The observable result of `cleanupOldBackups`: everything it logged, the
`os.Remove` calls it made, the paths it removed, and the archives it found
(`allBackups`). -/
structure CleanupResult where
  log : List LogLine
  removeCalls : List String
  deleted : List String
  allBackups : List FileInfo
deriving DecidableEq, Repr

/-- The method `(*Backup).cleanupOldBackups`. `entries` is the result of
`os.ReadDir(BackupDir)` (`none` when it fails), `sortSlice` the sorting done by
`sort.Slice`, `remove` the outcome of each `os.Remove`, `loc` the local time
zone. -/
def cleanupOldBackups (loc : Location) (sortSlice : List FileInfo → List FileInfo)
    (remove : String → Option String) (backupDir : String) (maxBackupAgeDays : Int)
    (now : Time) (entries : Option (List DirEntry)) : CleanupResult :=
  let line0 : LogLine :=
    ⟨"INFO", "Cleaning up backups older than " ++ toString maxBackupAgeDays ++ " days..."⟩
  match entries with
  | none => ⟨[line0, ⟨"INFO", "Failed to read backup directory"⟩], [], [], []⟩
  | some entries =>
    let cutoff := cutoffTime loc now maxBackupAgeDays
    let scanned := scanBackups backupDir cutoff entries
    let allBackups := scanned.1
    let oldBackups := scanned.2
    let totalBackups := allBackups.length
    if oldBackups.length = 0 then
      ⟨[line0, ⟨"INFO", "No old backups to delete"⟩,
          ⟨"INFO", "Total backups: " ++ toString totalBackups⟩], [], [], allBackups⟩
    else
      let sorted := sortSlice oldBackups
      let guardLog : List LogLine :=
        if sorted.length ≥ totalBackups then
          [⟨"INFO", "All backups are older than " ++ toString maxBackupAgeDays
              ++ " days - keeping the most recent one"⟩]
        else []
      let d := deleteLoop remove (deletionList totalBackups sorted)
      let deletedCount := d.deleted.length
      let countLog : LogLine :=
        if deletedCount > 0 then
          ⟨"INFO", "Deleted " ++ toString deletedCount ++ " old backup(s)"⟩
        else ⟨"INFO", "No old backups to delete (keeping at least one backup)"⟩
      let remainingBackups : Int := (totalBackups : Int) - (deletedCount : Int)
      ⟨[line0] ++ guardLog ++ d.log
          ++ [countLog, ⟨"INFO", "Total backups: " ++ toString remainingBackups⟩],
        d.removeCalls, d.deleted, allBackups⟩

/-- The directory after the cleanup: the entries whose path was not removed. -/
def entriesAfter (backupDir : String) (deleted : List String) (entries : List DirEntry) :
    List DirEntry :=
  entries.filter (fun e => !deleted.contains (filepath.Join backupDir e.Name))

/-- An archive file as the retention scan sees it: not a directory, with a
name matching `*.tar.gz`. -/
def isArchive (e : DirEntry) : Bool := !e.IsDir && filepath.matchTarGz e.Name

/-- The entries of a directory denote distinct paths. -/
def DistinctPaths (backupDir : String) (entries : List DirEntry) : Prop :=
  (entries.map (fun e => filepath.Join backupDir e.Name)).Nodup

/-- The `FileInfo` the enumeration loop builds for an entry, when it keeps it. -/
def toFileInfo (backupDir : String) (e : DirEntry) : Option FileInfo :=
  if isArchive e then e.Info.map (fun t => ⟨filepath.Join backupDir e.Name, t⟩) else none

/-- A clock value used in the worked examples: day 100 after the epoch. -/
def exampleNow : Time := 100 * nsPerDay

/-- Two archives that are both past a three-day retention at `exampleNow`. -/
def allOldEntries : List DirEntry :=
  [⟨"oldest.tar.gz", .regular, some (94 * nsPerDay)⟩,
    ⟨"less_old.tar.gz", .regular, some (96 * nsPerDay)⟩]

/-- The scenario of the spec: `a.tar.gz` is one day old and `b.tar.gz` ten
days old at `exampleNow`. -/
def mixedEntries : List DirEntry :=
  [⟨"a.tar.gz", .regular, some (99 * nsPerDay)⟩,
    ⟨"b.tar.gz", .regular, some (90 * nsPerDay)⟩]



/-! ## Archive engine (`internal/archive/tar.go`) -/

namespace strings

/-- The function `strings.HasPrefix`. -/
def HasPrefix (s pre : String) : Bool := pre.toList.isPrefixOf s.toList

/-- The function `strings.TrimPrefix`: `s` without the leading `pre`, or `s`
itself when it does not start with it. -/
def TrimPrefix (s pre : String) : String :=
  if HasPrefix s pre then String.mk (s.toList.drop pre.length) else s

end strings

/-- The zero value `time.Time{}`: 1 January of year 1, 00:00 UTC. -/
def zeroTime : Time := -62135596800 * 1000000000

/-- What `os.Lstat` reports about a file system object: the `os.FileInfo` and
the fields of its `Sys()` stat that `tar.FileInfoHeader` reads. -/
structure FileStat where
  Name : String
  Size : Int
  Kind : FileKind
  Perm : Nat
  Setuid : Bool
  Setgid : Bool
  Sticky : Bool
  Uid : Int
  Gid : Int
  Uname : String
  Gname : String
  Devmajor : Int
  Devminor : Int
  ModTime : Time
  AccessTime : Time
  ChangeTime : Time
deriving DecidableEq, Repr

/-- The method `info.Mode().IsRegular()`. -/
def FileStat.IsRegular (fi : FileStat) : Bool := fi.Kind == FileKind.regular

/-- The struct `tar.Header`, with the fields `tar.FileInfoHeader` fills. -/
structure Header where
  Typeflag : Char
  Name : String
  Linkname : String
  Size : Int
  Mode : Int
  Uid : Int
  Gid : Int
  Uname : String
  Gname : String
  ModTime : Time
  AccessTime : Time
  ChangeTime : Time
  Devmajor : Int
  Devminor : Int
deriving DecidableEq, Repr

/-- The function `tar.FileInfoHeader(fi, link)` on a Unix system: the type
flag from the mode, the size of regular files only, a trailing slash on the
name of a directory, the permission and set-id bits, and owner, times and
device numbers from the stat. Sockets and unknown modes are errors. -/
def FileInfoHeader (fi : FileStat) (link : String) : Except String Header :=
  let mode : Int := (fi.Perm : Int) + (if fi.Setuid then 2048 else 0)
    + (if fi.Setgid then 1024 else 0) + (if fi.Sticky then 512 else 0)
  let h : Header :=
    { Typeflag := '0', Name := fi.Name, Linkname := "", Size := 0, Mode := mode,
      Uid := fi.Uid, Gid := fi.Gid, Uname := fi.Uname, Gname := fi.Gname,
      ModTime := fi.ModTime, AccessTime := fi.AccessTime, ChangeTime := fi.ChangeTime,
      Devmajor := 0, Devminor := 0 }
  match fi.Kind with
  | .regular => .ok { h with Typeflag := '0', Size := fi.Size }
  | .directory => .ok { h with Typeflag := '5', Name := fi.Name ++ "/" }
  | .symlink => .ok { h with Typeflag := '2', Linkname := link }
  | .charDevice =>
    .ok { h with Typeflag := '3', Devmajor := fi.Devmajor, Devminor := fi.Devminor }
  | .device =>
    .ok { h with Typeflag := '4', Devmajor := fi.Devmajor, Devminor := fi.Devminor }
  | .namedPipe => .ok { h with Typeflag := '6' }
  | .socket => .error "archive/tar: sockets not supported"
  | .irregular => .error "archive/tar: unknown file mode"

mutual
/-- A source tree as `filepath.Walk` meets it. A `file` is any object that is
not a directory (its stat, the result of `os.Open`, the bytes `io.Copy`
reads); a `dir` has its stat, the result of reading its entry names, and its
children in name order. -/
inductive FsNode where
  | file (stat : FileStat) (openErr : Option String) (bytes : List Nat)
  | dir (stat : FileStat) (readDirErr : Option String) (children : FsForest)
/-- The children of a directory in name order, each with the result of its
`os.Lstat`. -/
inductive FsForest where
  | nil
  | cons (name : String) (lstatErr : Option String) (node : FsNode) (rest : FsForest)
end

/-- One call of the walk function: the path, the `os.FileInfo` (nil when the
`Lstat` failed), the error handed over, and what opening and reading the file
at that path gives. -/
structure Visit where
  path : String
  info : Option FileStat
  err : Option String
  openErr : Option String
  bytes : List Nat
deriving DecidableEq, Repr

mutual
/-- The function `walk` of `path/filepath`: the calls of the walk function
under `path`, in order. A directory whose names cannot be read is visited with
that error and not entered. -/
def walk (path : String) : FsNode → List Visit
  | .file stat openErr bytes => [⟨path, some stat, none, openErr, bytes⟩]
  | .dir stat readDirErr children =>
    ⟨path, some { stat with Kind := .directory }, readDirErr, none, []⟩ ::
      (match readDirErr with
        | some _ => []
        | none => walkChildren path children)
/-- The loop of `walk` over the names of a directory: each child is visited
under `Join(path, name)`. -/
def walkChildren (path : String) : FsForest → List Visit
  | .nil => []
  | .cons name lstatErr node rest =>
    (match lstatErr with
      | some e => [⟨filepath.Join path name, none, some e, none, []⟩]
      | none => walk (filepath.Join path name) node) ++ walkChildren path rest
end

/-- The function `filepath.Walk`: `root` is handed to the walk function as it
is given; `fs root` is what `os.Lstat(root)` finds. -/
def Walk (fs : String → Except String FsNode) (root : String) : List Visit :=
  match fs root with
  | .error e => [⟨root, none, some e, none, []⟩]
  | .ok node => walk root node

/-- One entry of a tar stream: the header and the bytes written after it. -/
structure TarEntry where
  header : Header
  data : List Nat
deriving DecidableEq, Repr

/-- The parts of `archive/tar` and `compress/gzip` the engine relies on, taken
as given: which headers `WriteHeader` rejects, the bytes a tar writer emits
for a sequence of entries, the gzip stream for given bytes and header time,
the error of `gzip.NewReader` on a file, and what `tar.Reader.Next` yields over
the gzip reader of a file: the headers in order, then end of file (`none`) or
an error. -/
structure Codec where
  headerErr : Header → Option String
  tarEncode : List TarEntry → List Nat
  gzipEncode : Time → List Nat → List Nat
  gzipHeaderErr : List Nat → Option String
  tarNext : List Nat → List Header × Option String

/-- The number of bytes a tar writer expects after a header: `Size` for a
regular file, none for every other type. -/
def expectedSize (hdr : Header) : Nat := if hdr.Typeflag = '0' then hdr.Size.toNat else 0

/-- An entry as a tar writer completes it: a header it accepts, followed by as
many bytes as the header announces. -/
def TarEntry.Complete (codec : Codec) (e : TarEntry) : Prop :=
  codec.headerErr e.header = none ∧ e.data.length = expectedSize e.header

/-- The contract between writer and reader: the gzip stream of the tar stream
of complete entries is accepted by `gzip.NewReader`, and `Next` yields one
header for each entry written and then end of file. -/
def Codec.ReadsBack (codec : Codec) : Prop :=
  ∀ (t : Time) (es : List TarEntry), (∀ e ∈ es, e.Complete codec) →
    codec.gzipHeaderErr (codec.gzipEncode t (codec.tarEncode es)) = none ∧
    (codec.tarNext (codec.gzipEncode t (codec.tarEncode es))).1.length = es.length ∧
    (codec.tarNext (codec.gzipEncode t (codec.tarEncode es))).2 = none

/-- The state of a `tar.Writer`: the entries written so far and the number of
bytes the current entry still expects. -/
structure TarWriter where
  entries : List TarEntry
  remaining : Nat
deriving DecidableEq, Repr

/-- Append bytes to the last entry. -/
def appendData (data : List Nat) : List TarEntry → List TarEntry
  | [] => []
  | [e] => [{ e with data := e.data ++ data }]
  | e :: rest => e :: appendData data rest

/-- The method `tar.Writer.WriteHeader`: fails when the previous entry is
short of bytes or the header cannot be encoded; a regular file expects `Size`
bytes, every other type none. -/
def TarWriter.WriteHeader (codec : Codec) (hdr : Header) (tw : TarWriter) :
    Except String TarWriter :=
  if tw.remaining > 0 then
    .error ("archive/tar: missed writing " ++ toString tw.remaining ++ " bytes")
  else
    match codec.headerErr hdr with
    | some e => .error e
    | none =>
      .ok { entries := tw.entries ++ [⟨hdr, []⟩], remaining := expectedSize hdr }

/-- The method `tar.Writer.Write` as `io.Copy` drives it: more bytes than the
header announced is the error `ErrWriteTooLong`. -/
def TarWriter.Write (data : List Nat) (tw : TarWriter) : Except String TarWriter :=
  if data.length > tw.remaining then .error "archive/tar: write too long"
  else .ok { entries := appendData data tw.entries, remaining := tw.remaining - data.length }

/-- The method `tar.Writer.Close`: fails when the last entry is short of bytes. -/
def TarWriter.Close (tw : TarWriter) : Except String TarWriter :=
  if tw.remaining > 0 then
    .error ("archive/tar: missed writing " ++ toString tw.remaining ++ " bytes")
  else .ok tw

/-- The name `addToTar` gives an entry: the walked path, with one leading `/`
trimmed when it has one. -/
def entryName (path : String) : String :=
  if strings.HasPrefix path "/" then strings.TrimPrefix path "/" else path

/-- The walk function of `addToTar` on one visit (tar.go lines 85-130).
`writeErr` is a failure of the underlying stream while this entry is written. -/
def addToTarVisit (codec : Codec) (writeErr : Nat → Option String) (tw : TarWriter)
    (v : Visit) : Except String TarWriter :=
  match v.err with
  | some e => .error e
  | none =>
    match v.info with
    | none => .error "archive/tar: FileInfo is nil"
    | some info =>
      match FileInfoHeader info "" with
      | .error e => .error e
      | .ok header =>
        let header := { header with Name := entryName v.path }
        let header :=
          { header with ModTime := zeroTime, AccessTime := zeroTime, ChangeTime := zeroTime }
        match writeErr tw.entries.length with
        | some e => .error e
        | none =>
          match tw.WriteHeader codec header with
          | .error e => .error e
          | .ok tw =>
            if !info.IsRegular then .ok tw
            else
              match v.openErr with
              | some e => .error e
              | none => tw.Write v.bytes

/-- The walk function over the visits of a walk: it stops at the first error. -/
def addVisits (codec : Codec) (writeErr : Nat → Option String) :
    TarWriter → List Visit → Except String TarWriter
  | tw, [] => .ok tw
  | tw, v :: rest =>
    match addToTarVisit codec writeErr tw v with
    | .error e => .error e
    | .ok tw1 => addVisits codec writeErr tw1 rest

/-- The method `Creator.addToTar`: walk `source` and add every object met. -/
def Creator.addToTar (codec : Codec) (writeErr : Nat → Option String)
    (fs : String → Except String FsNode) (tw : TarWriter) (source : String) :
    Except String TarWriter :=
  addVisits codec writeErr tw (Walk fs source)

/-- The loop of `Create` over the source paths (tar.go lines 49-53): the first
failure ends it with the wrapped error. -/
def addSources (codec : Codec) (writeErr : Nat → Option String)
    (fs : String → Except String FsNode) : TarWriter → List String → Except String TarWriter
  | tw, [] => .ok tw
  | tw, path :: rest =>
    match Creator.addToTar codec writeErr fs tw path with
    | .error e => .error ("failed to add " ++ path ++ " to archive: " ++ e)
    | .ok tw1 => addSources codec writeErr fs tw1 rest

/-- The three times of the header are the zero time. -/
def Header.ZeroTimes (h : Header) : Prop :=
  h.ModTime = zeroTime ∧ h.AccessTime = zeroTime ∧ h.ChangeTime = zeroTime

/-- The tar writer after the walk function has run on one visit, whether it
returned an error or not. A header that was written stays written when the
file cannot be opened; of more bytes than the header announced, `Write` takes
the first and then fails. -/
def addToTarVisitWriter (codec : Codec) (writeErr : Nat → Option String) (tw : TarWriter)
    (v : Visit) : TarWriter :=
  match v.err with
  | some _ => tw
  | none =>
    match v.info with
    | none => tw
    | some info =>
      match FileInfoHeader info "" with
      | .error _ => tw
      | .ok header =>
        let header := { header with Name := entryName v.path }
        let header :=
          { header with ModTime := zeroTime, AccessTime := zeroTime, ChangeTime := zeroTime }
        match writeErr tw.entries.length with
        | some _ => tw
        | none =>
          match tw.WriteHeader codec header with
          | .error _ => tw
          | .ok tw =>
            if !info.IsRegular then tw
            else
              match v.openErr with
              | some _ => tw
              | none =>
                { entries := appendData (v.bytes.take tw.remaining) tw.entries
                  remaining := tw.remaining - (v.bytes.take tw.remaining).length }

/-- The tar writer when the walk over the visits ends, at its first error or
after the last visit. -/
def addVisitsWriter (codec : Codec) (writeErr : Nat → Option String) :
    TarWriter → List Visit → TarWriter
  | tw, [] => tw
  | tw, v :: rest =>
    match addToTarVisit codec writeErr tw v with
    | .error _ => addToTarVisitWriter codec writeErr tw v
    | .ok tw1 => addVisitsWriter codec writeErr tw1 rest

/-- The tar writer when the loop of `Create` over the source paths ends, at its
first failure or after the last path. -/
def addSourcesWriter (codec : Codec) (writeErr : Nat → Option String)
    (fs : String → Except String FsNode) : TarWriter → List String → TarWriter
  | tw, [] => tw
  | tw, path :: rest =>
    match Creator.addToTar codec writeErr fs tw path with
    | .error _ => addVisitsWriter codec writeErr tw (Walk fs path)
    | .ok tw1 => addSourcesWriter codec writeErr fs tw1 rest

/-- The outcomes of the calls `Create` makes on the destination: `os.Create`,
writes to the stream, the closes, `os.Chmod` and `os.Stat`; `createdPerm` is
the permission the file has once `os.Create` has succeeded. -/
structure CreateIO where
  createErr : Option String
  createdPerm : Nat
  writeErr : Nat → Option String
  gzipCloseErr : Option String
  fileCloseErr : Option String
  chmodErr : Option String
  statErr : Option String

/-- The destination file after `Create`. `content` is `none` when the bytes
of the file are left open: `Create` gave up on an entry that is short of bytes
or on a stream that failed, and the deferred closes have flushed what there
was. -/
structure DestFile where
  content : Option (List Nat)
  perm : Nat
deriving DecidableEq, Repr

/-- The observable result of `Create`: the error returned, the destination
file (`none` when `os.Create` failed), the entries handed to the tar writer,
also those handed to it before a failure, and the lines logged. -/
structure CreateResult where
  err : Option String
  dest : Option DestFile
  written : List TarEntry
  log : List LogLine
deriving DecidableEq, Repr

/-- The bytes the deferred closes leave in the file when the loop over the
source paths has failed. When every entry handed to the tar writer is complete
and neither the stream nor a close fails, the tar writer ends the archive, the
gzip writer adds its trailer, and the file holds the archive of those entries;
otherwise the bytes are left open. -/
def leftBehind (codec : Codec) (io : CreateIO) (tw : TarWriter) : Option (List Nat) :=
  if tw.remaining = 0 ∧ io.writeErr tw.entries.length = none ∧ io.gzipCloseErr = none ∧
      io.fileCloseErr = none then
    some (codec.gzipEncode zeroTime (codec.tarEncode tw.entries))
  else none

/-- The digits of `n`, padded with a zero to two places. -/
def twoDigits (n : Nat) : String := if n < 10 then "0" ++ toString n else toString n

/-- The text of `%.2f` for `size / 1024 / 1024`: the quotient is exact in
binary floating point, and the text is its decimal value rounded to two
places, a tie going to the even digit. -/
def formatMB (size : Nat) : String :=
  let q := size * 100 / 1048576
  let r := size * 100 % 1048576
  let hundredths := if r > 524288 ∨ (r = 524288 ∧ q % 2 = 1) then q + 1 else q
  toString (hundredths / 100) ++ "." ++ twoDigits (hundredths % 100)

/-- The method `Creator.Create`. -/
def Creator.Create (codec : Codec) (io : CreateIO) (fs : String → Except String FsNode)
    (outputPath : String) (sourcePaths : List String) : CreateResult :=
  let line0 : LogLine := ⟨"INFO", "Creating compressed backup archive: " ++ outputPath⟩
  match io.createErr with
  | some e => ⟨some ("failed to create backup file: " ++ e), none, [], [line0]⟩
  | none =>
    let partly : Option DestFile := some ⟨none, io.createdPerm⟩
    match addSources codec io.writeErr fs ⟨[], 0⟩ sourcePaths with
    | .error e =>
      ⟨some e,
        some ⟨leftBehind codec io (addSourcesWriter codec io.writeErr fs ⟨[], 0⟩ sourcePaths),
          io.createdPerm⟩,
        (addSourcesWriter codec io.writeErr fs ⟨[], 0⟩ sourcePaths).entries, [line0]⟩
    | .ok tw =>
      match tw.Close with
      | .error e => ⟨some ("failed to close tar writer: " ++ e), partly, tw.entries, [line0]⟩
      | .ok tw =>
        match io.gzipCloseErr with
        | some e =>
          ⟨some ("failed to close gzip writer: " ++ e), partly, tw.entries, [line0]⟩
        | none =>
          match io.fileCloseErr with
          | some e =>
            ⟨some ("failed to close output file: " ++ e), partly, tw.entries, [line0]⟩
          | none =>
            let bytes := codec.gzipEncode zeroTime (codec.tarEncode tw.entries)
            match io.chmodErr with
            | some e =>
              ⟨some ("failed to set permissions: " ++ e), some ⟨some bytes, io.createdPerm⟩,
                tw.entries, [line0]⟩
            | none =>
              match io.statErr with
              | some e =>
                ⟨some ("failed to stat backup file: " ++ e), some ⟨some bytes, 384⟩,
                  tw.entries, [line0]⟩
              | none =>
                ⟨none, some ⟨some bytes, 384⟩, tw.entries,
                  [line0, ⟨"INFO", "Backup created successfully: " ++ outputPath ++ " ("
                    ++ formatMB bytes.length ++ "MB)"⟩]⟩

/-- The observable result of `Verify`: the error returned and the lines logged. -/
structure VerifyResult where
  err : Option String
  log : List LogLine
deriving DecidableEq, Repr

/-- The reading loop of `Verify` (tar.go lines 154-164): count the headers
`Next` yields until end of file, fail on any other error. -/
def verifyLoop : List Header → Option String → Nat → Except String Nat
  | [], none, fileCount => .ok fileCount
  | [], some e, _ => .error ("backup integrity check failed (tar): " ++ e)
  | _ :: rest, last, fileCount => verifyLoop rest last (fileCount + 1)

/-- The method `Creator.Verify`. `opened` is the result of `os.Open`: the
bytes of the file, or the error. -/
def Creator.Verify (codec : Codec) (opened : Except String (List Nat)) : VerifyResult :=
  let line0 : LogLine := ⟨"INFO", "Verifying backup integrity..."⟩
  match opened with
  | .error e => ⟨some ("failed to open backup file: " ++ e), [line0]⟩
  | .ok bytes =>
    match codec.gzipHeaderErr bytes with
    | some e => ⟨some ("backup integrity check failed (gzip): " ++ e), [line0]⟩
    | none =>
      match verifyLoop (codec.tarNext bytes).1 (codec.tarNext bytes).2 0 with
      | .error e => ⟨some e, [line0]⟩
      | .ok fileCount =>
        ⟨none, [line0, ⟨"INFO", "Backup integrity check passed (" ++ toString fileCount
          ++ " files)"⟩]⟩

/-- The stat with its three timestamps set to the epoch. -/
def FileStat.eraseTimes (fi : FileStat) : FileStat :=
  { fi with ModTime := 0, AccessTime := 0, ChangeTime := 0 }

mutual
/-- The tree with every timestamp set to the epoch. -/
def FsNode.eraseTimes : FsNode → FsNode
  | .file stat openErr bytes => .file stat.eraseTimes openErr bytes
  | .dir stat readDirErr children => .dir stat.eraseTimes readDirErr children.eraseTimes
/-- The children with every timestamp set to the epoch. -/
def FsForest.eraseTimes : FsForest → FsForest
  | .nil => .nil
  | .cons name lstatErr node rest => .cons name lstatErr node.eraseTimes rest.eraseTimes
end

/-- What `os.Lstat` finds at a root, with every timestamp set to the epoch. -/
def eraseRootTimes : Except String FsNode → Except String FsNode
  | .error e => .error e
  | .ok node => .ok node.eraseTimes

/-- The visit with the timestamps of its stat set to the epoch. -/
def Visit.eraseTimes (v : Visit) : Visit :=
  { v with info := v.info.map FileStat.eraseTimes }

/-- The number of objects the walks of `Create` visit, over all source paths. -/
def visitedCount (fs : String → Except String FsNode) (sourcePaths : List String) : Nat :=
  (sourcePaths.map (fun p => (Walk fs p).length)).sum

/-- A stat for the worked examples: owner root, mode 0644, the three times
given. -/
def exampleStat (name : String) (kind : FileKind) (size : Int) (mtime atime ctime : Time) :
    FileStat :=
  { Name := name, Size := size, Kind := kind, Perm := 420, Setuid := false, Setgid := false,
    Sticky := false, Uid := 0, Gid := 0, Uname := "root", Gname := "root", Devmajor := 0,
    Devminor := 0, ModTime := mtime, AccessTime := atime, ChangeTime := ctime }

/-- A volume directory holding one file of three bytes, stamped at day 10. -/
def treeEarly : FsNode :=
  .dir (exampleStat "data" .directory 4096 (10 * nsPerDay) (10 * nsPerDay) (10 * nsPerDay)) none
    (.cons "file1.txt" none
      (.file (exampleStat "file1.txt" .regular 3 (10 * nsPerDay) (11 * nsPerDay) (10 * nsPerDay))
        none [100, 97, 116])
      .nil)

/-- The same directory and file stamped at day 50 and later. -/
def treeLate : FsNode :=
  .dir (exampleStat "data" .directory 4096 (50 * nsPerDay) (51 * nsPerDay) (52 * nsPerDay)) none
    (.cons "file1.txt" none
      (.file (exampleStat "file1.txt" .regular 3 (53 * nsPerDay) (54 * nsPerDay) (55 * nsPerDay))
        none [100, 97, 116])
      .nil)

/-- A file system with one tree at `/vol/data`, reachable as `//vol/data` too. -/
def fsWith (tree : FsNode) : String → Except String FsNode :=
  fun p =>
    if p = "/vol/data" ∨ p = "//vol/data" then .ok tree
    else .error ("lstat " ++ p ++ ": no such file or directory")

/-- A socket, which `tar.FileInfoHeader` refuses. -/
def socketNode : FsNode :=
  .file (exampleStat "redis.sock" .socket 0 (10 * nsPerDay) (10 * nsPerDay) (10 * nsPerDay))
    none []

/-- A destination on which every call succeeds; the file is created with
mode 0644. -/
def healthyIO : CreateIO :=
  { createErr := none, createdPerm := 420, writeErr := fun _ => none, gzipCloseErr := none,
    fileCloseErr := none, chmodErr := none, statErr := none }

/-- A stand-in codec that writes every field of every header, the three
times included, into the stream, and the gzip header time in front. -/
def dumpCodec : Codec :=
  { headerErr := fun _ => none
    tarEncode := fun es => es.flatMap (fun e =>
      [e.header.Name.length, e.header.Typeflag.toNat, e.header.Size.toNat,
        (e.header.ModTime - zeroTime).toNat, (e.header.AccessTime - zeroTime).toNat,
        (e.header.ChangeTime - zeroTime).toNat] ++ e.data)
    gzipEncode := fun t bytes => (t - zeroTime).toNat :: bytes
    gzipHeaderErr := fun _ => none
    tarNext := fun _ => ([], none) }

/-- A header with nothing in it. -/
def emptyHeader : Header :=
  { Typeflag := '0', Name := "", Linkname := "", Size := 0, Mode := 0, Uid := 0, Gid := 0,
    Uname := "", Gname := "", ModTime := zeroTime, AccessTime := zeroTime,
    ChangeTime := zeroTime, Devmajor := 0, Devminor := 0 }

/-- A stand-in codec with one byte per entry, which reads back one header per
byte. -/
def countingCodec : Codec :=
  { headerErr := fun _ => none
    tarEncode := fun es => es.map (fun _ => 1)
    gzipEncode := fun _ bytes => bytes
    gzipHeaderErr := fun _ => none
    tarNext := fun bytes => (bytes.map (fun _ => emptyHeader), none) }

/-- The invariant of a tar writer: every entry before the last is complete,
and the last one lacks exactly the bytes the writer still expects. -/
def WriterInv (codec : Codec) (tw : TarWriter) : Prop :=
  (tw.entries = [] ∧ tw.remaining = 0) ∨
    ∃ init last, tw.entries = init ++ [last] ∧ (∀ e ∈ init, e.Complete codec) ∧
      codec.headerErr last.header = none ∧
      last.data.length + tw.remaining = expectedSize last.header

/-! ## Configuration (`internal/config/config.go`) -/

/-- The struct `Config`: all configuration of the backup tool. -/
structure Config where
  BackupDir : String
  LogFile : String
  LockFile : String
  MaxBackupAgeDays : Int
  RequiredSpaceMB : Int
  PaperlessService : String
  DataVolume : String
  MediaVolume : String
  RedisVolume : String
deriving DecidableEq, Repr

/-- The function `config.Default`. -/
def Config.Default : Config :=
  { BackupDir := "/var/local/paperless-ngx/backups"
    LogFile := "backup.log"
    LockFile := "backup.lock"
    MaxBackupAgeDays := 3
    RequiredSpaceMB := 10000
    PaperlessService := "paperless-ngx.service"
    DataVolume := "paperless-ngx_data"
    MediaVolume := "paperless-ngx_media"
    RedisVolume := "paperless-ngx_redisdata" }

/-! ## The process: state, environment, exits -/

/-- What a run does to the outside world, in the order it happens. -/
inductive Event where
  | lockCreated
  | serviceStopped
  | stopReturned
  | volumeInspected (volume : String)
  | volumeStat (path : String)
  | createCalled (output : String) (sources : List String)
  | createReturned (ok : Bool)
  | verifyCalled (archive : String)
  | verifyReturned (ok : Bool)
  | cleanupCalled
  | removeCalled (path : String)
  | serviceStartCalled (ok : Bool)
  | lockRemoveCalled (ok : Bool)
deriving DecidableEq, Repr

/-- The state a run works on: the files it creates and removes (by path, with
their bytes), whether the managed service is active, the fields
`Manager.wasRunning` and `Backup.backupFile`, the log, and the events so far. -/
structure State where
  files : String → Option (List Nat)
  serviceActive : Bool
  wasRunning : Bool
  backupFile : String
  logClosed : Bool
  log : List LogLine
  events : List Event

/-- The outcomes of the calls a run makes outside the process. -/
structure Env where
  /-- `os.WriteFile(lockPath, ...)` succeeds. -/
  lockWritable : Bool
  /-- `exec.LookPath(tool)` fails. -/
  toolMissing : String → Bool
  /-- `docker info` fails. -/
  dockerInfoErr : Bool
  /-- `systemctl stop` fails. -/
  stopErr : Bool
  /-- `systemctl start` fails. -/
  startErr : Bool
  /-- `docker volume inspect`: the output with surrounding space trimmed, or
  `none` when the command fails. -/
  volumeInspect : String → Option String
  /-- `os.Stat(path)` fails with an error for which `os.IsNotExist` holds. -/
  pathMissing : String → Bool
  /-- `unix.Statfs(workDir)`: `(Bavail, Bsize)`, or `none` when it fails. -/
  statfs : Option (Nat × Int)
  /-- `time.Now().Format("20060102_150405")` when `createBackup` starts. -/
  timestamp : String
  /-- The tar and gzip encodings and readers the archiver works with. -/
  codec : Codec
  /-- The outcomes of the calls `Creator.Create` makes on the archive file. -/
  createIO : CreateIO
  /-- The file system `Creator.Create` walks: what `os.Lstat` finds at a path. -/
  fs : String → Except String FsNode
  /-- The bytes found in the archive file after a `Create` that gave up once
  the file was created, where `Creator.Create` leaves them open. -/
  brokenArchive : List Nat
  /-- `time.Now()` in `cleanupOldBackups`. -/
  now : Time
  /-- The local time zone of the process (`time.Local`). -/
  loc : Location
  /-- `os.ReadDir(BackupDir)` in `cleanupOldBackups`. -/
  readDir : Option (List DirEntry)
  /-- The sorting done by `sort.Slice`. -/
  sortSlice : List FileInfo → List FileInfo
  /-- `os.Remove(path)`: `none` for success, the error text otherwise. -/
  remove : String → Option String

/-- How a call ends: it returns to its caller, or the process is gone through
`os.Exit` with the given status. -/
inductive Outcome (α : Type) where
  | returned (value : α) (s : State)
  | exited (code : Int) (s : State)

/-- The state in which the call ended. -/
def Outcome.state {α : Type} : Outcome α → State
  | .returned _ s => s
  | .exited _ s => s

/-- The exit status, when the call ended the process. -/
def Outcome.exitCode {α : Type} : Outcome α → Option Int
  | .returned _ _ => none
  | .exited c _ => some c

/-- Sequencing: the rest runs only when the first call returns. -/
def Outcome.andThen {α β : Type} (o : Outcome α) (f : α → State → Outcome β) :
    Outcome β :=
  match o with
  | .returned a s => f a s
  | .exited c s => .exited c s

/-- Record an event. -/
def State.emit (s : State) (e : Event) : State := { s with events := s.events ++ [e] }

/-- Go's rule for a function with deferred calls: they run when the function
returns; `os.Exit` ends the program at once and deferred functions are not
run. -/
def runWithDeferred (deferred : State → State) (body : State → Outcome Unit) (s : State) :
    Outcome Unit :=
  match body s with
  | .returned a s1 => .returned a (deferred s1)
  | .exited c s1 => .exited c s1

/-! ## Logger (`internal/logger/logger.go`) -/

/-- The method `Logger.Log`: append one line. -/
def Logger.Log (level message : String) (s : State) : State :=
  { s with log := s.log ++ [⟨level, message⟩] }

/-- The method `Logger.ErrorExit`: log at ERROR, then `os.Exit(1)`. -/
def Logger.ErrorExit {α : Type} (message : String) (s : State) : Outcome α :=
  .exited 1 (Logger.Log "ERROR" message s)

/-- The method `Logger.Close`. -/
def Logger.Close (s : State) : State := { s with logClosed := true }

/-! ## Service manager (`internal/service/service.go`) -/

/-- The method `Manager.Stop`: stop the service if `systemctl is-active` says
it runs, which it is taken to say exactly when the service is active. -/
def Manager.Stop (serviceName : String) (env : Env) (s : State) : Outcome Unit :=
  let s := Logger.Log "INFO" ("Checking " ++ serviceName ++ " state...") s
  if s.serviceActive then
    let s := Logger.Log "INFO" (serviceName ++ " is running - stopping for backup...") s
    let s := { s with wasRunning := true }
    if env.stopErr then Logger.ErrorExit ("Failed to stop " ++ serviceName) s
    else
      let s := ({ s with serviceActive := false }).emit .serviceStopped
      .returned () (Logger.Log "INFO" (serviceName ++ " stopped") s)
  else .returned () (Logger.Log "INFO" (serviceName ++ " is already stopped") s)

/-- The method `Manager.Restore`: start the service again if it was running. -/
def Manager.Restore (serviceName : String) (env : Env) (s : State) : State :=
  if !s.wasRunning then s
  else
    let s := Logger.Log "INFO" ("Restoring " ++ serviceName ++ " to running state...") s
    if env.startErr then
      Logger.Log "WARN" ("Failed to restart " ++ serviceName) (s.emit (.serviceStartCalled false))
    else ({ s with serviceActive := true }).emit (.serviceStartCalled true)

/-! ## Pre-flight checks (`internal/checks/checks.go`) -/

/-- The method `Checker.RequiredTools`. -/
def Checker.RequiredTools (env : Env) (s : State) : Outcome Unit :=
  let s := Logger.Log "INFO" "Checking required system tools..." s
  let missing := ["docker", "systemctl"].filter env.toolMissing
  if missing.length > 0 then
    Logger.ErrorExit ("Missing required tools: " ++ String.intercalate ", " missing) s
  else .returned () (Logger.Log "INFO" "All required system tools available" s)

/-- The method `Checker.Docker`. -/
def Checker.Docker (env : Env) (s : State) : Outcome Unit :=
  if env.dockerInfoErr then
    Logger.ErrorExit "Docker daemon is not running or not accessible" s
  else .returned () s

/-- The method `Checker.DiskSpace`. -/
def Checker.DiskSpace (requiredMB : Int) (env : Env) (s : State) : Outcome Unit :=
  match env.statfs with
  | none => Logger.ErrorExit "Failed to check disk space" s
  | some (bavail, bsize) =>
    let availableMB :=
      Int.tdiv (Int.tdiv (toInt64 (toInt64 (bavail : Int) * toInt64 bsize)) 1024) 1024
    if availableMB < requiredMB then
      Logger.ErrorExit ("Insufficient disk space. Available: " ++ toString availableMB
        ++ "MB, Required: " ++ toString requiredMB ++ "MB") s
    else
      .returned () (Logger.Log "INFO"
        ("Available disk space: " ++ toString availableMB ++ "MB") s)

/-! ## Orchestrator (`internal/backup/backup.go`) -/

/-- The struct `Backup`, without its mutable field `backupFile` (kept in the
state). `isSetup` says that `Setup` has run, so that the logger, the checker,
the service manager and the archiver are not nil. -/
structure Backup where
  config : Config
  lockPath : String
  logPath : String
  isSetup : Bool
deriving DecidableEq, Repr

/-- The function `backup.New`. -/
def Backup.New (cfg : Config) : Backup :=
  { config := cfg
    lockPath := filepath.Join cfg.BackupDir cfg.LockFile
    logPath := filepath.Join cfg.BackupDir cfg.LogFile
    isSetup := false }

/-- The method `Backup.Setup`, when creating the directory and opening the log
succeed. -/
def Backup.Setup (b : Backup) : Backup := { b with isSetup := true }

/-- Write a file: the path now holds these bytes. -/
def State.writeFile (s : State) (path : String) (content : List Nat) : State :=
  { s with files := fun p => if p = path then some content else s.files p }

/-- Remove files: the paths no longer exist. -/
def State.removeFiles (s : State) (paths : List String) : State :=
  { s with files := fun p => if paths.contains p then none else s.files p }

/-- The method `Backup.Cleanup`: restore the service, remove the lock file,
close the log. -/
def Backup.Cleanup (b : Backup) (env : Env) (s : State) : State :=
  let s := if b.isSetup then Manager.Restore b.config.PaperlessService env s else s
  let s :=
    match env.remove b.lockPath with
    | none => (s.removeFiles [b.lockPath]).emit (.lockRemoveCalled true)
    | some _ => s.emit (.lockRemoveCalled false)
  Logger.Close s

/-- The method `Backup.checkLock`: `os.Stat(lockPath)` succeeds when the file
exists. -/
def Backup.checkLock (b : Backup) (env : Env) (s : State) : Outcome Unit :=
  match s.files b.lockPath with
  | some _ =>
    Logger.ErrorExit ("Backup already running (lock file exists: " ++ b.lockPath ++ ")") s
  | none =>
    if env.lockWritable then .returned () ((s.writeFile b.lockPath []).emit .lockCreated)
    else Logger.ErrorExit "Failed to create lock file" s

/-- The method `Backup.getVolumePath`. -/
def Backup.getVolumePath (env : Env) (volume : String) (s : State) : Outcome String :=
  let s := s.emit (.volumeInspected volume)
  match env.volumeInspect volume with
  | none => Logger.ErrorExit ("Failed to inspect " ++ volume ++ " volume") s
  | some path =>
    let s := s.emit (.volumeStat path)
    if env.pathMissing path then
      Logger.ErrorExit ("Volume path does not exist: " ++ path) s
    else .returned path s

/-- The path `createBackup` gives the archive of a run. -/
def Backup.archivePath (b : Backup) (env : Env) : String :=
  filepath.Join b.config.BackupDir (env.timestamp ++ ".tar.gz")

/-- The effect of `Creator.Create` on the files: when `os.Create` has
succeeded, the output path holds what `Create` has left there, complete or
not, in place of whatever it held before; when `os.Create` has failed the file
is as it was. -/
def State.afterCreate (s : State) (env : Env) (outputPath : String) (res : CreateResult) :
    State :=
  match res.dest with
  | none => s
  | some dest => s.writeFile outputPath (dest.content.getD env.brokenArchive)

/-- The method `Backup.createBackup`: name the archive after the clock and call
`Creator.Create`, which logs its lines and creates the file; the value returned
is the error, if any. -/
def Backup.createBackup (b : Backup) (env : Env) (dataPath mediaPath redisPath : String)
    (s : State) : Option String × State :=
  let s := { s with backupFile := b.archivePath env }
  let sourcePaths := [dataPath, mediaPath, redisPath]
  let s := s.emit (.createCalled s.backupFile sourcePaths)
  let res := Creator.Create env.codec env.createIO env.fs s.backupFile sourcePaths
  let s := { s with log := s.log ++ res.log }
  let s := s.afterCreate env s.backupFile res
  (res.err, s.emit (.createReturned res.err.isNone))

/-- The result of `os.Open(path)` in `Verify`: the bytes of the file, or the
error when there is no file at the path. -/
def State.openFile (s : State) (path : String) : Except String (List Nat) :=
  match s.files path with
  | some bytes => .ok bytes
  | none => .error ("open " ++ path ++ ": no such file or directory")

/-- The call `b.archiver.Verify(b.backupFile)` made by `Run`: `Verify` reads
the file at the path and logs its lines. -/
def Backup.verifyBackup (env : Env) (s : State) : Option String × State :=
  let s := s.emit (.verifyCalled s.backupFile)
  let res := Creator.Verify env.codec (s.openFile s.backupFile)
  let s := { s with log := s.log ++ res.log }
  (res.err, s.emit (.verifyReturned res.err.isNone))

/-- The call `b.cleanupOldBackups()` made by `Run`: the retention cleanup on
the backup directory, its log lines, its `os.Remove` calls and the files they
removed. -/
def Backup.callCleanupOldBackups (b : Backup) (env : Env) (s : State) : State :=
  let res := cleanupOldBackups env.loc env.sortSlice env.remove b.config.BackupDir
    b.config.MaxBackupAgeDays env.now env.readDir
  let s := s.emit .cleanupCalled
  let s := { s with log := s.log ++ res.log,
                    events := s.events ++ res.removeCalls.map Event.removeCalled }
  s.removeFiles res.deleted

/-- The method `Backup.Run`: the complete backup process. -/
def Backup.Run (b : Backup) (env : Env) (s : State) : Outcome Unit :=
  let s := Logger.Log "INFO" "Starting paperless-ngx backup" s
  (b.checkLock env s).andThen fun _ s =>
  (Checker.RequiredTools env s).andThen fun _ s =>
  (Checker.Docker env s).andThen fun _ s =>
  (Manager.Stop b.config.PaperlessService env s).andThen fun _ s =>
  let s := (s.emit .stopReturned)
  let s := Logger.Log "INFO" "Inspecting docker volumes..." s
  (Backup.getVolumePath env b.config.DataVolume s).andThen fun dataPath s =>
  (Backup.getVolumePath env b.config.MediaVolume s).andThen fun mediaPath s =>
  (Backup.getVolumePath env b.config.RedisVolume s).andThen fun redisPath s =>
  let s := Logger.Log "INFO" "Volume locations:" s
  let s := Logger.Log "INFO" ("  - Data: " ++ dataPath) s
  let s := Logger.Log "INFO" ("  - Media: " ++ mediaPath) s
  let s := Logger.Log "INFO" ("  - Redis: " ++ redisPath) s
  (Checker.DiskSpace b.config.RequiredSpaceMB env s).andThen fun _ s =>
  match b.createBackup env dataPath mediaPath redisPath s with
  | (some err, s) => Logger.ErrorExit err s
  | (none, s) =>
    match Backup.verifyBackup env s with
    | (some err, s) => Logger.ErrorExit err s
    | (none, s) =>
      let s := b.callCleanupOldBackups env s
      .returned () (Logger.Log "INFO" "Backup completed successfully" s)

/-- A fresh process: no lock file, nothing logged, the service running or not. -/
def initialState (serviceActive : Bool) : State :=
  { files := fun _ => none
    serviceActive := serviceActive
    wasRunning := false
    backupFile := ""
    logClosed := false
    log := []
    events := [] }

/-- The three volumes of a default installation, each a directory with one
file. -/
def volumesFs : String → Except String FsNode :=
  fun p =>
    if p = "/var/lib/docker/volumes/paperless-ngx_data/_data" ∨
        p = "/var/lib/docker/volumes/paperless-ngx_media/_data" ∨
        p = "/var/lib/docker/volumes/paperless-ngx_redisdata/_data" then .ok treeEarly
    else .error ("lstat " ++ p ++ ": no such file or directory")

/-- A stand-in codec like `countingCodec` whose tar reader meets a truncated
stream. -/
def truncatedCodec : Codec :=
  { countingCodec with tarNext := fun _ => ([], some "unexpected EOF") }

/-- A run in which everything outside the process works: three volumes that
resolve, enough disk space, a directory with the new archive and two old ones. -/
def healthyEnv : Env :=
  { lockWritable := true
    toolMissing := fun _ => false
    dockerInfoErr := false
    stopErr := false
    startErr := false
    volumeInspect := fun v => some ("/var/lib/docker/volumes/" ++ v ++ "/_data")
    pathMissing := fun _ => false
    statfs := some (50000000, 4096)
    timestamp := "19700411_000000"
    codec := countingCodec
    createIO := healthyIO
    fs := volumesFs
    brokenArchive := []
    now := exampleNow
    loc := utcLocation
    readDir := some (⟨"19700411_000000.tar.gz", .regular, some exampleNow⟩ :: allOldEntries)
    sortSlice := insertionSortNewestFirst
    remove := fun _ => none }

/-- The same run with a docker daemon that cannot be reached. -/
def dockerDownEnv : Env := { healthyEnv with dockerInfoErr := true }

/-- The same run with an archive that fails verification. -/
def verifyFailsEnv : Env := { healthyEnv with codec := truncatedCodec }

/-- The same run with a socket at the path of each volume, which `Create`
cannot archive: it gives up after it has created the archive file. -/
def createFailsEnv : Env :=
  { healthyEnv with fs := fun p => (volumesFs p).map (fun _ => socketNode) }

/-- In the event list `l`, every event satisfying `later` has an event
satisfying `earlier` somewhere before it. -/
def Precedes (earlier later : Event → Bool) (l : List Event) : Prop :=
  ∀ pre e post, l = pre ++ e :: post → later e = true → ∃ e1 ∈ pre, earlier e1 = true

/-- A check of `Precedes` by one pass over the list. -/
def precedesB (earlier later : Event → Bool) : List Event → Bool
  | [] => true
  | x :: l => !later x && (earlier x || precedesB earlier later l)

/-- The event: `Manager.Stop` has returned. -/
def Event.isStopReturned : Event → Bool
  | .stopReturned => true
  | _ => false

/-- The event: `Creator.Create` has returned without error. -/
def Event.isCreateOk : Event → Bool
  | .createReturned true => true
  | _ => false

/-- The event: `Creator.Verify` has returned without error. -/
def Event.isVerifyOk : Event → Bool
  | .verifyReturned true => true
  | _ => false

/-- The event resolves or reads a volume: `docker volume inspect`, the
`os.Stat` of the mount point, or the archive creation that walks it. -/
def Event.touchesVolume : Event → Bool
  | .volumeInspected _ => true
  | .volumeStat _ => true
  | .createCalled _ _ => true
  | _ => false

/-- The event starts the verification of the archive. -/
def Event.isVerifyCalled : Event → Bool
  | .verifyCalled _ => true
  | _ => false

/-- The event is the call of the retention cleanup or one of its removals. -/
def Event.isCleanup : Event → Bool
  | .cleanupCalled => true
  | .removeCalled _ => true
  | _ => false

/-- The event: `createBackup` or `Verify` has returned an error. -/
def Event.isFailure : Event → Bool
  | .createReturned false => true
  | .verifyReturned false => true
  | _ => false

/-- A property of the way a call ends: `E` of the state at an exit, `Q` of the
value and state at a return. -/
def Outcome.Holds {α : Type} (o : Outcome α) (E : State → Prop) (Q : α → State → Prop) :
    Prop :=
  match o with
  | .returned a s => Q a s
  | .exited _ s => E s

/-- No file other than the lock file and the archive of this run differs from
the start state `s0`. -/
def Frame (b : Backup) (env : Env) (s0 st : State) : Prop :=
  ∀ p, p ≠ b.lockPath → p ≠ b.archivePath env → st.files p = s0.files p

/-- What holds of a run at every point before the retention cleanup: volumes
are touched only after the stop has returned, verification starts only after a
successful creation, the cleanup has not started, and only the lock file and
the archive of this run have changed. -/
def Safe (b : Backup) (env : Env) (s0 st : State) : Prop :=
  precedesB Event.isStopReturned Event.touchesVolume st.events = true ∧
    precedesB Event.isCreateOk Event.isVerifyCalled st.events = true ∧
    (∀ e ∈ st.events, e.isCleanup = false) ∧ Frame b env s0 st

/-- The invariant of a run that goes on: `Safe`, and neither `createBackup` nor
`Verify` has returned an error. -/
def Good (b : Backup) (env : Env) (s0 st : State) : Prop :=
  Safe b env s0 st ∧ ∀ e ∈ st.events, e.isFailure = false

/-- The stop of the service has returned. -/
def Stopped (st : State) : Prop := ∃ e ∈ st.events, e.isStopReturned = true

/-- The archive has been created without error. -/
def Created (st : State) : Prop := ∃ e ∈ st.events, e.isCreateOk = true

/-- The archive has been verified without error. -/
def Verified (st : State) : Prop := ∃ e ∈ st.events, e.isVerifyOk = true

/-- The ordering facts about the events of a run that ended in state `st`,
each checked in one pass, and the frame after a failed creation or
verification: the cleanup is not called and no file other than the lock file
and the archive of this run differs from the start state `s0`. -/
def RunChecked (b : Backup) (env : Env) (s0 st : State) : Prop :=
  precedesB Event.isStopReturned Event.touchesVolume st.events = true ∧
    precedesB Event.isCreateOk Event.isVerifyCalled st.events = true ∧
    precedesB Event.isCreateOk Event.isCleanup st.events = true ∧
    precedesB Event.isVerifyOk Event.isCleanup st.events = true ∧
    ((∃ e ∈ st.events, e.isFailure = true) →
      (∀ e ∈ st.events, e.isCleanup = false) ∧ Frame b env s0 st)

/-- The backup object of a default installation, after `New` and `Setup`. -/
def defaultBackup : Backup := (Backup.New Config.Default).Setup

/-- The event is part of the teardown done by `Cleanup`: the service start or
the removal of the lock file. -/
def Event.isTeardown : Event → Bool
  | .serviceStartCalled _ => true
  | .lockRemoveCalled _ => true
  | _ => false

/-- A state in which a lock file is already present at the default lock path. -/
def lockedState : State :=
  (initialState true).writeFile "/var/local/paperless-ngx/backups/backup.lock" [1, 2, 3]

/-! ## Further directory listings for the retention cleanup -/

/-- A backup directory holding one regular archive and a symbolic link whose
name also ends in `.tar.gz`; both are ten or more days old at `exampleNow`, the
link being the older one. -/
def symlinkEntries : List DirEntry :=
  [⟨"20240101_000000.tar.gz", .regular, some (90 * nsPerDay)⟩,
    ⟨"latest.tar.gz", .symlink, some (80 * nsPerDay)⟩]

/-- The directory of the test `TestCleanupIgnoresNonBackupFiles`, with a
subdirectory added whose name looks like an archive: no entry is an archive
file. All are far older than any retention period used in the examples. -/
def noArchiveEntries : List DirEntry :=
  [⟨"readme.txt", .regular, some (10 * nsPerDay)⟩,
    ⟨"backup.log", .regular, some (10 * nsPerDay)⟩,
    ⟨"old.tar.gz", .directory, some (10 * nsPerDay)⟩]

/-- A directory with two old archives next to a text file and a subdirectory
named like an archive. -/
def clutteredEntries : List DirEntry :=
  [⟨"readme.txt", .regular, some (10 * nsPerDay)⟩,
    ⟨"a.tar.gz", .regular, some (99 * nsPerDay)⟩,
    ⟨"old.tar.gz", .directory, some (10 * nsPerDay)⟩,
    ⟨"b.tar.gz", .regular, some (90 * nsPerDay)⟩]

/-- The directory right after a run wrote `19700411_000000.tar.gz` at
`exampleNow`: the new archive is strictly newer than the two older ones. -/
def freshEntries : List DirEntry :=
  [⟨"19700401_000000.tar.gz", .regular, some (90 * nsPerDay)⟩,
    ⟨"19700411_000000.tar.gz", .regular, some exampleNow⟩,
    ⟨"19700406_000000.tar.gz", .regular, some (95 * nsPerDay)⟩]

/-- The zones of Europe/Berlin in force from 26 March 2023 to 31 March 2024:
summer time, two hours east of UTC, until 29 October 2023 at 01:00 UTC, then
one hour east of UTC. -/
def berlin2023 : Location := fun s =>
  if s < 1698541200 then ⟨7200, 1679792400, 1698541200⟩ else ⟨3600, 1698541200, 1711846800⟩

/-- Noon in Berlin on 31 October 2023 (11:00 UTC), two days after the end of
summer time. -/
def noonAfterSummerTime : Time := 1698750000 * 1000000000

/-- An archive written one hour before `noonAfterSummerTime` and one written
72 hours and a half before it. -/
def summerTimeEntries : List DirEntry :=
  [⟨"a.tar.gz", .regular, some ((1698750000 - 3600) * 1000000000)⟩,
    ⟨"b.tar.gz", .regular, some ((1698750000 - 261000) * 1000000000)⟩]

/-- An archive written one hour before `exampleNow` and one stamped two days
after it. -/
def futureEntries : List DirEntry :=
  [⟨"a.tar.gz", .regular, some (exampleNow - 3600 * 1000000000)⟩,
    ⟨"c.tar.gz", .regular, some (exampleNow + 2 * nsPerDay)⟩]


/-- The default installation with a retention of `days` days. -/
def backupWithRetention (days : Int) : Backup :=
  (Backup.New { Config.Default with MaxBackupAgeDays := days }).Setup

/-- The directory after a run into a directory that already holds an archive
stamped two days after the clock: the archive of the run was written one second
after `exampleNow`. -/
def laterStampEntries : List DirEntry :=
  [⟨"19700411_000000.tar.gz", .regular, some (exampleNow + 1000000000)⟩,
    ⟨"restored.tar.gz", .regular, some (exampleNow + 2 * nsPerDay)⟩]

/-- The example run in that directory; the cleanup reads the clock two seconds
after `exampleNow`. -/
def laterStampEnv : Env :=
  { healthyEnv with now := exampleNow + 2000000000, readDir := some laterStampEntries }

/-! ## Files that are not archives: the readers of `compress/gzip` and `archive/tar` -/

/-- The function `appendInt` of package time: the decimal digits of `x`,
after a minus sign when `x` is negative, padded with zeros to `width` digits. -/
def appendInt (x : Int) (width : Nat) : List Char :=
  (if x < 0 then ['-'] else []) ++
    List.replicate (width - (Nat.toDigits 10 x.natAbs).length) '0' ++ Nat.toDigits 10 x.natAbs

/-- Seconds since the epoch on the wall clock of a zone `offset` seconds east
of UTC. -/
def wallSeconds (offset : Int) (t : Time) : Int := t / 1000000000 + offset

/-- The calendar date of the instant `t` on that wall clock. -/
def localDate (offset : Int) (t : Time) : CivilDate := dateOfDay (wallSeconds offset t / 86400)

/-- The second of the day of the instant `t` on that wall clock. -/
def secondOfDay (offset : Int) (t : Time) : Nat := (wallSeconds offset t % 86400).toNat

/-- The hour of the day, 0 to 23. -/
def clockHour (offset : Int) (t : Time) : Nat := secondOfDay offset t / 3600

/-- The minute of the hour. -/
def clockMinute (offset : Int) (t : Time) : Nat := secondOfDay offset t % 3600 / 60

/-- The second of the minute. -/
def clockSecond (offset : Int) (t : Time) : Nat := secondOfDay offset t % 60

/-- The text of `t.Format("20060102_150405")`: year to four digits, month and
day to two, an underscore, hour, minute and second to two digits each. -/
def formatTimestamp (offset : Int) (t : Time) : String :=
  String.mk (appendInt (localDate offset t).year 4 ++ appendInt (localDate offset t).month 2
    ++ appendInt (localDate offset t).day 2 ++ ['_']
    ++ appendInt (clockHour offset t) 2 ++ appendInt (clockMinute offset t) 2
    ++ appendInt (clockSecond offset t) 2)

/-- The timestamp read as the number YYYYMMDDHHMMSS. -/
def stampKey (offset : Int) (t : Time) : Int :=
  (localDate offset t).key * 1000000 + (clockHour offset t : Int) * 10000
    + (clockMinute offset t : Int) * 100 + (clockSecond offset t : Int)

/-- The file name `fmt.Sprintf("%s.tar.gz", timestamp)` that `createBackup`
derives from the clock at the instant `t`. -/
def archiveFileName (offset : Int) (t : Time) : String := formatTimestamp offset t ++ ".tar.gz"


/-! ## Facts about the formatted timestamp -/

theorem lex_cons_iff (a b : Char) (as bs : List Char) :
    a :: as < b :: bs ↔ a < b ∨ (a = b ∧ as < bs) := by
  constructor
  · intro h
    cases h with
    | cons h => exact Or.inr ⟨rfl, h⟩
    | rel h => exact Or.inl h
  · rintro (h | ⟨rfl, h⟩)
    · exact List.Lex.rel h
    · exact List.Lex.cons h

theorem digitChar_lt_iff : ∀ a, a < 10 → ∀ b, b < 10 →
    (Nat.digitChar a < Nat.digitChar b ↔ a < b) := by
  decide

theorem digitChar_eq_iff : ∀ a, a < 10 → ∀ b, b < 10 →
    (Nat.digitChar a = Nat.digitChar b ↔ a = b) := by
  decide

theorem toDigitsCore_step (f n : Nat) (ds : List Char) :
    Nat.toDigitsCore 10 (f + 1) n ds =
      if n / 10 = 0 then Nat.digitChar (n % 10) :: ds
      else Nat.toDigitsCore 10 f (n / 10) (Nat.digitChar (n % 10) :: ds) := rfl

theorem toDigits_lt_10000 (n : Nat) (h : n < 10000) :
    Nat.toDigits 10 n =
      if n < 10 then [Nat.digitChar n]
      else if n < 100 then [Nat.digitChar (n / 10), Nat.digitChar (n % 10)]
      else if n < 1000 then
        [Nat.digitChar (n / 100), Nat.digitChar (n / 10 % 10), Nat.digitChar (n % 10)]
      else [Nat.digitChar (n / 1000), Nat.digitChar (n / 100 % 10),
        Nat.digitChar (n / 10 % 10), Nat.digitChar (n % 10)] := by
  unfold Nat.toDigits
  by_cases h1 : n < 10
  · rw [if_pos h1, toDigitsCore_step, if_pos (by omega), Nat.mod_eq_of_lt h1]
  · rw [if_neg h1]
    obtain ⟨k, rfl⟩ : ∃ k, n = k + 1 := ⟨n - 1, by omega⟩
    rw [toDigitsCore_step, if_neg (by omega), toDigitsCore_step]
    by_cases h2 : k + 1 < 100
    · rw [if_pos h2, if_pos (by omega), Nat.mod_eq_of_lt (by omega : (k + 1) / 10 < 10)]
    · rw [if_neg h2, if_neg (by omega)]
      obtain ⟨j, rfl⟩ : ∃ j, k = j + 1 := ⟨k - 1, by omega⟩
      rw [toDigitsCore_step]
      by_cases h3 : j + 1 + 1 < 1000
      · rw [if_pos h3, if_pos (by omega)]
        have e1 : (j + 1 + 1) / 10 / 10 % 10 = (j + 1 + 1) / 100 := by omega
        rw [e1]
      · rw [if_neg h3, if_neg (by omega)]
        obtain ⟨i, rfl⟩ : ∃ i, j = i + 1 := ⟨j - 1, by omega⟩
        rw [toDigitsCore_step, if_pos (by omega)]
        have e1 : (i + 1 + 1 + 1) / 10 / 10 / 10 % 10 = (i + 1 + 1 + 1) / 1000 := by omega
        have e2 : (i + 1 + 1 + 1) / 10 / 10 % 10 = (i + 1 + 1 + 1) / 100 % 10 := by omega
        rw [e1, e2]

theorem appendInt_two (n : Nat) (h : n < 100) :
    appendInt (n : Int) 2 = [Nat.digitChar (n / 10), Nat.digitChar (n % 10)] := by
  unfold appendInt
  rw [if_neg (by omega), Int.natAbs_ofNat, toDigits_lt_10000 n (by omega)]
  by_cases h1 : n < 10
  · rw [if_pos h1]
    have e : n / 10 = 0 := by omega
    have e2 : n % 10 = n := by omega
    rw [e, e2]
    rfl
  · rw [if_neg h1, if_pos h]
    rfl

theorem appendInt_four (x : Int) (h0 : 0 ≤ x) (h : x ≤ 9999) :
    appendInt x 4 = [Nat.digitChar (x.toNat / 1000), Nat.digitChar (x.toNat / 100 % 10),
      Nat.digitChar (x.toNat / 10 % 10), Nat.digitChar (x.toNat % 10)] := by
  obtain ⟨n, rfl⟩ := Int.eq_ofNat_of_zero_le h0
  unfold appendInt
  rw [if_neg (by omega), Int.natAbs_ofNat, Int.toNat_ofNat, toDigits_lt_10000 n (by omega)]
  by_cases h1 : n < 10
  · rw [if_pos h1]
    have e1 : n / 1000 = 0 := by omega
    have e2 : n / 100 % 10 = 0 := by omega
    have e3 : n / 10 % 10 = 0 := by omega
    have e4 : n % 10 = n := by omega
    rw [e1, e2, e3, e4]
    rfl
  · rw [if_neg h1]
    by_cases h2 : n < 100
    · rw [if_pos h2]
      have e1 : n / 1000 = 0 := by omega
      have e2 : n / 100 % 10 = 0 := by omega
      have e3 : n / 10 % 10 = n / 10 := by omega
      rw [e1, e2, e3]
      rfl
    · rw [if_neg h2]
      by_cases h3 : n < 1000
      · rw [if_pos h3]
        have e1 : n / 1000 = 0 := by omega
        have e2 : n / 100 % 10 = n / 100 := by omega
        rw [e1, e2]
        rfl
      · rw [if_neg h3]
        rfl

theorem appendInt_two_lt (n m : Nat) (hn : n < 100) (hm : m < 100) (r1 r2 : List Char) :
    appendInt (n : Int) 2 ++ r1 < appendInt (m : Int) 2 ++ r2 ↔ n < m ∨ (n = m ∧ r1 < r2) := by
  rw [appendInt_two n hn, appendInt_two m hm]
  simp only [List.cons_append, List.nil_append, lex_cons_iff,
    digitChar_lt_iff (n / 10) (by omega) (m / 10) (by omega),
    digitChar_eq_iff (n / 10) (by omega) (m / 10) (by omega),
    digitChar_lt_iff (n % 10) (by omega) (m % 10) (by omega),
    digitChar_eq_iff (n % 10) (by omega) (m % 10) (by omega)]
  constructor
  · rintro (h | ⟨h1, h | ⟨h2, h3⟩⟩)
    · left; omega
    · left; omega
    · right; exact ⟨by omega, h3⟩
  · rintro (h | ⟨h1, h2⟩)
    · by_cases hq : n / 10 < m / 10
      · exact Or.inl hq
      · exact Or.inr ⟨by omega, Or.inl (by omega)⟩
    · exact Or.inr ⟨by omega, Or.inr ⟨by omega, h2⟩⟩

theorem appendInt_four_lt (x y : Int) (hx0 : 0 ≤ x) (hx : x ≤ 9999) (hy0 : 0 ≤ y)
    (hy : y ≤ 9999) (r1 r2 : List Char) :
    appendInt x 4 ++ r1 < appendInt y 4 ++ r2 ↔ x < y ∨ (x = y ∧ r1 < r2) := by
  rw [appendInt_four x hx0 hx, appendInt_four y hy0 hy]
  obtain ⟨n, rfl⟩ := Int.eq_ofNat_of_zero_le hx0
  obtain ⟨m, rfl⟩ := Int.eq_ofNat_of_zero_le hy0
  simp only [Int.toNat_ofNat, List.cons_append, List.nil_append, lex_cons_iff,
    digitChar_lt_iff (n / 1000) (by omega) (m / 1000) (by omega),
    digitChar_eq_iff (n / 1000) (by omega) (m / 1000) (by omega),
    digitChar_lt_iff (n / 100 % 10) (by omega) (m / 100 % 10) (by omega),
    digitChar_eq_iff (n / 100 % 10) (by omega) (m / 100 % 10) (by omega),
    digitChar_lt_iff (n / 10 % 10) (by omega) (m / 10 % 10) (by omega),
    digitChar_eq_iff (n / 10 % 10) (by omega) (m / 10 % 10) (by omega),
    digitChar_lt_iff (n % 10) (by omega) (m % 10) (by omega),
    digitChar_eq_iff (n % 10) (by omega) (m % 10) (by omega)]
  constructor
  · rintro (h | ⟨h1, h | ⟨h2, h | ⟨h3, h | ⟨h4, h5⟩⟩⟩⟩)
    · left; omega
    · left; omega
    · left; omega
    · left; omega
    · right; exact ⟨by omega, h5⟩
  · rintro (h | ⟨h1, h2⟩)
    · by_cases hq1 : n / 1000 < m / 1000
      · exact Or.inl hq1
      · refine Or.inr ⟨by omega, ?_⟩
        by_cases hq2 : n / 100 % 10 < m / 100 % 10
        · exact Or.inl hq2
        · refine Or.inr ⟨by omega, ?_⟩
          by_cases hq3 : n / 10 % 10 < m / 10 % 10
          · exact Or.inl hq3
          · exact Or.inr ⟨by omega, Or.inl (by omega)⟩
    · have h1n : n = m := by omega
      subst h1n
      exact Or.inr ⟨rfl, Or.inr ⟨rfl, Or.inr ⟨rfl, Or.inr ⟨rfl, h2⟩⟩⟩⟩

/-- The quotients of a year written by its cycles. -/
theorem year_quotients (b cc e ff y : Int) (hcc0 : 0 ≤ cc) (hcc : cc ≤ 3) (he0 : 0 ≤ e)
    (he : e ≤ 24) (hff0 : 0 ≤ ff) (hff : ff ≤ 3)
    (hy : y = 400 * b + 100 * cc + 4 * e + ff + 1) :
    daysBeforeYear y = 146097 * b + 36524 * cc + 1461 * e + 365 * ff ∧
      daysBeforeYear (y + 1) - daysBeforeYear y =
        if ff = 3 ∧ (e < 24 ∨ cc = 3) then 366 else 365 := by
  have hq4 : (y - 1) / 4 = 100 * b + 25 * cc + e := by omega
  have hq100 : (y - 1) / 100 = 4 * b + cc := by omega
  have hq400 : (y - 1) / 400 = b := by omega
  have hr4 : y / 4 = 100 * b + 25 * cc + e + (if ff = 3 then 1 else 0) := by
    split_ifs <;> omega
  have hr100 : y / 100 = 4 * b + cc + (if ff = 3 ∧ e = 24 then 1 else 0) := by
    split_ifs <;> omega
  have hr400 : y / 400 = b + (if ff = 3 ∧ e = 24 ∧ cc = 3 then 1 else 0) := by
    split_ifs <;> omega
  unfold daysBeforeYear
  rw [show y + 1 - 1 = y by ring, hq4, hq100, hq400, hr4, hr100, hr400]
  clear hq4 hq100 hq400 hr4 hr100 hr400
  constructor
  · omega
  · split_ifs <;> omega

theorem year_core (b d1 c e f y yd : Int) (h1 : 0 ≤ d1) (h2 : d1 < 146097)
    (hc : c = d1 / 36524) (he : e = (d1 - 36524 * (c - c / 4)) / 1461)
    (hf : f = (d1 - 36524 * (c - c / 4) - 1461 * e) / 365)
    (hy : y = 400 * b + 100 * (c - c / 4) + 4 * e + (f - f / 4) + 1)
    (hyd : yd = d1 - 36524 * (c - c / 4) - 1461 * e - 365 * (f - f / 4)) :
    daysBeforeYear y + yd = 146097 * b + d1 ∧ 0 ≤ yd ∧
      yd < daysBeforeYear (y + 1) - daysBeforeYear y := by
  have hcc0 : 0 ≤ c - c / 4 := by omega
  have hcc : c - c / 4 ≤ 3 := by omega
  have he0 : 0 ≤ e := by omega
  have he4 : e ≤ 24 := by omega
  have hff0 : 0 ≤ f - f / 4 := by omega
  have hff : f - f / 4 ≤ 3 := by omega
  obtain ⟨hd, hl⟩ := year_quotients b (c - c / 4) e (f - f / 4) y hcc0 hcc he0 he4 hff0 hff hy
  rw [hl, hd]
  clear hd hl
  refine ⟨by omega, by omega, ?_⟩
  split_ifs <;> omega

theorem year_facts (d0 : Int) :
    daysBeforeYear (yearOfDay d0) + yearDay d0 = d0 ∧ 0 ≤ yearDay d0 ∧
      yearDay d0 < daysBeforeYear (yearOfDay d0 + 1) - daysBeforeYear (yearOfDay d0) := by
  have h := year_core (d0 / 146097) (d0 % 146097) _ _ _ (yearOfDay d0) (yearDay d0)
    (by omega) (by omega) rfl rfl rfl rfl rfl
  have e : 146097 * (d0 / 146097) + d0 % 146097 = d0 := Int.ediv_add_emod d0 146097
  rw [e] at h
  exact h

theorem yearLength (y : Int) :
    daysBeforeYear (y + 1) - daysBeforeYear y = if isLeapYear y then 366 else 365 := by
  unfold daysBeforeYear isLeapYear
  rw [show y + 1 - 1 = y by ring]
  split_ifs with h <;> simp only [Bool.and_eq_true, Bool.or_eq_true, decide_eq_true_eq,
    bne_iff_ne, ne_eq] at h <;> omega

theorem daysBeforeYear_mono (y1 y2 : Int) (h : y1 < y2) :
    daysBeforeYear (y1 + 1) ≤ daysBeforeYear y2 := by
  unfold daysBeforeYear
  rw [show y1 + 1 - 1 = y1 by ring]
  omega

theorem year_yday_lt (n m : Int) (h : n < m) :
    yearOfDay n < yearOfDay m ∨ (yearOfDay n = yearOfDay m ∧ yearDay n < yearDay m) := by
  obtain ⟨r1, b1, c1⟩ := year_facts n
  obtain ⟨r2, b2, c2⟩ := year_facts m
  rcases lt_trichotomy (yearOfDay n) (yearOfDay m) with hlt | heq | hgt
  · exact Or.inl hlt
  · right
    refine ⟨heq, ?_⟩
    rw [heq] at r1
    omega
  · exfalso
    have := daysBeforeYear_mono _ _ hgt
    omega

set_option maxRecDepth 100000 in
theorem monthDay_valid : ∀ leap : Bool, ∀ yd, yd < 366 → (leap = true ∨ yd < 365) →
    1 ≤ (monthDay leap yd).1 ∧ (monthDay leap yd).1 ≤ 12 ∧
      1 ≤ (monthDay leap yd).2 ∧ (monthDay leap yd).2 ≤ 31 := by
  decide

set_option maxRecDepth 100000 in
theorem monthDay_step : ∀ leap : Bool, ∀ yd, yd < 365 → (leap = true ∨ yd < 364) →
    (monthDay leap yd).1 * 100 + (monthDay leap yd).2 <
      (monthDay leap (yd + 1)).1 * 100 + (monthDay leap (yd + 1)).2 := by
  decide
theorem monthDay_lt (leap : Bool) (a b : Nat) (hab : a < b) (hb : b < 366)
    (hl : leap = true ∨ b < 365) :
    (monthDay leap a).1 * 100 + (monthDay leap a).2 <
      (monthDay leap b).1 * 100 + (monthDay leap b).2 := by
  induction b with
  | zero => omega
  | succ k ih =>
    have hs := monthDay_step leap k (by omega) (hl.imp id (fun h => by omega))
    rcases Nat.lt_succ_iff_lt_or_eq.mp hab with h | h
    · exact lt_trans (ih h (by omega) (hl.imp id (fun h => by omega))) hs
    · rw [h]
      exact hs

theorem dateOfDay_valid (n : Int) : (dateOfDay n).Valid := by
  obtain ⟨_, b1, c1⟩ := year_facts (n + 719162)
  rw [yearLength] at c1
  unfold dateOfDay CivilDate.Valid
  simp only []
  apply monthDay_valid
  · split_ifs at c1 <;> omega
  · by_cases hl : isLeapYear (yearOfDay (n + 719162)) = true
    · exact Or.inl hl
    · rw [if_neg hl] at c1
      right
      omega

/-- A later day has a later date. -/
theorem dateOfDay_key_lt (n m : Int) (h : n < m) : (dateOfDay n).key < (dateOfDay m).key := by
  have v1 := dateOfDay_valid n
  have v2 := dateOfDay_valid m
  unfold CivilDate.Valid at v1 v2
  obtain ⟨_, b1, c1⟩ := year_facts (n + 719162)
  obtain ⟨_, b2, c2⟩ := year_facts (m + 719162)
  rw [yearLength] at c2
  unfold CivilDate.key
  rcases year_yday_lt (n + 719162) (m + 719162) (by omega) with hy | ⟨hy, hd⟩
  · have e1 : (dateOfDay n).year = yearOfDay (n + 719162) := rfl
    have e2 : (dateOfDay m).year = yearOfDay (m + 719162) := rfl
    rw [e1, e2]
    omega
  · have hm := monthDay_lt (isLeapYear (yearOfDay (m + 719162)))
      (yearDay (n + 719162)).toNat (yearDay (m + 719162)).toNat (by omega)
      (by split_ifs at c2 <;> omega)
      (by
        by_cases hl : isLeapYear (yearOfDay (m + 719162)) = true
        · exact Or.inl hl
        · rw [if_neg hl] at c2
          right
          omega)
    have e1 : (dateOfDay n).year = yearOfDay (n + 719162) := rfl
    have e2 : (dateOfDay m).year = yearOfDay (m + 719162) := rfl
    have e3 : (dateOfDay n).month =
      (monthDay (isLeapYear (yearOfDay (m + 719162))) (yearDay (n + 719162)).toNat).1 := by
      unfold dateOfDay
      simp only [hy]
    have e4 : (dateOfDay n).day =
      (monthDay (isLeapYear (yearOfDay (m + 719162))) (yearDay (n + 719162)).toNat).2 := by
      unfold dateOfDay
      simp only [hy]
    have e5 : (dateOfDay m).month =
      (monthDay (isLeapYear (yearOfDay (m + 719162))) (yearDay (m + 719162)).toNat).1 := rfl
    have e6 : (dateOfDay m).day =
      (monthDay (isLeapYear (yearOfDay (m + 719162))) (yearDay (m + 719162)).toNat).2 := rfl
    rw [e1, e2, e3, e4, e5, e6, hy]
    omega
set_option maxRecDepth 100000 in
theorem monthDay_succ : ∀ leap : Bool, ∀ yd, yd < 365 → (leap = true ∨ yd < 364) →
    (monthDay leap (yd + 1) =
      if (monthDay leap yd).2 < daysInMonth leap (monthDay leap yd).1 then
        ((monthDay leap yd).1, (monthDay leap yd).2 + 1)
      else ((monthDay leap yd).1 + 1, 1)) ∧
    ((monthDay leap yd).2 < daysInMonth leap (monthDay leap yd).1 ∨
      (monthDay leap yd).1 < 12) := by
  decide

theorem monthDay_last : ∀ leap : Bool,
    monthDay leap 0 = (1, 1) ∧ monthDay leap (if leap then 365 else 364) = (12, 31) := by
  decide

/-- The pair of a year and a day of that year is determined by the day number. -/
theorem year_yday_unique (d0 y yd : Int) (h : daysBeforeYear y + yd = d0) (h0 : 0 ≤ yd)
    (h1 : yd < daysBeforeYear (y + 1) - daysBeforeYear y) :
    yearOfDay d0 = y ∧ yearDay d0 = yd := by
  obtain ⟨r, b, c⟩ := year_facts d0
  rcases lt_trichotomy (yearOfDay d0) y with hlt | heq | hgt
  · have := daysBeforeYear_mono _ _ hlt
    omega
  · rw [heq] at r
    exact ⟨heq, by omega⟩
  · have := daysBeforeYear_mono _ _ hgt
    omega

/-- The date of the next day is the next date of the calendar. -/
theorem dateOfDay_succ (n : Int) : dateOfDay (n + 1) = (dateOfDay n).next := by
  obtain ⟨r, b, c⟩ := year_facts (n + 719162)
  have hlen := yearLength (yearOfDay (n + 719162))
  have hlen2 := yearLength (yearOfDay (n + 719162) + 1)
  generalize hy : yearOfDay (n + 719162) = y at *
  generalize hyd : yearDay (n + 719162) = yd at *
  obtain ⟨k, rfl⟩ := Int.eq_ofNat_of_zero_le b
  have hd : dateOfDay n = ⟨y, (monthDay (isLeapYear y) k).1, (monthDay (isLeapYear y) k).2⟩ := by
    unfold dateOfDay
    simp only [hy, hyd, Int.toNat_ofNat]
  by_cases hlast : (k : Int) + 1 < daysBeforeYear (y + 1) - daysBeforeYear y
  · obtain ⟨e1, e2⟩ := year_yday_unique (n + 1 + 719162) y (k + 1) (by omega) (by omega) hlast
    have hd1 : dateOfDay (n + 1) =
        ⟨y, (monthDay (isLeapYear y) (k + 1)).1, (monthDay (isLeapYear y) (k + 1)).2⟩ := by
      unfold dateOfDay
      simp only [e1, e2]
      rfl
    have hk : k < 365 ∧ (isLeapYear y = true ∨ k < 364) := by
      rw [hlen] at hlast
      by_cases hl : isLeapYear y = true
      · rw [if_pos hl] at hlast
        exact ⟨by omega, Or.inl hl⟩
      · rw [if_neg hl] at hlast
        exact ⟨by omega, Or.inr (by omega)⟩
    obtain ⟨hs, hs2⟩ := monthDay_succ (isLeapYear y) k hk.1 hk.2
    rw [hd1, hd, hs]
    unfold CivilDate.next
    simp only []
    by_cases hdm : (monthDay (isLeapYear y) k).2 <
        daysInMonth (isLeapYear y) (monthDay (isLeapYear y) k).1
    · rw [if_pos hdm, if_pos hdm]
    · rw [if_neg hdm, if_neg hdm, if_pos (hs2.resolve_left hdm)]
  · have hk : (k : Int) + 1 = daysBeforeYear (y + 1) - daysBeforeYear y := by omega
    obtain ⟨e1, e2⟩ := year_yday_unique (n + 1 + 719162) (y + 1) 0 (by omega) (by omega)
      (by rw [hlen2]; split_ifs <;> omega)
    have hd1 : dateOfDay (n + 1) = ⟨y + 1, 1, 1⟩ := by
      unfold dateOfDay
      simp only [e1, e2]
      rw [show (0 : Int).toNat = 0 from rfl, (monthDay_last _).1]
    have hmd : monthDay (isLeapYear y) k = (12, 31) := by
      have := (monthDay_last (isLeapYear y)).2
      rw [hlen] at hk
      by_cases hl : isLeapYear y = true
      · rw [hl] at this ⊢
        rw [if_pos hl] at hk
        have hk2 : k = 365 := by omega
        rw [hk2]
        exact this
      · have hl2 : isLeapYear y = false := by simpa using hl
        rw [hl2] at this ⊢
        rw [if_neg hl] at hk
        have hk2 : k = 364 := by omega
        rw [hk2]
        exact this
    rw [hd1, hd, hmd]
    unfold CivilDate.next
    simp [daysInMonth]

theorem dateOfDay_zero : dateOfDay 0 = ⟨1970, 1, 1⟩ := by decide

theorem clock_bounds (offset : Int) (t : Time) :
    clockHour offset t < 24 ∧ clockMinute offset t < 60 ∧ clockSecond offset t < 60 := by
  unfold clockHour clockMinute clockSecond secondOfDay
  omega

theorem archiveFileName_toList (offset : Int) (t : Time) :
    (archiveFileName offset t).toList =
      appendInt (localDate offset t).year 4 ++ (appendInt (localDate offset t).month 2
        ++ (appendInt (localDate offset t).day 2 ++ ('_' :: (appendInt (clockHour offset t) 2
        ++ (appendInt (clockMinute offset t) 2 ++ (appendInt (clockSecond offset t) 2
        ++ ".tar.gz".toList)))))) := by
  unfold archiveFileName formatTimestamp
  simp [String.toList, String.data_append]

/-- Within the years 0000 to 9999 the order of two names is the order of the
numbers their digits spell. -/
theorem archiveFileName_lt_iff (o1 : Int) (t1 : Time) (o2 : Int) (t2 : Time)
    (h1 : 0 ≤ (localDate o1 t1).year) (h1b : (localDate o1 t1).year ≤ 9999)
    (h2 : 0 ≤ (localDate o2 t2).year) (h2b : (localDate o2 t2).year ≤ 9999) :
    archiveFileName o1 t1 < archiveFileName o2 t2 ↔ stampKey o1 t1 < stampKey o2 t2 := by
  have v1 : (localDate o1 t1).Valid := dateOfDay_valid _
  have v2 : (localDate o2 t2).Valid := dateOfDay_valid _
  have c1 := clock_bounds o1 t1
  have c2 := clock_bounds o2 t2
  unfold CivilDate.Valid at v1 v2
  rw [String.lt_iff_toList_lt, archiveFileName_toList, archiveFileName_toList,
    appendInt_four_lt _ _ h1 h1b h2 h2b,
    appendInt_two_lt _ _ (by omega) (by omega),
    appendInt_two_lt _ _ (by omega) (by omega), lex_cons_iff,
    appendInt_two_lt _ _ (by omega) (by omega),
    appendInt_two_lt _ _ (by omega) (by omega),
    appendInt_two_lt _ _ (by omega) (by omega)]
  have hirr : ¬ (".tar.gz".toList < ".tar.gz".toList) := lt_irrefl _
  simp only [hirr, and_false, or_false, lt_self_iff_false, false_or, true_and]
  unfold stampKey CivilDate.key
  omega
theorem wallSeconds_eq (offset t : Int) : wallSeconds offset t = t / 1000000000 + offset := rfl

theorem wallSeconds_le (offset t1 t2 : Int) (h : t1 < t2) :
    wallSeconds offset t1 ≤ wallSeconds offset t2 := by
  rw [wallSeconds_eq, wallSeconds_eq]
  omega

theorem wallSeconds_lt_iff (offset t1 t2 : Int) :
    wallSeconds offset t1 < wallSeconds offset t2 ↔ t1 / 1000000000 < t2 / 1000000000 := by
  rw [wallSeconds_eq, wallSeconds_eq]
  omega

theorem formatTimestamp_congr (o1 : Int) (t1 : Time) (o2 : Int) (t2 : Time)
    (h : wallSeconds o1 t1 = wallSeconds o2 t2) :
    formatTimestamp o1 t1 = formatTimestamp o2 t2 := by
  unfold formatTimestamp localDate clockHour clockMinute clockSecond secondOfDay
  rw [h]

theorem stampKey_congr (o1 : Int) (t1 : Time) (o2 : Int) (t2 : Time)
    (h : wallSeconds o1 t1 = wallSeconds o2 t2) : stampKey o1 t1 = stampKey o2 t2 := by
  unfold stampKey localDate clockHour clockMinute clockSecond secondOfDay
  rw [h]

/-- A later second on the wall clock spells a greater number. -/
theorem stampKey_lt (o1 : Int) (t1 : Time) (o2 : Int) (t2 : Time)
    (h : wallSeconds o1 t1 < wallSeconds o2 t2) : stampKey o1 t1 < stampKey o2 t2 := by
  have v1 : (localDate o1 t1).Valid := dateOfDay_valid _
  have v2 : (localDate o2 t2).Valid := dateOfDay_valid _
  unfold CivilDate.Valid at v1 v2
  unfold stampKey clockHour clockMinute clockSecond secondOfDay
  unfold localDate at *
  generalize wallSeconds o1 t1 = w1 at *
  generalize wallSeconds o2 t2 = w2 at *
  by_cases hd : w1 / 86400 < w2 / 86400
  · have hk := dateOfDay_key_lt _ _ hd
    generalize (dateOfDay (w1 / 86400)).key = k1 at *
    generalize (dateOfDay (w2 / 86400)).key = k2 at *
    omega
  · have hde : w1 / 86400 = w2 / 86400 := by omega
    rw [hde]
    generalize (dateOfDay (w2 / 86400)).key = k2 at *
    omega

theorem stampKey_lt_iff (o1 : Int) (t1 : Time) (o2 : Int) (t2 : Time) :
    stampKey o1 t1 < stampKey o2 t2 ↔ wallSeconds o1 t1 < wallSeconds o2 t2 := by
  constructor
  · intro h
    by_contra hn
    rcases lt_or_eq_of_le (not_lt.mp hn) with h2 | h2
    · exact absurd (stampKey_lt _ _ _ _ h2) (not_lt.mpr (le_of_lt h))
    · rw [stampKey_congr _ _ _ _ h2.symm] at h
      exact lt_irrefl _ h
  · exact stampKey_lt _ _ _ _

/-- Dates in key order have their years in order. -/
theorem year_le_of_wallSeconds_le (o1 : Int) (t1 : Time) (o2 : Int) (t2 : Time)
    (h : wallSeconds o1 t1 ≤ wallSeconds o2 t2) :
    (localDate o1 t1).year ≤ (localDate o2 t2).year := by
  have v1 : (localDate o1 t1).Valid := dateOfDay_valid _
  have v2 : (localDate o2 t2).Valid := dateOfDay_valid _
  unfold CivilDate.Valid at v1 v2
  unfold localDate at *
  rcases lt_or_eq_of_le (Int.ediv_le_ediv (by decide : (0 : Int) < 86400) h) with hd | hd
  · have hk := dateOfDay_key_lt _ _ hd
    unfold CivilDate.key at hk
    omega
  · rw [hd]


/-! ## Facts about the cutoff -/

set_option maxRecDepth 100000 in
theorem monthDay_index : ∀ leap : Bool, ∀ yd, yd < 366 → (leap = true ∨ yd < 365) →
    daysBefore.getD ((monthDay leap yd).1 - 1) 0
      + (if leap = true ∧ (monthDay leap yd).1 ≥ 3 then 1 else 0) + (monthDay leap yd).2 =
        yd + 1 := by
  decide

/-- The days `Date` counts up to a date are the day number of that date. -/
theorem dateOfDay_days (n : Int) :
    daysBeforeYear (dateOfDay n).year - 719162
      + ((daysBefore.getD ((dateOfDay n).month - 1) 0 : Nat) : Int)
      + (if isLeapYear (dateOfDay n).year ∧ (dateOfDay n).month ≥ 3 then 1 else 0)
      + (((dateOfDay n).day : Int) - 1) = n := by
  obtain ⟨r, b, c⟩ := year_facts (n + 719162)
  rw [yearLength] at c
  have hidx := monthDay_index (isLeapYear (yearOfDay (n + 719162)))
    (yearDay (n + 719162)).toNat (by split_ifs at c <;> omega)
    (by
      by_cases hl : isLeapYear (yearOfDay (n + 719162)) = true
      · exact Or.inl hl
      · rw [if_neg hl] at c
        right
        omega)
  have e1 : (dateOfDay n).year = yearOfDay (n + 719162) := rfl
  have e2 : (dateOfDay n).month =
      (monthDay (isLeapYear (yearOfDay (n + 719162))) (yearDay (n + 719162)).toNat).1 := rfl
  have e3 : (dateOfDay n).day =
      (monthDay (isLeapYear (yearOfDay (n + 719162))) (yearDay (n + 719162)).toNat).2 := rfl
  rw [e1, e2, e3]
  generalize (monthDay (isLeapYear (yearOfDay (n + 719162))) (yearDay (n + 719162)).toNat).1
    = m at *
  generalize (monthDay (isLeapYear (yearOfDay (n + 719162))) (yearDay (n + 719162)).toNat).2
    = d at *
  generalize daysBefore.getD (m - 1) 0 = db at *
  by_cases hc : isLeapYear (yearOfDay (n + 719162)) = true ∧ m ≥ 3
  · rw [if_pos hc] at hidx ⊢
    omega
  · rw [if_neg hc] at hidx ⊢
    omega

theorem toInt64_of_range (x : Int) (h1 : -9223372036854775808 ≤ x)
    (h2 : x < 9223372036854775808) : toInt64 x = x := by
  unfold toInt64
  norm_num
  omega

/-- In a location whose offset never changes, `Date` takes that offset off. -/
theorem offsetForWall_const (loc : Location) (o : Int) (h : ∀ s, (loc s).offset = o)
    (unix : Int) : offsetForWall loc unix = o := by
  unfold offsetForWall
  simp only [h]
  split_ifs with h1 <;> simp_all

/-- Without overflow, `AddDate` moves the wall clock by whole days of 86400
seconds and takes off the offset `Date` finds for the new reading. -/
theorem AddDate_eq (loc : Location) (t days : Int)
    (hd1 : -1000000000000 ≤ days) (hd2 : days ≤ 1000000000000)
    (ht1 : -1000000000000000000000000000 ≤ t) (ht2 : t ≤ 1000000000000000000000000000)
    (ho : ∀ s, -1000000 ≤ (loc s).offset ∧ (loc s).offset ≤ 1000000) :
    AddDate loc t days = t + days * nsPerDay
      + ((loc (t / 1000000000)).offset
        - offsetForWall loc (t / 1000000000 + (loc (t / 1000000000)).offset + days * 86400))
        * 1000000000 := by
  have hv := dateOfDay_valid ((t / 1000000000 + (loc (t / 1000000000)).offset) / 86400)
  have hdays := dateOfDay_days ((t / 1000000000 + (loc (t / 1000000000)).offset) / 86400)
  have ho1 := ho (t / 1000000000)
  unfold CivilDate.Valid at hv
  unfold AddDate goDate nsPerDay
  simp only []
  generalize hw : t / 1000000000 + (loc (t / 1000000000)).offset = wall at *
  generalize dateOfDay (wall / 86400) = date at *
  have e1 : toInt64 ((date.day : Int) + days) = (date.day : Int) + days :=
    toInt64_of_range _ (by omega) (by omega)
  rw [e1]
  have e2 : (daysBeforeYear date.year - 719162 + ((daysBefore.getD (date.month - 1) 0 : Nat) : Int)
      + (if isLeapYear date.year ∧ date.month ≥ 3 then 1 else 0)
      + ((date.day : Int) + days - 1)) * 86400 + wall % 86400 = wall + days * 86400 := by
    omega
  rw [e2]
  have e3 : toInt64 (wall + days * 86400) = wall + days * 86400 :=
    toInt64_of_range _ (by omega) (by omega)
  rw [e3]
  have hoff : -1000000 ≤ offsetForWall loc (wall + days * 86400) ∧
      offsetForWall loc (wall + days * 86400) ≤ 1000000 := by
    unfold offsetForWall
    split_ifs
    · exact ho _
    · exact ho _
    · omega
  generalize offsetForWall loc (wall + days * 86400) = o2 at *
  have e4 : toInt64 (wall + days * 86400 - o2 + 62135596800) =
      wall + days * 86400 - o2 + 62135596800 := toInt64_of_range _ (by omega) (by omega)
  rw [e4]
  omega

/-- Without overflow, the cutoff lies `MaxBackupAgeDays` days of 86400 seconds
before `now` on the wall clock: before `now` by that many days, corrected by
the change of the zone offset between the two instants. -/
theorem cutoffTime_eq (loc : Location) (now maxBackupAgeDays : Int)
    (hd1 : -1000000000000 ≤ maxBackupAgeDays) (hd2 : maxBackupAgeDays ≤ 1000000000000)
    (ht1 : -1000000000000000000000000000 ≤ now) (ht2 : now ≤ 1000000000000000000000000000)
    (ho : ∀ s, -1000000 ≤ (loc s).offset ∧ (loc s).offset ≤ 1000000) :
    cutoffTime loc now maxBackupAgeDays = now - maxBackupAgeDays * nsPerDay
      + ((loc (now / 1000000000)).offset
        - offsetForWall loc (now / 1000000000 + (loc (now / 1000000000)).offset
          - maxBackupAgeDays * 86400)) * 1000000000 := by
  unfold cutoffTime
  rw [toInt64_of_range (-maxBackupAgeDays) (by omega) (by omega),
    AddDate_eq loc now (-maxBackupAgeDays) (by omega) (by omega) ht1 ht2 ho]
  have e : now / 1000000000 + (loc (now / 1000000000)).offset + -maxBackupAgeDays * 86400 =
      now / 1000000000 + (loc (now / 1000000000)).offset - maxBackupAgeDays * 86400 := by ring
  rw [e]
  ring

/-- In a zone whose offset never changes, such as UTC, the cutoff is `now`
minus `MaxBackupAgeDays` times 24 hours. -/
theorem cutoffTime_fixed_offset (loc : Location) (now maxBackupAgeDays : Int)
    (hd1 : -1000000000000 ≤ maxBackupAgeDays) (hd2 : maxBackupAgeDays ≤ 1000000000000)
    (ht1 : -1000000000000000000000000000 ≤ now) (ht2 : now ≤ 1000000000000000000000000000)
    (o : Int) (ho1 : -1000000 ≤ o) (ho2 : o ≤ 1000000) (hconst : ∀ s, (loc s).offset = o) :
    cutoffTime loc now maxBackupAgeDays = now - maxBackupAgeDays * nsPerDay := by
  rw [cutoffTime_eq loc now maxBackupAgeDays hd1 hd2 ht1 ht2
    (fun s => by rw [hconst s]; exact ⟨ho1, ho2⟩), offsetForWall_const loc o hconst, hconst]
  ring


theorem utcLocation_offset (s : Int) :
    -1000000 ≤ (utcLocation s).offset ∧ (utcLocation s).offset ≤ 1000000 := by
  show (-1000000 : Int) ≤ 0 ∧ (0 : Int) ≤ 1000000
  decide

/-! ## Facts about the retention cleanup -/

theorem scanBackups_eq (backupDir : String) (cutoff : Time) (entries : List DirEntry) :
    scanBackups backupDir cutoff entries =
      (entries.filterMap (toFileInfo backupDir),
        (entries.filterMap (toFileInfo backupDir)).filter
          (fun fi => decide (fi.ModTime < cutoff))) := by
  induction entries with
  | nil => rfl
  | cons e rest ih =>
    unfold scanBackups
    rw [ih]
    by_cases hd : e.IsDir = true
    · simp [hd, toFileInfo, isArchive, List.filterMap_cons]
    · by_cases hm : filepath.matchTarGz e.Name = true
      · cases hi : e.Info with
        | none => simp [hd, hm, hi, toFileInfo, isArchive, List.filterMap_cons]
        | some t =>
          by_cases hlt : t < cutoff
          · simp [hd, hm, hi, hlt, toFileInfo, isArchive, List.filterMap_cons]
          · simp [hd, hm, hi, hlt, toFileInfo, isArchive, List.filterMap_cons]
      · simp [hd, hm, toFileInfo, isArchive, List.filterMap_cons]

theorem toFileInfo_some {backupDir : String} {e : DirEntry} {fi : FileInfo}
    (h : toFileInfo backupDir e = some fi) :
    isArchive e = true ∧ e.Info = some fi.ModTime ∧
      fi.Path = filepath.Join backupDir e.Name := by
  unfold toFileInfo at h
  by_cases ha : isArchive e = true
  · rw [if_pos ha] at h
    cases hi : e.Info with
    | none => rw [hi] at h; simp at h
    | some t =>
      rw [hi] at h
      simp at h
      subst h
      exact ⟨ha, rfl, rfl⟩
  · rw [if_neg ha] at h
    exact absurd h (by simp)

theorem toFileInfo_of_archive {backupDir : String} {e : DirEntry} {t : Time}
    (ha : isArchive e = true) (hi : e.Info = some t) :
    toFileInfo backupDir e = some ⟨filepath.Join backupDir e.Name, t⟩ := by
  simp [toFileInfo, ha, hi]

theorem allBackups_paths_sublist (backupDir : String) (entries : List DirEntry) :
    ((entries.filterMap (toFileInfo backupDir)).map FileInfo.Path).Sublist
      (entries.map (fun e => filepath.Join backupDir e.Name)) := by
  induction entries with
  | nil => simp
  | cons e rest ih =>
    cases h : toFileInfo backupDir e with
    | none =>
      rw [List.filterMap_cons_none h]
      exact List.Sublist.cons _ ih
    | some fi =>
      rw [List.filterMap_cons_some h, List.map_cons, List.map_cons, (toFileInfo_some h).2.2]
      exact List.Sublist.cons₂ _ ih

theorem deleteLoop_removeCalls (remove : String → Option String) (l : List FileInfo) :
    (deleteLoop remove l).removeCalls = l.map FileInfo.Path := by
  induction l with
  | nil => rfl
  | cons b rest ih =>
    unfold deleteLoop
    cases h : remove b.Path <;> simp [ih]

theorem deleteLoop_deleted (remove : String → Option String) (l : List FileInfo) :
    (deleteLoop remove l).deleted =
      (l.filter (fun b => (remove b.Path).isNone)).map FileInfo.Path := by
  induction l with
  | nil => rfl
  | cons b rest ih =>
    unfold deleteLoop
    cases h : remove b.Path <;> simp [ih, h]

theorem deleteLoop_warn (remove : String → Option String) (l : List FileInfo)
    (fi : FileInfo) (err : String) (hfi : fi ∈ l) (herr : remove fi.Path = some err) :
    (⟨"WARN", "Failed to delete " ++ fi.Path ++ ": " ++ err⟩ : LogLine)
      ∈ (deleteLoop remove l).log := by
  induction l with
  | nil => cases hfi
  | cons b rest ih =>
    unfold deleteLoop
    rcases List.mem_cons.mp hfi with h | h
    · subst h
      simp [herr]
    · have := ih h
      cases hb : remove b.Path <;> simp [this]

theorem insertNewestFirst_perm (x : FileInfo) (l : List FileInfo) :
    (insertNewestFirst x l).Perm (x :: l) := by
  induction l with
  | nil => exact List.Perm.refl _
  | cons y ys ih =>
    unfold insertNewestFirst
    by_cases h : x.ModTime > y.ModTime
    · rw [if_pos h]
    · rw [if_neg h]
      exact (List.Perm.cons y ih).trans (List.Perm.swap x y ys)

theorem insertNewestFirst_sorted (x : FileInfo) (l : List FileInfo)
    (hl : l.Pairwise (fun a b => ¬ b.ModTime > a.ModTime)) :
    (insertNewestFirst x l).Pairwise (fun a b => ¬ b.ModTime > a.ModTime) := by
  induction l with
  | nil => simp [insertNewestFirst]
  | cons y ys ih =>
    unfold insertNewestFirst
    rw [List.pairwise_cons] at hl
    by_cases h : x.ModTime > y.ModTime
    · rw [if_pos h, List.pairwise_cons, List.pairwise_cons]
      refine ⟨?_, hl⟩
      intro b hb
      rcases List.mem_cons.mp hb with hby | hby
      · subst hby
        exact lt_asymm h
      · exact fun hxb => hl.1 b hby (lt_trans h hxb)
    · rw [if_neg h, List.pairwise_cons]
      refine ⟨?_, ih hl.2⟩
      intro b hb
      rcases List.mem_cons.mp ((insertNewestFirst_perm x ys).subset hb) with hbx | hby
      · subst hbx
        exact h
      · exact hl.1 b hby

theorem foldl_insert_spec (l acc : List FileInfo)
    (hacc : acc.Pairwise (fun a b => ¬ b.ModTime > a.ModTime)) :
    (l.foldl (fun acc x => insertNewestFirst x acc) acc).Perm (l ++ acc) ∧
      (l.foldl (fun acc x => insertNewestFirst x acc) acc).Pairwise
        (fun a b => ¬ b.ModTime > a.ModTime) := by
  induction l generalizing acc with
  | nil => exact ⟨List.Perm.refl _, hacc⟩
  | cons x xs ih =>
    have h := ih (insertNewestFirst x acc) (insertNewestFirst_sorted x acc hacc)
    refine ⟨?_, h.2⟩
    rw [List.foldl_cons]
    refine h.1.trans ?_
    refine ((insertNewestFirst_perm x acc).append_left xs).trans ?_
    exact List.perm_middle

/-- The insertion sort meets the contract of `sort.Slice`. -/
theorem insertionSort_sortsNewestFirst : SortsNewestFirst insertionSortNewestFirst := by
  intro l
  have h := foldl_insert_spec l [] List.Pairwise.nil
  rw [List.append_nil] at h
  exact h

theorem cleanupOldBackups_deleted {loc : Location} (sortSlice : List FileInfo → List FileInfo)
    (remove : String → Option String) (backupDir : String) (days : Int) (now : Time)
    (entries : List DirEntry) :
    (cleanupOldBackups loc sortSlice remove backupDir days now (some entries)).deleted =
      if (scanBackups backupDir (cutoffTime loc now days) entries).2.length = 0 then []
      else (deleteLoop remove
        (deletionList (scanBackups backupDir (cutoffTime loc now days) entries).1.length
          (sortSlice (scanBackups backupDir (cutoffTime loc now days) entries).2))).deleted := by
  unfold cleanupOldBackups
  simp only []
  split <;> rfl

theorem cleanupOldBackups_removeCalls {loc : Location} (sortSlice : List FileInfo → List FileInfo)
    (remove : String → Option String) (backupDir : String) (days : Int) (now : Time)
    (entries : List DirEntry) :
    (cleanupOldBackups loc sortSlice remove backupDir days now (some entries)).removeCalls =
      if (scanBackups backupDir (cutoffTime loc now days) entries).2.length = 0 then []
      else (deleteLoop remove
        (deletionList (scanBackups backupDir (cutoffTime loc now days) entries).1.length
          (sortSlice (scanBackups backupDir (cutoffTime loc now days) entries).2))).removeCalls := by
  unfold cleanupOldBackups
  simp only []
  split <;> rfl

theorem allBackups_paths_nodup {backupDir : String} {entries : List DirEntry}
    (hd : DistinctPaths backupDir entries) :
    ((entries.filterMap (toFileInfo backupDir)).map FileInfo.Path).Nodup :=
  List.Nodup.sublist (allBackups_paths_sublist backupDir entries) hd

/-- Whenever something is old, some archive of the directory is outside the
deletion list: the newest old one under the all-old guard, an archive that is
not old otherwise. -/
theorem deletionList_spares_one (sortSlice : List FileInfo → List FileInfo)
    (hsort : SortsNewestFirst sortSlice) (backupDir : String) (cutoff : Time)
    (entries : List DirEntry) (hd : DistinctPaths backupDir entries)
    (hold : (entries.filterMap (toFileInfo backupDir)).filter
      (fun fi => decide (fi.ModTime < cutoff)) ≠ []) :
    ∃ e ∈ entries, isArchive e = true ∧
      filepath.Join backupDir e.Name ∉
        (deletionList (entries.filterMap (toFileInfo backupDir)).length
          (sortSlice ((entries.filterMap (toFileInfo backupDir)).filter
            (fun fi => decide (fi.ModTime < cutoff))))).map FileInfo.Path := by
  have hperm := (hsort ((entries.filterMap (toFileInfo backupDir)).filter
      (fun fi => decide (fi.ModTime < cutoff)))).1
  have hnd := allBackups_paths_nodup hd
  generalize hA : entries.filterMap (toFileInfo backupDir) = A at *
  generalize hO : A.filter (fun fi => decide (fi.ModTime < cutoff)) = O at *
  have hOA : O.Sublist A := hO ▸ List.filter_sublist A
  have hndS : ((sortSlice O).map FileInfo.Path).Nodup :=
    (hperm.map FileInfo.Path).nodup_iff.mpr (List.Nodup.sublist (hOA.map FileInfo.Path) hnd)
  by_cases hguard : (sortSlice O).length ≥ A.length
  · cases hs : sortSlice O with
    | nil =>
      rw [hs] at hperm
      exact absurd hperm.symm.eq_nil hold
    | cons x tl =>
      have hxO : x ∈ O := hperm.subset (by rw [hs]; exact List.mem_cons_self x tl)
      have hxA : x ∈ A := hOA.subset hxO
      rw [← hA] at hxA
      obtain ⟨e, he, hfe⟩ := List.mem_filterMap.mp hxA
      obtain ⟨harch, _, hpath⟩ := toFileInfo_some hfe
      refine ⟨e, he, harch, ?_⟩
      rw [hs] at hguard hndS
      have hdl : deletionList A.length (x :: tl) = tl := by
        unfold deletionList
        rw [if_pos hguard]
        simp
      rw [hdl, ← hpath]
      rw [List.map_cons, List.nodup_cons] at hndS
      exact hndS.1
  · have hdl : deletionList A.length (sortSlice O) = sortSlice O := by
      unfold deletionList
      rw [if_neg hguard]
    have hex : ∃ fi ∈ A, ¬ fi.ModTime < cutoff := by
      by_contra hcon
      push_neg at hcon
      have hfe : A.filter (fun fi => decide (fi.ModTime < cutoff)) = A :=
        List.filter_eq_self.mpr (fun a ha => by simpa using hcon a ha)
      rw [hO] at hfe
      have hlen : (sortSlice O).length = A.length := by rw [hperm.length_eq, hfe]
      exact hguard (le_of_eq hlen.symm)
    obtain ⟨fi, hfiA, hnew⟩ := hex
    have hfiA2 := hfiA
    rw [← hA] at hfiA2
    obtain ⟨e, he, hfe⟩ := List.mem_filterMap.mp hfiA2
    obtain ⟨harch, _, hpath⟩ := toFileInfo_some hfe
    refine ⟨e, he, harch, ?_⟩
    rw [hdl]
    intro hmem
    obtain ⟨fi2, hfi2, hp2⟩ := List.mem_map.mp hmem
    have hfi2O : fi2 ∈ O := hperm.subset hfi2
    have hfi2A : fi2 ∈ A := hOA.subset hfi2O
    have heq : fi2 = fi :=
      List.inj_on_of_nodup_map hnd hfi2A hfiA (by rw [hp2, hpath])
    rw [← hO] at hfi2O
    have := (List.mem_filter.mp hfi2O).2
    rw [heq] at this
    exact hnew (by simpa using this)

theorem deleteLoop_deleted_subset (remove : String → Option String) (l : List FileInfo)
    (p : String) (hp : p ∈ (deleteLoop remove l).deleted) : p ∈ l.map FileInfo.Path := by
  rw [deleteLoop_deleted] at hp
  obtain ⟨fi, hfi, rfl⟩ := List.mem_map.mp hp
  exact List.mem_map.mpr ⟨fi, (List.mem_filter.mp hfi).1, rfl⟩

theorem mem_entriesAfter {backupDir : String} {deleted : List String}
    {entries : List DirEntry} {e : DirEntry} :
    e ∈ entriesAfter backupDir deleted entries ↔
      e ∈ entries ∧ filepath.Join backupDir e.Name ∉ deleted := by
  unfold entriesAfter
  simp [List.mem_filter]

theorem deleteLoop_deleted_all (remove : String → Option String)
    (hrm : ∀ p, remove p = none) (l : List FileInfo) :
    (deleteLoop remove l).deleted = l.map FileInfo.Path := by
  rw [deleteLoop_deleted]
  congr 1
  exact List.filter_eq_self.mpr (fun a _ => by simp [hrm])

theorem mem_oldBackups_iff {backupDir : String} {cutoff : Time} {entries : List DirEntry}
    {fi : FileInfo} :
    fi ∈ (entries.filterMap (toFileInfo backupDir)).filter
        (fun fi => decide (fi.ModTime < cutoff)) ↔
      ∃ e ∈ entries, isArchive e = true ∧ e.Info = some fi.ModTime ∧
        fi.Path = filepath.Join backupDir e.Name ∧ fi.ModTime < cutoff := by
  rw [List.mem_filter, List.mem_filterMap]
  constructor
  · rintro ⟨⟨e, he, hfe⟩, hlt⟩
    obtain ⟨ha, hi, hp⟩ := toFileInfo_some hfe
    exact ⟨e, he, ha, hi, hp, by simpa using hlt⟩
  · rintro ⟨e, he, ha, hi, hp, hlt⟩
    refine ⟨⟨e, he, ?_⟩, by simpa using hlt⟩
    rw [toFileInfo_of_archive ha hi, ← hp]

theorem fileInfoHeader_eraseTimes (fi : FileStat) (link : String) :
    (FileInfoHeader fi.eraseTimes link).map
        (fun h => { h with ModTime := zeroTime, AccessTime := zeroTime,
                           ChangeTime := zeroTime }) =
      (FileInfoHeader fi link).map
        (fun h => { h with ModTime := zeroTime, AccessTime := zeroTime,
                           ChangeTime := zeroTime }) := by
  unfold FileInfoHeader FileStat.eraseTimes
  cases fi.Kind <;> rfl

theorem addToTarVisit_eraseTimes (codec : Codec) (writeErr : Nat → Option String)
    (tw : TarWriter) (v : Visit) :
    addToTarVisit codec writeErr tw v.eraseTimes = addToTarVisit codec writeErr tw v := by
  unfold addToTarVisit Visit.eraseTimes
  cases v.err with
  | some e => rfl
  | none =>
    cases v.info with
    | none => rfl
    | some fi =>
      have h := fileInfoHeader_eraseTimes fi ""
      have hreg : fi.eraseTimes.IsRegular = fi.IsRegular := rfl
      simp only [Option.map_some']
      cases h1 : FileInfoHeader fi.eraseTimes "" with
      | error e =>
        cases h2 : FileInfoHeader fi "" with
        | error e2 =>
          rw [h1, h2] at h
          simp only [Except.map] at h
          rw [Except.error.injEq] at h
          rw [h]
        | ok hd2 =>
          rw [h1, h2] at h
          simp [Except.map] at h
      | ok hd =>
        cases h2 : FileInfoHeader fi "" with
        | error e2 =>
          rw [h1, h2] at h
          simp [Except.map] at h
        | ok hd2 =>
          rw [h1, h2] at h
          simp only [Except.map, Except.ok.injEq, Header.mk.injEq] at h
          obtain ⟨t1, t2, t3, t4, t5, t6, t7, t8, t9, _, _, _, t13, t14⟩ := h
          simp only [hreg]
          rw [t1, t3, t4, t5, t6, t7, t8, t9, t13, t14]

mutual
theorem walk_eraseTimes (path : String) :
    ∀ node : FsNode, walk path node.eraseTimes = (walk path node).map Visit.eraseTimes
  | .file stat openErr bytes => rfl
  | .dir stat readDirErr children => by
    cases readDirErr with
    | some e => rfl
    | none =>
      unfold FsNode.eraseTimes walk
      rw [List.map_cons, walkChildren_eraseTimes path children]
      rfl
theorem walkChildren_eraseTimes (path : String) :
    ∀ f : FsForest, walkChildren path f.eraseTimes = (walkChildren path f).map Visit.eraseTimes
  | .nil => rfl
  | .cons name lstatErr node rest => by
    unfold FsForest.eraseTimes walkChildren
    rw [List.map_append, walkChildren_eraseTimes path rest]
    cases lstatErr with
    | some e => rfl
    | none =>
      simp only []
      rw [walk_eraseTimes (filepath.Join path name) node]
end

theorem Walk_eraseTimes (fs : String → Except String FsNode) (root : String) :
    Walk (fun p => eraseRootTimes (fs p)) root = (Walk fs root).map Visit.eraseTimes := by
  unfold Walk
  show (match eraseRootTimes (fs root) with
    | .error e => _
    | .ok node => _) = _
  cases h : fs root with
  | error e => rfl
  | ok node => exact walk_eraseTimes root node

theorem addVisits_eraseTimes (codec : Codec) (writeErr : Nat → Option String)
    (vs : List Visit) (tw : TarWriter) :
    addVisits codec writeErr tw (vs.map Visit.eraseTimes) = addVisits codec writeErr tw vs := by
  induction vs generalizing tw with
  | nil => rfl
  | cons v rest ih =>
    rw [List.map_cons]
    unfold addVisits
    rw [addToTarVisit_eraseTimes]
    cases addToTarVisit codec writeErr tw v with
    | error e => rfl
    | ok tw1 => exact ih tw1

theorem addToTarVisitWriter_eraseTimes (codec : Codec) (writeErr : Nat → Option String)
    (tw : TarWriter) (v : Visit) :
    addToTarVisitWriter codec writeErr tw v.eraseTimes =
      addToTarVisitWriter codec writeErr tw v := by
  unfold addToTarVisitWriter Visit.eraseTimes
  cases v.err with
  | some e => rfl
  | none =>
    cases v.info with
    | none => rfl
    | some fi =>
      have h := fileInfoHeader_eraseTimes fi ""
      have hreg : fi.eraseTimes.IsRegular = fi.IsRegular := rfl
      simp only [Option.map_some']
      cases h1 : FileInfoHeader fi.eraseTimes "" with
      | error e =>
        cases h2 : FileInfoHeader fi "" with
        | error e2 => rfl
        | ok hd2 =>
          rw [h1, h2] at h
          simp [Except.map] at h
      | ok hd =>
        cases h2 : FileInfoHeader fi "" with
        | error e2 =>
          rw [h1, h2] at h
          simp [Except.map] at h
        | ok hd2 =>
          rw [h1, h2] at h
          simp only [Except.map, Except.ok.injEq, Header.mk.injEq] at h
          obtain ⟨t1, t2, t3, t4, t5, t6, t7, t8, t9, _, _, _, t13, t14⟩ := h
          simp only [hreg]
          rw [t1, t3, t4, t5, t6, t7, t8, t9, t13, t14]

theorem addVisitsWriter_eraseTimes (codec : Codec) (writeErr : Nat → Option String)
    (vs : List Visit) (tw : TarWriter) :
    addVisitsWriter codec writeErr tw (vs.map Visit.eraseTimes) =
      addVisitsWriter codec writeErr tw vs := by
  induction vs generalizing tw with
  | nil => rfl
  | cons v rest ih =>
    rw [List.map_cons]
    unfold addVisitsWriter
    rw [addToTarVisit_eraseTimes, addToTarVisitWriter_eraseTimes]
    cases addToTarVisit codec writeErr tw v with
    | error e => rfl
    | ok tw1 => exact ih tw1

theorem addSourcesWriter_eraseTimes (codec : Codec) (writeErr : Nat → Option String)
    (fs : String → Except String FsNode) (srcs : List String) (tw : TarWriter) :
    addSourcesWriter codec writeErr (fun p => eraseRootTimes (fs p)) tw srcs =
      addSourcesWriter codec writeErr fs tw srcs := by
  induction srcs generalizing tw with
  | nil => rfl
  | cons p rest ih =>
    unfold addSourcesWriter Creator.addToTar
    rw [Walk_eraseTimes, addVisits_eraseTimes, addVisitsWriter_eraseTimes]
    cases addVisits codec writeErr tw (Walk fs p) with
    | error e => rfl
    | ok tw1 => exact ih tw1

theorem addSources_eraseTimes (codec : Codec) (writeErr : Nat → Option String)
    (fs : String → Except String FsNode) (srcs : List String) (tw : TarWriter) :
    addSources codec writeErr (fun p => eraseRootTimes (fs p)) tw srcs =
      addSources codec writeErr fs tw srcs := by
  induction srcs generalizing tw with
  | nil => rfl
  | cons p rest ih =>
    unfold addSources Creator.addToTar
    rw [Walk_eraseTimes, addVisits_eraseTimes]
    cases addVisits codec writeErr tw (Walk fs p) with
    | error e => rfl
    | ok tw1 => exact ih tw1

/-- `Create` does not see the timestamps of the source tree. -/
theorem Create_eraseTimes (codec : Codec) (io : CreateIO) (fs : String → Except String FsNode)
    (outputPath : String) (sourcePaths : List String) :
    Creator.Create codec io (fun p => eraseRootTimes (fs p)) outputPath sourcePaths =
      Creator.Create codec io fs outputPath sourcePaths := by
  unfold Creator.Create
  rw [addSources_eraseTimes, addSourcesWriter_eraseTimes]

theorem appendData_headers (data : List Nat) (es : List TarEntry) :
    (appendData data es).map TarEntry.header = es.map TarEntry.header := by
  induction es with
  | nil => rfl
  | cons e rest ih =>
    cases rest with
    | nil => rfl
    | cons e2 rest2 =>
      unfold appendData
      rw [List.map_cons, List.map_cons, ih]

theorem writeHeader_ok {codec : Codec} {hdr : Header} {tw tw1 : TarWriter}
    (h : tw.WriteHeader codec hdr = .ok tw1) :
    tw1.entries = tw.entries ++ [⟨hdr, []⟩] := by
  unfold TarWriter.WriteHeader at h
  split at h
  · cases h
  · split at h
    · cases h
    · cases h
      rfl

theorem write_ok {data : List Nat} {tw tw1 : TarWriter} (h : tw.Write data = .ok tw1) :
    tw1.entries = appendData data tw.entries := by
  unfold TarWriter.Write at h
  split at h
  · cases h
  · cases h
    rfl

/-- A visit that succeeds adds exactly one header to the stream: the one named
after the walked path, with the three times at the zero time. -/
theorem addToTarVisit_ok {codec : Codec} {writeErr : Nat → Option String}
    {tw tw1 : TarWriter} {v : Visit} (h : addToTarVisit codec writeErr tw v = .ok tw1) :
    ∃ hdr : Header, hdr.Name = entryName v.path ∧ hdr.ModTime = zeroTime ∧
      hdr.AccessTime = zeroTime ∧ hdr.ChangeTime = zeroTime ∧
      tw1.entries.map TarEntry.header = tw.entries.map TarEntry.header ++ [hdr] := by
  unfold addToTarVisit at h
  split at h
  · cases h
  · split at h
    · cases h
    · split at h
      · cases h
      · rename_i info _ header _
        simp only [] at h
        split at h
        · cases h
        · split at h
          · cases h
          · rename_i tw2 hw
            have hw2 := writeHeader_ok hw
            refine ⟨Header.mk header.Typeflag (entryName v.path) header.Linkname header.Size
              header.Mode header.Uid header.Gid header.Uname header.Gname zeroTime zeroTime
              zeroTime header.Devmajor header.Devminor, rfl, rfl, rfl, rfl, ?_⟩
            split at h
            · cases h
              rw [hw2, List.map_append]
              rfl
            · split at h
              · cases h
              · rw [write_ok h, appendData_headers, hw2, List.map_append]
                rfl

theorem addVisits_ok {codec : Codec} {writeErr : Nat → Option String} (vs : List Visit)
    {tw tw1 : TarWriter} (h : addVisits codec writeErr tw vs = .ok tw1) :
    ∃ hs : List Header, hs.map Header.Name = vs.map (fun v => entryName v.path) ∧
      (∀ hdr ∈ hs, hdr.ModTime = zeroTime ∧ hdr.AccessTime = zeroTime ∧
        hdr.ChangeTime = zeroTime) ∧
      tw1.entries.map TarEntry.header = tw.entries.map TarEntry.header ++ hs := by
  induction vs generalizing tw with
  | nil =>
    cases h
    exact ⟨[], rfl, fun _ hm => (List.not_mem_nil _ hm).elim, by simp⟩
  | cons v rest ih =>
    unfold addVisits at h
    split at h
    · cases h
    · rename_i tw2 hv
      obtain ⟨hdr, hn, h1, h2, h3, he⟩ := addToTarVisit_ok hv
      obtain ⟨hs, hns, hz, hes⟩ := ih h
      refine ⟨hdr :: hs, ?_, ?_, ?_⟩
      · rw [List.map_cons, List.map_cons, hn, hns]
      · intro x hx
        rcases List.mem_cons.mp hx with rfl | hx
        · exact ⟨h1, h2, h3⟩
        · exact hz x hx
      · rw [hes, he, List.append_assoc]
        rfl

theorem addSources_ok {codec : Codec} {writeErr : Nat → Option String}
    {fs : String → Except String FsNode} (srcs : List String)
    {tw tw1 : TarWriter} (h : addSources codec writeErr fs tw srcs = .ok tw1) :
    ∃ hs : List Header,
      hs.map Header.Name = (srcs.flatMap (Walk fs)).map (fun v => entryName v.path) ∧
      (∀ hdr ∈ hs, hdr.ModTime = zeroTime ∧ hdr.AccessTime = zeroTime ∧
        hdr.ChangeTime = zeroTime) ∧
      tw1.entries.map TarEntry.header = tw.entries.map TarEntry.header ++ hs := by
  induction srcs generalizing tw with
  | nil =>
    cases h
    exact ⟨[], rfl, fun _ hm => (List.not_mem_nil _ hm).elim, by simp⟩
  | cons p rest ih =>
    unfold addSources Creator.addToTar at h
    split at h
    · cases h
    · rename_i tw2 hv
      obtain ⟨hs1, hn1, hz1, he1⟩ := addVisits_ok _ hv
      obtain ⟨hs2, hn2, hz2, he2⟩ := ih h
      refine ⟨hs1 ++ hs2, ?_, ?_, ?_⟩
      · rw [List.flatMap_cons, List.map_append, List.map_append, hn1, hn2]
      · intro x hx
        rcases List.mem_append.mp hx with hx | hx
        · exact hz1 x hx
        · exact hz2 x hx
      · rw [he2, he1, List.append_assoc]

theorem visitedCount_eq (fs : String → Except String FsNode) (srcs : List String) :
    visitedCount fs srcs = (srcs.flatMap (Walk fs)).length := by
  unfold visitedCount
  induction srcs with
  | nil => rfl
  | cons p rest ih =>
    rw [List.map_cons, List.sum_cons, ih, List.flatMap_cons, List.length_append]

theorem verifyLoop_eof (hs : List Header) (n : Nat) :
    verifyLoop hs none n = .ok (n + hs.length) := by
  induction hs generalizing n with
  | nil => rfl
  | cons h rest ih =>
    unfold verifyLoop
    rw [ih, List.length_cons]
    congr 1
    omega

theorem appendData_append_singleton (data : List Nat) (init : List TarEntry)
    (last : TarEntry) :
    appendData data (init ++ [last]) = init ++ [{ last with data := last.data ++ data }] := by
  induction init with
  | nil => rfl
  | cons a rest ih =>
    cases rest with
    | nil => rfl
    | cons b rest2 =>
      rw [List.cons_append, List.cons_append]
      unfold appendData
      rw [← List.cons_append, ih]
      rfl

theorem writerInv_complete {codec : Codec} {tw : TarWriter} (h : WriterInv codec tw)
    (hr : tw.remaining = 0) : ∀ e ∈ tw.entries, e.Complete codec := by
  rcases h with ⟨he, _⟩ | ⟨init, last, he, hinit, hhdr, hlen⟩
  · intro e hm
    rw [he] at hm
    exact (List.not_mem_nil _ hm).elim
  · intro e hm
    rw [he] at hm
    rcases List.mem_append.mp hm with hm | hm
    · exact hinit e hm
    · rw [List.mem_singleton.mp hm]
      rw [hr, Nat.add_zero] at hlen
      exact ⟨hhdr, hlen⟩

theorem writeHeader_inv {codec : Codec} {hdr : Header} {tw tw1 : TarWriter}
    (hinv : WriterInv codec tw) (h : tw.WriteHeader codec hdr = .ok tw1) :
    WriterInv codec tw1 := by
  unfold TarWriter.WriteHeader at h
  split at h
  · cases h
  · rename_i hrem
    split at h
    · cases h
    · rename_i hhdr
      cases h
      have hr : tw.remaining = 0 := by omega
      exact Or.inr ⟨tw.entries, ⟨hdr, []⟩, rfl, writerInv_complete hinv hr, hhdr,
        by simp⟩

theorem write_inv {codec : Codec} {data : List Nat} {tw tw1 : TarWriter}
    (hinv : WriterInv codec tw) (h : tw.Write data = .ok tw1) : WriterInv codec tw1 := by
  unfold TarWriter.Write at h
  split at h
  · cases h
  · rename_i hle
    cases h
    rcases hinv with ⟨he, hr⟩ | ⟨init, last, he, hinit, hhdr, hlen⟩
    · left
      refine ⟨?_, ?_⟩
      · show appendData data tw.entries = []
        rw [he]
        rfl
      · show tw.remaining - data.length = 0
        omega
    · right
      refine ⟨init, { last with data := last.data ++ data }, ?_, hinit, hhdr, ?_⟩
      · show appendData data tw.entries = _
        rw [he, appendData_append_singleton]
      · show (last.data ++ data).length + (tw.remaining - data.length) = _
        rw [List.length_append, ← hlen]
        omega

theorem addToTarVisit_inv {codec : Codec} {writeErr : Nat → Option String}
    {tw tw1 : TarWriter} {v : Visit} (hinv : WriterInv codec tw)
    (h : addToTarVisit codec writeErr tw v = .ok tw1) : WriterInv codec tw1 := by
  unfold addToTarVisit at h
  split at h
  · cases h
  · split at h
    · cases h
    · split at h
      · cases h
      · simp only [] at h
        split at h
        · cases h
        · split at h
          · cases h
          · rename_i tw2 hw
            have h2 := writeHeader_inv hinv hw
            split at h
            · cases h
              exact h2
            · split at h
              · cases h
              · exact write_inv h2 h

theorem addVisits_inv {codec : Codec} {writeErr : Nat → Option String} (vs : List Visit)
    {tw tw1 : TarWriter} (hinv : WriterInv codec tw)
    (h : addVisits codec writeErr tw vs = .ok tw1) : WriterInv codec tw1 := by
  induction vs generalizing tw with
  | nil =>
    cases h
    exact hinv
  | cons v rest ih =>
    unfold addVisits at h
    split at h
    · cases h
    · rename_i tw2 hv
      exact ih (addToTarVisit_inv hinv hv) h

theorem addSources_inv {codec : Codec} {writeErr : Nat → Option String}
    {fs : String → Except String FsNode} (srcs : List String)
    {tw tw1 : TarWriter} (hinv : WriterInv codec tw)
    (h : addSources codec writeErr fs tw srcs = .ok tw1) : WriterInv codec tw1 := by
  induction srcs generalizing tw with
  | nil =>
    cases h
    exact hinv
  | cons p rest ih =>
    unfold addSources Creator.addToTar at h
    split at h
    · cases h
    · rename_i tw2 hv
      exact ih (addVisits_inv _ hinv hv) h

/-- What a successful `Create` has done: the destination holds the gzip
stream, with the zero time in its header, of the tar stream of the entries
written, its mode is 0600, and the headers written are one per visit, named
after the visited paths, with zero times. -/
theorem Create_ok {codec : Codec} {io : CreateIO} {fs : String → Except String FsNode}
    {outputPath : String} {sourcePaths : List String}
    (h : (Creator.Create codec io fs outputPath sourcePaths).err = none) :
    (Creator.Create codec io fs outputPath sourcePaths).dest =
        some ⟨some (codec.gzipEncode zeroTime (codec.tarEncode
          (Creator.Create codec io fs outputPath sourcePaths).written)), 384⟩ ∧
      ((Creator.Create codec io fs outputPath sourcePaths).written.map
          (fun e => e.header.Name) =
        (sourcePaths.flatMap (Walk fs)).map (fun v => entryName v.path)) ∧
      (∀ e ∈ (Creator.Create codec io fs outputPath sourcePaths).written,
        e.Complete codec) := by
  unfold Creator.Create at h ⊢
  simp only [] at h ⊢
  split at h
  · cases h
  · split at h
    · cases h
    · rename_i tw hadd
      split at h
      · cases h
      · rename_i tw2 hclose
        have htw : tw2 = tw ∧ tw.remaining = 0 := by
          unfold TarWriter.Close at hclose
          split at hclose
          · cases hclose
          · cases hclose
            exact ⟨rfl, by omega⟩
        obtain ⟨htw, hrem⟩ := htw
        subst htw
        have hcomplete := writerInv_complete
          (addSources_inv _ (Or.inl ⟨rfl, rfl⟩) hadd) hrem
        split at h
        · cases h
        · split at h
          · cases h
          · split at h
            · cases h
            · split at h
              · cases h
              · refine ⟨rfl, ?_, hcomplete⟩
                obtain ⟨hs, hn, _, he⟩ := addSources_ok _ hadd
                rw [← hn]
                simp only [List.map_nil, List.nil_append] at he
                rw [← he, List.map_map]
                rfl

theorem zeroTimes_of_headers {es1 es2 : List TarEntry} {l : List Header}
    (h1 : ∀ e ∈ es1, e.header.ZeroTimes) (hz : ∀ hdr ∈ l, hdr.ZeroTimes)
    (he : es2.map TarEntry.header = es1.map TarEntry.header ++ l) :
    ∀ e ∈ es2, e.header.ZeroTimes := by
  intro e hm
  have := List.mem_map_of_mem TarEntry.header hm
  rw [he] at this
  rcases List.mem_append.mp this with hx | hx
  · obtain ⟨e1, he1, heq⟩ := List.mem_map.mp hx
    rw [← heq]
    exact h1 e1 he1
  · exact hz _ hx

/-- Whatever a visit leaves in the tar writer carries the zero time. -/
theorem addToTarVisitWriter_zero (codec : Codec) (writeErr : Nat → Option String)
    (tw : TarWriter) (v : Visit) (h : ∀ e ∈ tw.entries, e.header.ZeroTimes) :
    ∀ e ∈ (addToTarVisitWriter codec writeErr tw v).entries, e.header.ZeroTimes := by
  unfold addToTarVisitWriter
  split
  · exact h
  · split
    · exact h
    · split
      · exact h
      · rename_i info _ header _
        simp only []
        split
        · exact h
        · split
          · exact h
          · rename_i tw2 hw
            have hw2 := writeHeader_ok hw
            have h2 : ∀ e ∈ tw2.entries, e.header.ZeroTimes :=
              zeroTimes_of_headers h
                (l := [Header.mk header.Typeflag (entryName v.path) header.Linkname header.Size
                  header.Mode header.Uid header.Gid header.Uname header.Gname zeroTime zeroTime
                  zeroTime header.Devmajor header.Devminor])
                (fun hdr hm => by
                  rw [List.mem_singleton.mp hm]
                  exact ⟨rfl, rfl, rfl⟩)
                (by rw [hw2, List.map_append]; rfl)
            split
            · exact h2
            · split
              · exact h2
              · exact zeroTimes_of_headers h2 (l := [])
                  (fun _ hm => (List.not_mem_nil _ hm).elim)
                  (by rw [appendData_headers, List.append_nil])

theorem addToTarVisit_zero {codec : Codec} {writeErr : Nat → Option String}
    {tw tw1 : TarWriter} {v : Visit} (hv : addToTarVisit codec writeErr tw v = .ok tw1)
    (h : ∀ e ∈ tw.entries, e.header.ZeroTimes) : ∀ e ∈ tw1.entries, e.header.ZeroTimes := by
  obtain ⟨hdr, _, h1, h2, h3, he⟩ := addToTarVisit_ok hv
  exact zeroTimes_of_headers h
    (fun x hx => by rw [List.mem_singleton.mp hx]; exact ⟨h1, h2, h3⟩) he

theorem addVisitsWriter_zero (codec : Codec) (writeErr : Nat → Option String)
    (vs : List Visit) (tw : TarWriter) (h : ∀ e ∈ tw.entries, e.header.ZeroTimes) :
    ∀ e ∈ (addVisitsWriter codec writeErr tw vs).entries, e.header.ZeroTimes := by
  induction vs generalizing tw with
  | nil => exact h
  | cons v rest ih =>
    unfold addVisitsWriter
    split
    · exact addToTarVisitWriter_zero codec writeErr tw v h
    · rename_i tw1 hv
      exact ih tw1 (addToTarVisit_zero hv h)

theorem addVisits_zero {codec : Codec} {writeErr : Nat → Option String} (vs : List Visit)
    {tw tw1 : TarWriter} (hv : addVisits codec writeErr tw vs = .ok tw1)
    (h : ∀ e ∈ tw.entries, e.header.ZeroTimes) : ∀ e ∈ tw1.entries, e.header.ZeroTimes := by
  obtain ⟨hs, _, hz, he⟩ := addVisits_ok vs hv
  exact zeroTimes_of_headers h hz he

theorem addSourcesWriter_zero (codec : Codec) (writeErr : Nat → Option String)
    (fs : String → Except String FsNode) (srcs : List String) (tw : TarWriter)
    (h : ∀ e ∈ tw.entries, e.header.ZeroTimes) :
    ∀ e ∈ (addSourcesWriter codec writeErr fs tw srcs).entries, e.header.ZeroTimes := by
  induction srcs generalizing tw with
  | nil => exact h
  | cons p rest ih =>
    unfold addSourcesWriter Creator.addToTar
    split
    · exact addVisitsWriter_zero codec writeErr _ tw h
    · rename_i tw1 hv
      exact ih tw1 (addVisits_zero _ hv h)

/-- Every header `Create` reports as written carries the zero time three times. -/
theorem Create_written_zero (codec : Codec) (io : CreateIO)
    (fs : String → Except String FsNode) (outputPath : String) (sourcePaths : List String) :
    ∀ e ∈ (Creator.Create codec io fs outputPath sourcePaths).written,
      e.header.ModTime = zeroTime ∧ e.header.AccessTime = zeroTime ∧
        e.header.ChangeTime = zeroTime := by
  have key : ∀ tw : TarWriter,
      addSources codec io.writeErr fs ⟨[], 0⟩ sourcePaths = .ok tw →
      ∀ e ∈ tw.entries, e.header.ModTime = zeroTime ∧ e.header.AccessTime = zeroTime ∧
        e.header.ChangeTime = zeroTime := by
    intro tw hadd e he
    obtain ⟨hs, _, hz, hes⟩ := addSources_ok _ hadd
    simp only [List.map_nil, List.nil_append] at hes
    exact hz e.header (hes ▸ List.mem_map_of_mem TarEntry.header he)
  unfold Creator.Create
  simp only []
  split
  · intro e he
    exact (List.not_mem_nil _ he).elim
  · split
    · exact addSourcesWriter_zero codec io.writeErr fs sourcePaths ⟨[], 0⟩
        (fun _ he => (List.not_mem_nil _ he).elim)
    · rename_i tw hadd
      have hk := key tw hadd
      split
      · exact hk
      · rename_i tw2 hclose
        have htw : tw2 = tw := by
          unfold TarWriter.Close at hclose
          split at hclose
          · cases hclose
          · cases hclose
            rfl
        subst htw
        split
        · exact hk
        · split
          · exact hk
          · split
            · exact hk
            · split
              · exact hk
              · exact hk

theorem entryName_no_leading_slash (path : String)
    (h : strings.HasPrefix path "//" = false) :
    strings.HasPrefix (entryName path) "/" = false := by
  unfold entryName strings.TrimPrefix
  by_cases hp : strings.HasPrefix path "/" = true
  · rw [if_pos hp, if_pos hp]
    unfold strings.HasPrefix at *
    have h1 : "/".toList = ['/'] := rfl
    have h2 : "//".toList = ['/', '/'] := rfl
    have h3 : "/".length = 1 := rfl
    rw [h1] at hp ⊢
    rw [h2] at h
    rw [h3]
    cases hl : path.toList with
    | nil => rfl
    | cons c cs =>
      rw [hl] at hp h
      cases cs with
      | nil => rfl
      | cons d ds =>
        simp only [List.isPrefixOf, Bool.and_true, Bool.and_eq_true, beq_iff_eq,
          Bool.and_eq_false_imp] at hp h ⊢
        exact h hp
  · rw [if_neg hp]
    exact Bool.eq_false_iff.mpr hp

/-! ## Facts about the orchestrator -/

theorem precedes_of_precedesB (earlier later : Event → Bool) (l : List Event)
    (h : precedesB earlier later l = true) : Precedes earlier later l := by
  induction l with
  | nil =>
    intro pre e post hsplit _
    cases pre <;> cases hsplit
  | cons x l ih =>
    unfold precedesB at h
    rw [Bool.and_eq_true, Bool.or_eq_true] at h
    intro pre e post hsplit hlater
    cases pre with
    | nil =>
      rw [List.nil_append, List.cons.injEq] at hsplit
      rw [hsplit.1, hlater] at h
      exact absurd h.1 (by decide)
    | cons y pre1 =>
      rw [List.cons_append, List.cons.injEq] at hsplit
      rcases h.2 with hx | hl
      · exact ⟨y, List.mem_cons_self y pre1, hsplit.1 ▸ hx⟩
      · obtain ⟨e1, he1, hp⟩ := ih hl pre1 e post hsplit.2 hlater
        exact ⟨e1, List.mem_cons_of_mem y he1, hp⟩

theorem precedesB_of_none (earlier later : Event → Bool) (l : List Event)
    (h : ∀ e ∈ l, later e = false) : precedesB earlier later l = true := by
  induction l with
  | nil => rfl
  | cons x l ih =>
    unfold precedesB
    rw [h x (List.mem_cons_self x l), ih (fun e he => h e (List.mem_cons_of_mem x he))]
    simp

theorem precedesB_append_none (earlier later : Event → Bool) (l1 l2 : List Event)
    (h1 : precedesB earlier later l1 = true) (h2 : ∀ e ∈ l2, later e = false) :
    precedesB earlier later (l1 ++ l2) = true := by
  induction l1 with
  | nil => exact precedesB_of_none earlier later l2 h2
  | cons x l ih =>
    unfold precedesB at h1
    rw [Bool.and_eq_true, Bool.or_eq_true] at h1
    rw [List.cons_append]
    unfold precedesB
    rw [Bool.and_eq_true, Bool.or_eq_true]
    refine ⟨h1.1, ?_⟩
    by_cases hx : earlier x = true
    · exact Or.inl hx
    · exact Or.inr (ih (h1.2.resolve_left hx))

theorem precedesB_append_of_mem (earlier later : Event → Bool) (l1 l2 : List Event)
    (h1 : precedesB earlier later l1 = true) (hmem : ∃ e ∈ l1, earlier e = true) :
    precedesB earlier later (l1 ++ l2) = true := by
  induction l1 with
  | nil =>
    obtain ⟨e, he, _⟩ := hmem
    cases he
  | cons x l ih =>
    unfold precedesB at h1
    rw [Bool.and_eq_true, Bool.or_eq_true] at h1
    rw [List.cons_append]
    unfold precedesB
    rw [Bool.and_eq_true, Bool.or_eq_true]
    refine ⟨h1.1, ?_⟩
    by_cases hx : earlier x = true
    · exact Or.inl hx
    · right
      apply ih (h1.2.resolve_left hx)
      obtain ⟨e, he, hp⟩ := hmem
      rcases List.mem_cons.mp he with rfl | he
      · exact absurd hp hx
      · exact ⟨e, he, hp⟩

theorem holds_andThen {α β : Type} {o : Outcome α} {f : α → State → Outcome β}
    {E : State → Prop} {Q : α → State → Prop} {R : β → State → Prop}
    (h : o.Holds E Q) (hf : ∀ a s, Q a s → (f a s).Holds E R) :
    (o.andThen f).Holds E R := by
  cases o with
  | returned a s => exact hf a s h
  | exited c s => exact h

theorem safe_emit_plain {b : Backup} {env : Env} {s0 s : State} {e : Event}
    (h : Safe b env s0 s) (h1 : e.touchesVolume = false) (h2 : e.isVerifyCalled = false)
    (h3 : e.isCleanup = false) : Safe b env s0 (s.emit e) := by
  obtain ⟨p1, p2, p3, p4⟩ := h
  refine ⟨?_, ?_, ?_, p4⟩
  · exact precedesB_append_none _ _ _ _ p1 (by simpa using h1)
  · exact precedesB_append_none _ _ _ _ p2 (by simpa using h2)
  · intro x hx
    rcases List.mem_append.mp hx with hx | hx
    · exact p3 x hx
    · rw [List.mem_singleton.mp hx]
      exact h3

theorem safe_emit_touch {b : Backup} {env : Env} {s0 s : State} {e : Event}
    (h : Safe b env s0 s) (hs : Stopped s) (h2 : e.isVerifyCalled = false)
    (h3 : e.isCleanup = false) : Safe b env s0 (s.emit e) := by
  obtain ⟨p1, p2, p3, p4⟩ := h
  refine ⟨?_, ?_, ?_, p4⟩
  · exact precedesB_append_of_mem _ _ _ _ p1 hs
  · exact precedesB_append_none _ _ _ _ p2 (by simpa using h2)
  · intro x hx
    rcases List.mem_append.mp hx with hx | hx
    · exact p3 x hx
    · rw [List.mem_singleton.mp hx]
      exact h3

theorem safe_emit_verifyCalled {b : Backup} {env : Env} {s0 s : State} {e : Event}
    (h : Safe b env s0 s) (hc : Created s) (h1 : e.touchesVolume = false)
    (h3 : e.isCleanup = false) : Safe b env s0 (s.emit e) := by
  obtain ⟨p1, p2, p3, p4⟩ := h
  refine ⟨?_, ?_, ?_, p4⟩
  · exact precedesB_append_none _ _ _ _ p1 (by simpa using h1)
  · exact precedesB_append_of_mem _ _ _ _ p2 hc
  · intro x hx
    rcases List.mem_append.mp hx with hx | hx
    · exact p3 x hx
    · rw [List.mem_singleton.mp hx]
      exact h3

theorem noFailure_emit {s : State} {e : Event} (h : ∀ x ∈ s.events, x.isFailure = false)
    (h4 : e.isFailure = false) : ∀ x ∈ (s.emit e).events, x.isFailure = false := by
  intro x hx
  rcases List.mem_append.mp hx with hx | hx
  · exact h x hx
  · rw [List.mem_singleton.mp hx]
    exact h4

theorem good_emit_plain {b : Backup} {env : Env} {s0 s : State} {e : Event}
    (h : Good b env s0 s) (h1 : e.touchesVolume = false) (h2 : e.isVerifyCalled = false)
    (h3 : e.isCleanup = false) (h4 : e.isFailure = false) : Good b env s0 (s.emit e) :=
  ⟨safe_emit_plain h.1 h1 h2 h3, noFailure_emit h.2 h4⟩

theorem good_emit_touch {b : Backup} {env : Env} {s0 s : State} {e : Event}
    (h : Good b env s0 s) (hs : Stopped s) (h2 : e.isVerifyCalled = false)
    (h3 : e.isCleanup = false) (h4 : e.isFailure = false) : Good b env s0 (s.emit e) :=
  ⟨safe_emit_touch h.1 hs h2 h3, noFailure_emit h.2 h4⟩

theorem good_emit_verifyCalled {b : Backup} {env : Env} {s0 s : State} {e : Event}
    (h : Good b env s0 s) (hc : Created s) (h1 : e.touchesVolume = false)
    (h3 : e.isCleanup = false) (h4 : e.isFailure = false) : Good b env s0 (s.emit e) :=
  ⟨safe_emit_verifyCalled h.1 hc h1 h3, noFailure_emit h.2 h4⟩

theorem stopped_emit {s : State} {e : Event} (h : Stopped s) : Stopped (s.emit e) := by
  obtain ⟨x, hx, hp⟩ := h
  exact ⟨x, List.mem_append_left _ hx, hp⟩

theorem created_emit {s : State} {e : Event} (h : Created s) : Created (s.emit e) := by
  obtain ⟨x, hx, hp⟩ := h
  exact ⟨x, List.mem_append_left _ hx, hp⟩

theorem runChecked_of_safe {b : Backup} {env : Env} {s0 st : State} (h : Safe b env s0 st) :
    RunChecked b env s0 st :=
  ⟨h.1, h.2.1, precedesB_of_none _ _ _ h.2.2.1, precedesB_of_none _ _ _ h.2.2.1,
    fun _ => ⟨h.2.2.1, h.2.2.2⟩⟩

/-- A state with the same events whose files differ at most at the archive of
the run keeps `Safe`. -/
theorem safe_of_frame {b : Backup} {env : Env} {s0 s : State} (s1 : State)
    (h : Safe b env s0 s) (he : s1.events = s.events)
    (hf : ∀ p, p ≠ b.archivePath env → s1.files p = s.files p) : Safe b env s0 s1 := by
  unfold Safe at *
  rw [he]
  refine ⟨h.1, h.2.1, h.2.2.1, ?_⟩
  intro p hp1 hp2
  rw [hf p hp2]
  exact h.2.2.2 p hp1 hp2

theorem good_of_eq {b : Backup} {env : Env} {s0 s : State} (s1 : State) (h : Good b env s0 s)
    (he : s1.events = s.events) (hf : s1.files = s.files) : Good b env s0 s1 := by
  unfold Good Safe Frame at *
  rw [he, hf]
  exact h

theorem stopped_of_eq {s : State} (s1 : State) (h : Stopped s) (he : s1.events = s.events) :
    Stopped s1 := by
  unfold Stopped at *
  rw [he]
  exact h

theorem checkLock_holds (b : Backup) (env : Env) (s0 s : State) (h : Good b env s0 s) :
    (b.checkLock env s).Holds (Good b env s0) (fun _ st => Good b env s0 st) := by
  unfold Backup.checkLock
  cases hl : s.files b.lockPath with
  | some c => exact h
  | none =>
    cases hw : env.lockWritable with
    | false => exact h
    | true =>
      have hg : Good b env s0 (s.writeFile b.lockPath []) := by
        refine ⟨⟨h.1.1, h.1.2.1, h.1.2.2.1, ?_⟩, h.2⟩
        intro p hp hp2
        show (if p = b.lockPath then some [] else s.files p) = s0.files p
        rw [if_neg hp]
        exact h.1.2.2.2 p hp hp2
      exact good_emit_plain hg rfl rfl rfl rfl

theorem requiredTools_holds (env : Env) (s : State) (P : State → Prop)
    (hP : ∀ lv m st, P st → P (Logger.Log lv m st)) (h : P s) :
    (Checker.RequiredTools env s).Holds P (fun _ st => P st) := by
  unfold Checker.RequiredTools
  simp only []
  split
  · exact hP _ _ _ (hP _ _ _ h)
  · exact hP _ _ _ (hP _ _ _ h)

theorem docker_holds (env : Env) (s : State) (P : State → Prop)
    (hP : ∀ lv m st, P st → P (Logger.Log lv m st)) (h : P s) :
    (Checker.Docker env s).Holds P (fun _ st => P st) := by
  unfold Checker.Docker
  split
  · exact hP _ _ _ h
  · exact h

theorem diskSpace_holds (requiredMB : Int) (env : Env) (s : State) (P : State → Prop)
    (hP : ∀ lv m st, P st → P (Logger.Log lv m st)) (h : P s) :
    (Checker.DiskSpace requiredMB env s).Holds P (fun _ st => P st) := by
  unfold Checker.DiskSpace
  split
  · exact hP _ _ _ h
  · simp only []
    split
    · exact hP _ _ _ h
    · exact hP _ _ _ h

theorem good_log {b : Backup} {env : Env} {s0 : State} (lv m : String) (st : State)
    (h : Good b env s0 st) : Good b env s0 (Logger.Log lv m st) := h

theorem safe_log {b : Backup} {env : Env} {s0 : State} (lv m : String) (st : State)
    (h : Safe b env s0 st) : Safe b env s0 (Logger.Log lv m st) := h

theorem stop_holds (name : String) (b : Backup) (env : Env) (s0 s : State)
    (h : Good b env s0 s) :
    (Manager.Stop name env s).Holds (Good b env s0) (fun _ st => Good b env s0 st) := by
  unfold Manager.Stop
  simp only []
  split
  · split
    · exact h
    · exact good_emit_plain (good_of_eq (State.mk _ _ _ _ _ _ _) h rfl rfl) rfl rfl rfl rfl
  · exact h

theorem getVolumePath_holds (b : Backup) (env : Env) (volume : String) (s0 s : State)
    (h : Good b env s0 s) (hs : Stopped s) :
    (Backup.getVolumePath env volume s).Holds (Good b env s0)
      (fun _ st => Good b env s0 st ∧ Stopped st) := by
  unfold Backup.getVolumePath
  have h1 : Good b env s0 (s.emit (.volumeInspected volume)) := good_emit_touch h hs rfl rfl rfl
  have hs1 : Stopped (s.emit (.volumeInspected volume)) := stopped_emit hs
  simp only []
  split
  · exact h1
  · rename_i path _
    have h2 : Good b env s0 ((s.emit (.volumeInspected volume)).emit (.volumeStat path)) :=
      good_emit_touch h1 hs1 rfl rfl rfl
    split
    · exact h2
    · exact ⟨h2, stopped_emit hs1⟩

theorem afterCreate_events (s : State) (env : Env) (path : String) (res : CreateResult) :
    (s.afterCreate env path res).events = s.events := by
  unfold State.afterCreate
  cases res.dest <;> rfl

theorem afterCreate_files (s : State) (env : Env) (path : String) (res : CreateResult)
    (p : String) (hp : p ≠ path) : (s.afterCreate env path res).files p = s.files p := by
  unfold State.afterCreate
  cases res.dest with
  | none => rfl
  | some dest =>
    show (if p = path then some _ else s.files p) = s.files p
    rw [if_neg hp]

theorem afterCreate_backupFile (s : State) (env : Env) (path : String) (res : CreateResult) :
    (s.afterCreate env path res).backupFile = s.backupFile := by
  unfold State.afterCreate
  cases res.dest <;> rfl

/-- The events of `createBackup`: the call and its return, the return marked
with whether `Creator.Create` gave no error. -/
theorem createBackup_events (b : Backup) (env : Env) (d m r : String) (s : State) :
    (b.createBackup env d m r s).2.events =
      s.events ++ [Event.createCalled (b.archivePath env) [d, m, r]] ++
        [Event.createReturned (b.createBackup env d m r s).1.isNone] := by
  unfold Backup.createBackup
  simp only [State.emit]
  rw [afterCreate_events]

theorem createBackup_backupFile (b : Backup) (env : Env) (d m r : String) (s : State) :
    (b.createBackup env d m r s).2.backupFile = b.archivePath env := by
  unfold Backup.createBackup
  simp only [State.emit]
  rw [afterCreate_backupFile]

theorem createBackup_files (b : Backup) (env : Env) (d m r : String) (s : State)
    (p : String) (hp : p ≠ b.archivePath env) :
    (b.createBackup env d m r s).2.files p = s.files p := by
  unfold Backup.createBackup
  simp only [State.emit]
  rw [afterCreate_files _ _ _ _ p hp]

theorem createBackup_good (b : Backup) (env : Env) (d m r : String) (s0 s : State)
    (h : Good b env s0 s) (hs : Stopped s) :
    Safe b env s0 (b.createBackup env d m r s).2 ∧
      ((b.createBackup env d m r s).1 = none →
        Good b env s0 (b.createBackup env d m r s).2 ∧
          Created (b.createBackup env d m r s).2) := by
  have hev := createBackup_events b env d m r s
  have hsafe : Safe b env s0 (b.createBackup env d m r s).2 :=
    safe_of_frame
      (s := (s.emit (Event.createCalled (b.archivePath env) [d, m, r])).emit
        (Event.createReturned (b.createBackup env d m r s).1.isNone)) _
      (safe_emit_plain (safe_emit_touch h.1 hs rfl rfl) rfl rfl rfl) hev
      (fun p hp => createBackup_files b env d m r s p hp)
  refine ⟨hsafe, fun hnone => ⟨⟨hsafe, ?_⟩, ?_⟩⟩
  · rw [hev, hnone]
    exact noFailure_emit (s := s.emit _) (noFailure_emit h.2 rfl) rfl
  · refine ⟨.createReturned true, ?_, rfl⟩
    rw [hev, hnone]
    exact List.mem_append_right _ (List.mem_singleton.mpr rfl)

/-- The events of `verifyBackup`: the call and its return, the return marked
with whether `Creator.Verify` gave no error. -/
theorem verifyBackup_events (env : Env) (s : State) :
    (Backup.verifyBackup env s).2.events =
      s.events ++ [Event.verifyCalled s.backupFile] ++
        [Event.verifyReturned (Backup.verifyBackup env s).1.isNone] := rfl

theorem verifyBackup_good (b : Backup) (env : Env) (s0 s : State)
    (h : Good b env s0 s) (hc : Created s) :
    Safe b env s0 (Backup.verifyBackup env s).2 ∧
      ((Backup.verifyBackup env s).1 = none →
        Good b env s0 (Backup.verifyBackup env s).2 ∧ Created (Backup.verifyBackup env s).2 ∧
          Verified (Backup.verifyBackup env s).2) := by
  have hev := verifyBackup_events env s
  have hsafe : Safe b env s0 (Backup.verifyBackup env s).2 :=
    safe_of_frame
      (s := (s.emit (Event.verifyCalled s.backupFile)).emit
        (Event.verifyReturned (Backup.verifyBackup env s).1.isNone)) _
      (safe_emit_plain (safe_emit_verifyCalled h.1 hc rfl rfl) rfl rfl rfl) hev
      (fun p _ => rfl)
  refine ⟨hsafe, fun hnone => ⟨⟨hsafe, ?_⟩, ?_, ?_⟩⟩
  · rw [hev, hnone]
    exact noFailure_emit (s := s.emit _) (noFailure_emit h.2 rfl) rfl
  · obtain ⟨x, hx, hp⟩ := hc
    refine ⟨x, ?_, hp⟩
    rw [hev]
    exact List.mem_append_left _ (List.mem_append_left _ hx)
  · refine ⟨.verifyReturned true, ?_, rfl⟩
    rw [hev, hnone]
    exact List.mem_append_right _ (List.mem_singleton.mpr rfl)

theorem cleanup_runChecked (b : Backup) (env : Env) (s0 s : State)
    (h : Good b env s0 s) (hc : Created s) (hv : Verified s) (lv m : String) :
    RunChecked b env s0 (Logger.Log lv m (b.callCleanupOldBackups env s)) := by
  have hev : (Logger.Log lv m (b.callCleanupOldBackups env s)).events =
      s.events ++ ([Event.cleanupCalled] ++
        (cleanupOldBackups env.loc env.sortSlice env.remove b.config.BackupDir
          b.config.MaxBackupAgeDays env.now env.readDir).removeCalls.map Event.removeCalled) := by
    show (s.events ++ [Event.cleanupCalled]) ++ _ = _
    rw [List.append_assoc]
  have hnone1 : ∀ e ∈ [Event.cleanupCalled] ++
      (cleanupOldBackups env.loc env.sortSlice env.remove b.config.BackupDir
        b.config.MaxBackupAgeDays env.now env.readDir).removeCalls.map Event.removeCalled,
      e.touchesVolume = false ∧ e.isVerifyCalled = false ∧ e.isFailure = false := by
    intro e he
    rcases List.mem_append.mp he with he | he
    · rw [List.mem_singleton.mp he]
      exact ⟨rfl, rfl, rfl⟩
    · obtain ⟨p, _, rfl⟩ := List.mem_map.mp he
      exact ⟨rfl, rfl, rfl⟩
  unfold RunChecked
  rw [hev]
  refine ⟨precedesB_append_none _ _ _ _ h.1.1 (fun e he => (hnone1 e he).1),
    precedesB_append_none _ _ _ _ h.1.2.1 (fun e he => (hnone1 e he).2.1),
    precedesB_append_of_mem _ _ _ _ (precedesB_of_none _ _ _ h.1.2.2.1) hc,
    precedesB_append_of_mem _ _ _ _ (precedesB_of_none _ _ _ h.1.2.2.1) hv, ?_⟩
  rintro ⟨e, he, hfail⟩
  rcases List.mem_append.mp he with he | he
  · rw [h.2 e he] at hfail
    exact Bool.noConfusion hfail
  · rw [(hnone1 e he).2.2] at hfail
    exact Bool.noConfusion hfail

theorem holds_mono {α : Type} {o : Outcome α} {E E1 : State → Prop}
    {Q Q1 : α → State → Prop} (h : o.Holds E Q) (hE : ∀ s, E s → E1 s)
    (hQ : ∀ a s, Q a s → Q1 a s) : o.Holds E1 Q1 := by
  cases o with
  | returned a s => exact hQ a s h
  | exited c s => exact hE s h

theorem goodStopped_log {b : Backup} {env : Env} {s0 : State} (lv m : String) (st : State)
    (h : Good b env s0 st ∧ Stopped st) :
    Good b env s0 (Logger.Log lv m st) ∧ Stopped (Logger.Log lv m st) := h

/-- A property `R` of the final state that holds at every exit before the
cleanup and after the cleanup holds of the whole run. -/
theorem run_holds_of (b : Backup) (env : Env) (s0 s : State) (R : State → Prop)
    (hexit : ∀ st, Safe b env s0 st → R st)
    (hfinal : ∀ st lv m, Good b env s0 st → Created st → Verified st →
      R (Logger.Log lv m (b.callCleanupOldBackups env st)))
    (h : Good b env s0 s) :
    (b.Run env s).Holds R (fun _ st => R st) := by
  unfold Backup.Run
  simp only []
  apply holds_andThen (Q := fun _ st => Good b env s0 st)
    (holds_mono (checkLock_holds b env s0 (Logger.Log "INFO" "Starting paperless-ngx backup" s) h)
      (fun _ hg => hexit _ hg.1) (fun _ _ h => h))
  intro _ s1 h1
  apply holds_andThen (Q := fun _ st => Good b env s0 st)
    (holds_mono (requiredTools_holds env s1 (Good b env s0) good_log h1)
      (fun _ hg => hexit _ hg.1) (fun _ _ h => h))
  intro _ s2 h2
  apply holds_andThen (Q := fun _ st => Good b env s0 st)
    (holds_mono (docker_holds env s2 (Good b env s0) good_log h2)
      (fun _ hg => hexit _ hg.1) (fun _ _ h => h))
  intro _ s3 h3
  apply holds_andThen (Q := fun _ st => Good b env s0 st)
    (holds_mono (stop_holds _ b env s0 s3 h3)
      (fun _ hg => hexit _ hg.1) (fun _ _ h => h))
  intro _ s4 h4
  have h5 : Good b env s0 (s4.emit .stopReturned) := good_emit_plain h4 rfl rfl rfl rfl
  have hs5 : Stopped (s4.emit .stopReturned) :=
    ⟨.stopReturned, List.mem_append_right _ (List.mem_singleton.mpr rfl), rfl⟩
  apply holds_andThen (Q := fun _ st => Good b env s0 st ∧ Stopped st)
    (holds_mono (getVolumePath_holds b env _ s0 _ (good_log _ _ _ h5) hs5)
      (fun _ hg => hexit _ hg.1) (fun _ _ h => h))
  intro dataPath s6 h6
  apply holds_andThen (Q := fun _ st => Good b env s0 st ∧ Stopped st)
    (holds_mono (getVolumePath_holds b env _ s0 s6 h6.1 h6.2)
      (fun _ hg => hexit _ hg.1) (fun _ _ h => h))
  intro mediaPath s7 h7
  apply holds_andThen (Q := fun _ st => Good b env s0 st ∧ Stopped st)
    (holds_mono (getVolumePath_holds b env _ s0 s7 h7.1 h7.2)
      (fun _ hg => hexit _ hg.1) (fun _ _ h => h))
  intro redisPath s8 h8
  apply holds_andThen (Q := fun _ st => Good b env s0 st ∧ Stopped st)
    (holds_mono (diskSpace_holds _ env _ (fun st => Good b env s0 st ∧ Stopped st)
        goodStopped_log (goodStopped_log _ _ _ (goodStopped_log _ _ _
          (goodStopped_log _ _ _ (goodStopped_log _ _ _ h8)))))
      (fun _ hg => hexit _ hg.1.1) (fun _ _ h => h))
  intro _ s9 h9
  have hc := createBackup_good b env dataPath mediaPath redisPath s0 s9 h9.1 h9.2
  rcases hcb : b.createBackup env dataPath mediaPath redisPath s9 with ⟨cerr, s10⟩
  rw [hcb] at hc
  simp only [] at hc ⊢
  obtain ⟨hc1, hc2⟩ := hc
  cases cerr with
  | some err => exact hexit _ (safe_log _ _ _ hc1)
  | none =>
    have hv := verifyBackup_good b env s0 s10 (hc2 rfl).1 (hc2 rfl).2
    dsimp only
    rcases hvb : Backup.verifyBackup env s10 with ⟨verr, s11⟩
    rw [hvb] at hv
    simp only [] at hv ⊢
    obtain ⟨hv1, hv2⟩ := hv
    cases verr with
    | some err => exact hexit _ (safe_log _ _ _ hv1)
    | none => exact hfinal s11 _ _ (hv2 rfl).1 (hv2 rfl).2.1 (hv2 rfl).2.2

theorem good_start (b : Backup) (env : Env) (s : State) :
    Good b env s { s with events := [] } :=
  ⟨⟨rfl, rfl, fun e he => (List.not_mem_nil e he).elim, fun _ _ _ => rfl⟩,
    fun e he => (List.not_mem_nil e he).elim⟩

/-- Every run that starts in a state satisfying the invariant ends, by exit or
by return, in a state whose events pass the ordering checks. -/
theorem run_holds (b : Backup) (env : Env) (s0 s : State) (h : Good b env s0 s) :
    (b.Run env s).Holds (RunChecked b env s0) (fun _ st => RunChecked b env s0 st) :=
  run_holds_of b env s0 s (RunChecked b env s0) (fun _ hs => runChecked_of_safe hs)
    (fun st lv m hg hc hv => cleanup_runChecked b env s0 st hg hc hv lv m) h

/-- Every run, started with an empty event list, ends in a state whose events
pass the ordering checks. -/
theorem run_checked (b : Backup) (env : Env) (s : State) :
    RunChecked b env s (b.Run env { s with events := [] }).state := by
  have h := run_holds b env s _ (good_start b env s)
  cases hr : b.Run env { s with events := [] } with
  | returned a st => rw [hr] at h; exact h
  | exited c st => rw [hr] at h; exact h

/-! ## Which entries the retention cleanup counts and hands to `os.Remove` -/

theorem mem_deletionList {n : Nat} {l : List FileInfo} {fi : FileInfo}
    (h : fi ∈ deletionList n l) : fi ∈ l := by
  unfold deletionList at h
  split at h
  · split at h
    · exact List.mem_of_mem_drop h
    · exact h
  · exact h

theorem cleanupOldBackups_allBackups {loc : Location} (sortSlice : List FileInfo → List FileInfo)
    (remove : String → Option String) (backupDir : String) (days : Int) (now : Time)
    (entries : List DirEntry) :
    (cleanupOldBackups loc sortSlice remove backupDir days now (some entries)).allBackups =
      entries.filterMap (toFileInfo backupDir) := by
  unfold cleanupOldBackups
  simp only []
  split <;> rw [scanBackups_eq]

/-- Every path handed to `os.Remove` is in the deletion list built from the old
archives. -/
theorem removeCalls_subset_deletionList {loc : Location} (sortSlice : List FileInfo → List FileInfo)
    (remove : String → Option String) (backupDir : String) (days : Int) (now : Time)
    (entries : List DirEntry) (p : String)
    (hp : p ∈ (cleanupOldBackups loc sortSlice remove backupDir days now
      (some entries)).removeCalls) :
    (entries.filterMap (toFileInfo backupDir)).filter
        (fun fi => decide (fi.ModTime < cutoffTime loc now days)) ≠ [] ∧
      p ∈ (deletionList (entries.filterMap (toFileInfo backupDir)).length
        (sortSlice ((entries.filterMap (toFileInfo backupDir)).filter
          (fun fi => decide (fi.ModTime < cutoffTime loc now days))))).map FileInfo.Path := by
  rw [cleanupOldBackups_removeCalls, scanBackups_eq] at hp
  simp only [] at hp
  split at hp
  · exact (List.not_mem_nil p hp).elim
  · rename_i hne
    rw [deleteLoop_removeCalls] at hp
    exact ⟨fun h => hne (by rw [h]; rfl), hp⟩

/-- Every path handed to `os.Remove` is the path of an entry that is not a
directory, has a name matching `*.tar.gz`, and was last modified before the
cutoff. -/
theorem removeCalls_are_old_archives {loc : Location} (sortSlice : List FileInfo → List FileInfo)
    (hsort : SortsNewestFirst sortSlice)
    (remove : String → Option String) (backupDir : String) (days : Int) (now : Time)
    (entries : List DirEntry) (p : String)
    (hp : p ∈ (cleanupOldBackups loc sortSlice remove backupDir days now
      (some entries)).removeCalls) :
    ∃ e ∈ entries, isArchive e = true ∧ p = filepath.Join backupDir e.Name ∧
      ∃ t, e.Info = some t ∧ t < cutoffTime loc now days := by
  obtain ⟨_, hmem⟩ := removeCalls_subset_deletionList sortSlice remove backupDir days now
    entries p hp
  obtain ⟨fi, hfi, rfl⟩ := List.mem_map.mp hmem
  have hO := (hsort _).1.subset (mem_deletionList hfi)
  obtain ⟨e, he, ha, hi, hpath, hlt⟩ := mem_oldBackups_iff.mp hO
  exact ⟨e, he, ha, hpath, fi.ModTime, hi, hlt⟩

/-- Every removed path was handed to `os.Remove`. -/
theorem deleted_subset_removeCalls {loc : Location} (sortSlice : List FileInfo → List FileInfo)
    (remove : String → Option String) (backupDir : String) (days : Int) (now : Time)
    (entries : Option (List DirEntry)) (p : String)
    (hp : p ∈ (cleanupOldBackups loc sortSlice remove backupDir days now entries).deleted) :
    p ∈ (cleanupOldBackups loc sortSlice remove backupDir days now entries).removeCalls := by
  cases entries with
  | none => exact (List.not_mem_nil p hp).elim
  | some entries =>
    rw [cleanupOldBackups_deleted] at hp
    rw [cleanupOldBackups_removeCalls]
    split at hp
    · exact (List.not_mem_nil p hp).elim
    · rename_i hne
      rw [if_neg hne, deleteLoop_removeCalls]
      exact deleteLoop_deleted_subset remove _ p hp

/-- An entry that is a directory, or whose name does not match `*.tar.gz`, has
a path that is never handed to `os.Remove`, provided the entries of the
directory denote distinct paths. -/
theorem non_archive_not_removed {loc : Location} (sortSlice : List FileInfo → List FileInfo)
    (hsort : SortsNewestFirst sortSlice)
    (remove : String → Option String) (backupDir : String) (days : Int) (now : Time)
    (entries : List DirEntry) (hd : DistinctPaths backupDir entries)
    (e : DirEntry) (he : e ∈ entries) (hna : isArchive e = false) :
    filepath.Join backupDir e.Name ∉
      (cleanupOldBackups loc sortSlice remove backupDir days now (some entries)).removeCalls := by
  intro hp
  obtain ⟨e2, he2, ha2, hpath, _⟩ := removeCalls_are_old_archives sortSlice hsort remove
    backupDir days now entries _ hp
  have heq : e = e2 :=
    List.inj_on_of_nodup_map hd he he2 hpath
  rw [heq, ha2] at hna
  exact Bool.noConfusion hna

/-- An archive whose modification time is strictly later than that of every
other archive of the directory is never handed to `os.Remove`. -/
theorem newest_not_removed {loc : Location} (sortSlice : List FileInfo → List FileInfo)
    (hsort : SortsNewestFirst sortSlice)
    (remove : String → Option String) (backupDir : String) (days : Int) (now : Time)
    (entries : List DirEntry) (hd : DistinctPaths backupDir entries)
    (e : DirEntry) (tnew : Time) (he : e ∈ entries) (ha : isArchive e = true)
    (hi : e.Info = some tnew)
    (hnewest : ∀ e2 ∈ entries, e2 ≠ e → isArchive e2 = true →
      ∀ t, e2.Info = some t → t < tnew) :
    filepath.Join backupDir e.Name ∉
      (cleanupOldBackups loc sortSlice remove backupDir days now (some entries)).removeCalls := by
  intro hp
  obtain ⟨hne, hmem⟩ := removeCalls_subset_deletionList sortSlice remove backupDir days now
    entries _ hp
  have hperm := (hsort ((entries.filterMap (toFileInfo backupDir)).filter
      (fun fi => decide (fi.ModTime < cutoffTime loc now days)))).1
  have hpw := (hsort ((entries.filterMap (toFileInfo backupDir)).filter
      (fun fi => decide (fi.ModTime < cutoffTime loc now days)))).2
  have hnd := allBackups_paths_nodup hd
  -- how a file of the listing relates to the newest entry
  have hcmp : ∀ fi ∈ entries.filterMap (toFileInfo backupDir),
      fi = ⟨filepath.Join backupDir e.Name, tnew⟩ ∨ fi.ModTime < tnew := by
    intro fi hfi
    obtain ⟨e2, he2, hfe2⟩ := List.mem_filterMap.mp hfi
    obtain ⟨ha2, hi2, hp2⟩ := toFileInfo_some hfe2
    by_cases heq : e2 = e
    · left
      rw [heq, hi] at hi2
      rw [heq] at hp2
      cases fi with
      | mk path mt =>
        simp only [Option.some.injEq] at hi2
        simp only at hp2
        rw [hp2, hi2]
    · right
      exact hnewest e2 he2 heq ha2 _ hi2
  have hEA : (⟨filepath.Join backupDir e.Name, tnew⟩ : FileInfo) ∈
      entries.filterMap (toFileInfo backupDir) :=
    List.mem_filterMap.mpr ⟨e, he, toFileInfo_of_archive ha hi⟩
  generalize hA : entries.filterMap (toFileInfo backupDir) = A at *
  generalize hO : A.filter (fun fi => decide (fi.ModTime < cutoffTime loc now days)) = O at *
  have hOA : O.Sublist A := hO ▸ List.filter_sublist A
  have hndS : ((sortSlice O).map FileInfo.Path).Nodup :=
    (hperm.map FileInfo.Path).nodup_iff.mpr (List.Nodup.sublist (hOA.map FileInfo.Path) hnd)
  obtain ⟨fi, hfi, hfp⟩ := List.mem_map.mp hmem
  have hfiS : fi ∈ sortSlice O := mem_deletionList hfi
  have hfiO : fi ∈ O := hperm.subset hfiS
  have hfiA : fi ∈ A := hOA.subset hfiO
  have hfiE : fi = ⟨filepath.Join backupDir e.Name, tnew⟩ :=
    List.inj_on_of_nodup_map hnd hfiA hEA hfp
  -- the newest archive is old, hence every archive is old
  have hold : tnew < cutoffTime loc now days := by
    have := (List.mem_filter.mp (hO ▸ hfiO)).2
    rw [hfiE] at this
    simpa using this
  have hall : O = A := by
    rw [← hO]
    apply List.filter_eq_self.mpr
    intro a haA
    rcases hcmp a haA with h | h
    · rw [h]
      simpa using hold
    · simpa using lt_trans h hold
  have hguard : (sortSlice O).length ≥ A.length := by
    rw [hperm.length_eq, hall]
  cases hs : sortSlice O with
  | nil =>
    rw [hs] at hfiS
    exact (List.not_mem_nil fi hfiS).elim
  | cons x tl =>
    rw [hs] at hguard hndS hpw hfi
    have hdl : deletionList A.length (x :: tl) = tl := by
      unfold deletionList
      rw [if_pos hguard]
      simp
    rw [hdl] at hfi
    have hxA : x ∈ A := hOA.subset (hperm.subset (by rw [hs]; exact List.mem_cons_self x tl))
    rw [List.map_cons, List.nodup_cons] at hndS
    rcases hcmp x hxA with hx | hx
    · apply hndS.1
      rw [hx, ← hfiE]
      exact List.mem_map.mpr ⟨fi, hfi, rfl⟩
    · have hle := (List.pairwise_cons.mp hpw).1 fi hfi
      rw [hfiE] at hle
      exact hle hx

/-- Without an archive entry in the directory the cleanup makes no `os.Remove`
call. -/
theorem no_archives_no_removal {loc : Location} (sortSlice : List FileInfo → List FileInfo)
    (remove : String → Option String) (backupDir : String) (days : Int) (now : Time)
    (entries : List DirEntry) (hno : ∀ e ∈ entries, isArchive e = false) :
    cleanupOldBackups loc sortSlice remove backupDir days now (some entries) =
      ⟨[⟨"INFO", "Cleaning up backups older than " ++ toString days ++ " days..."⟩,
        ⟨"INFO", "No old backups to delete"⟩, ⟨"INFO", "Total backups: 0"⟩], [], [], []⟩ := by
  have hA : entries.filterMap (toFileInfo backupDir) = [] := by
    apply List.filterMap_eq_nil_iff.mpr
    intro e he
    simp [toFileInfo, hno e he]
  unfold cleanupOldBackups
  simp only []
  rw [scanBackups_eq]
  simp only [hA, List.filter_nil, List.length_nil, if_true]
  rfl

/-! ## The removals a run makes -/

/-- Every `os.Remove` call a run makes is one of the calls of its retention
cleanup. -/
theorem run_removeCalls (b : Backup) (env : Env) (s : State) (p : String)
    (hp : Event.removeCalled p ∈ (b.Run env { s with events := [] }).state.events) :
    p ∈ (cleanupOldBackups env.loc env.sortSlice env.remove b.config.BackupDir
      b.config.MaxBackupAgeDays env.now env.readDir).removeCalls := by
  have hg := good_start b env s
  have h := run_holds_of b env s { s with events := [] }
    (fun st => ∀ p, Event.removeCalled p ∈ st.events →
      p ∈ (cleanupOldBackups env.loc env.sortSlice env.remove b.config.BackupDir
        b.config.MaxBackupAgeDays env.now env.readDir).removeCalls)
    (fun st hgood q hq => Bool.noConfusion (hgood.2.2.1 _ hq))
    (fun st lv m hgood _ _ q hq => by
      have hev : (Logger.Log lv m (b.callCleanupOldBackups env st)).events =
          (st.events ++ [Event.cleanupCalled]) ++
            (cleanupOldBackups env.loc env.sortSlice env.remove b.config.BackupDir
              b.config.MaxBackupAgeDays env.now env.readDir).removeCalls.map
                Event.removeCalled := rfl
      rw [hev] at hq
      rcases List.mem_append.mp hq with hq | hq
      · rcases List.mem_append.mp hq with hq | hq
        · exact Bool.noConfusion (hgood.1.2.2.1 _ hq)
        · exact Event.noConfusion (List.mem_singleton.mp hq)
      · obtain ⟨q2, hq2, heq⟩ := List.mem_map.mp hq
        cases heq
        exact hq2)
    hg
  cases hr : b.Run env { s with events := [] } with
  | returned a st => rw [hr] at h hp; exact h p hp
  | exited c st => rw [hr] at h hp; exact h p hp

theorem isArchive_iff (e : DirEntry) :
    isArchive e = true ↔ e.IsDir = false ∧ filepath.matchTarGz e.Name = true := by
  unfold isArchive
  cases e.IsDir <;> simp

theorem isArchive_false_of (e : DirEntry)
    (h : filepath.matchTarGz e.Name = false ∨ e.IsDir = true) : isArchive e = false := by
  unfold isArchive
  rcases h with h | h <;> simp [h]

/-- In `freshEntries` the archive written at `exampleNow` is strictly newer
than the two others. -/
theorem freshEntries_newest :
    ∀ e2 ∈ freshEntries, e2 ≠ ⟨"19700411_000000.tar.gz", .regular, some exampleNow⟩ →
      isArchive e2 = true → ∀ t, e2.Info = some t → t < exampleNow := by
  intro e2 he2 hne _ t ht
  simp only [freshEntries, List.mem_cons, List.mem_singleton, List.not_mem_nil, or_false] at he2
  rcases he2 with h | h | h
  · subst h
    cases ht
    decide
  · exact absurd h hne
  · subst h
    cases ht
    decide

/-- In the directory of the example run the archive written at `exampleNow` is
strictly newer than the two old ones. -/
theorem healthyEntries_newest :
    ∀ e2 ∈ (⟨"19700411_000000.tar.gz", .regular, some exampleNow⟩ :: allOldEntries : List DirEntry),
      e2 ≠ ⟨"19700411_000000.tar.gz", .regular, some exampleNow⟩ →
      isArchive e2 = true → ∀ t, e2.Info = some t → t < exampleNow := by
  intro e2 he2 hne _ t ht
  simp only [allOldEntries, List.mem_cons, List.mem_singleton, List.not_mem_nil, or_false] at he2
  rcases he2 with h | h | h
  · exact absurd h hne
  · subst h
    cases ht
    decide
  · subst h
    cases ht
    decide


/-! ## Facts about `Verify` -/

/-- C1. Whenever the backup directory holds at least one archive (a
non-directory entry whose name matches `*.tar.gz`), then for every retention
age, every clock value, every outcome of the individual `os.Remove` calls, and
whether or not `os.ReadDir` succeeds, at least one archive is still in the
directory after `cleanupOldBackups`. -/
theorem C1_cleanup_keeps_an_archive (loc : Location) (sortSlice : List FileInfo → List FileInfo)
    (hsort : SortsNewestFirst sortSlice) (remove : String → Option String)
    (backupDir : String) (maxBackupAgeDays : Int) (now : Time)
    (entries : List DirEntry) (readDir : Option (List DirEntry))
    (hread : readDir = none ∨ readDir = some entries)
    (hd : DistinctPaths backupDir entries)
    (h : ∃ e ∈ entries, isArchive e = true) :
    ∃ e ∈ entriesAfter backupDir
        (cleanupOldBackups loc sortSlice remove backupDir maxBackupAgeDays now readDir).deleted
        entries,
      isArchive e = true := by
  obtain ⟨e0, he0, ha0⟩ := h
  rcases hread with hread | hread
  · subst hread
    refine ⟨e0, ?_, ha0⟩
    rw [mem_entriesAfter]
    exact ⟨he0, by simp [cleanupOldBackups]⟩
  · subst hread
    rw [cleanupOldBackups_deleted, scanBackups_eq]
    by_cases hlen : ((entries.filterMap (toFileInfo backupDir)).filter
        (fun fi => decide (fi.ModTime < cutoffTime loc now maxBackupAgeDays))).length = 0
    · rw [if_pos hlen]
      refine ⟨e0, ?_, ha0⟩
      rw [mem_entriesAfter]
      exact ⟨he0, by simp⟩
    · rw [if_neg hlen]
      have hne : (entries.filterMap (toFileInfo backupDir)).filter
          (fun fi => decide (fi.ModTime < cutoffTime loc now maxBackupAgeDays)) ≠ [] := by
        intro h0
        exact hlen (by rw [h0]; rfl)
      obtain ⟨e, he, harch, hnot⟩ :=
        deletionList_spares_one sortSlice hsort backupDir _ entries hd hne
      refine ⟨e, ?_, harch⟩
      rw [mem_entriesAfter]
      exact ⟨he, fun hm => hnot (deleteLoop_deleted_subset remove _ _ hm)⟩

/-- C1 at a directory of two archives that are both too old, with every
`os.Remove` failing or not: one archive is still there. -/
theorem C1_cleanup_keeps_an_archive_witness :
    DistinctPaths "/var/backups" allOldEntries ∧
      (∃ e ∈ allOldEntries, isArchive e = true) ∧
      ∃ e ∈ entriesAfter "/var/backups"
          (cleanupOldBackups utcLocation insertionSortNewestFirst (fun _ => none) "/var/backups" 3
            exampleNow (some allOldEntries)).deleted allOldEntries,
        isArchive e = true :=
  ⟨by unfold DistinctPaths; decide, by decide,
    C1_cleanup_keeps_an_archive utcLocation insertionSortNewestFirst insertionSort_sortsNewestFirst
      (fun _ => none) "/var/backups" 3 exampleNow allOldEntries (some allOldEntries)
      (Or.inr rfl) (by unfold DistinctPaths; decide) (by decide)⟩

set_option maxRecDepth 100000 in
/-- C6 (the claim as stated fails). In Berlin at noon on 31 October 2023, two
days after the end of summer time, with `MaxBackupAgeDays = 3`: the cutoff is
noon on 28 October, 73 hours earlier, so the archive written 72 hours and a
half ago, which is older than three days of 24 hours, is not removed. And with
`MaxBackupAgeDays` at the greatest `int`, the 64-bit date arithmetic wraps and
the cutoff is one day after `now`: the archive written an hour ago is removed
although it is far later than `now` minus that many days. -/
theorem C6_cutoff_is_not_days_of_24_hours :
    (cutoffTime berlin2023 noonAfterSummerTime 3 = noonAfterSummerTime - 73 * 3600 * 1000000000 ∧
      (1698750000 - 261000) * 1000000000 < noonAfterSummerTime - 3 * nsPerDay ∧
      ¬ (1698750000 - 3600) * 1000000000 < cutoffTime berlin2023 noonAfterSummerTime 3 ∧
      (cleanupOldBackups berlin2023 insertionSortNewestFirst (fun _ => none) "/var/backups" 3
        noonAfterSummerTime (some summerTimeEntries)).deleted = []) ∧
    (cutoffTime utcLocation exampleNow 9223372036854775807 = exampleNow + nsPerDay ∧
      ¬ exampleNow - 3600 * 1000000000 < exampleNow - 9223372036854775807 * nsPerDay ∧
      ¬ exampleNow + 2 * nsPerDay < cutoffTime utcLocation exampleNow 9223372036854775807 ∧
      (cleanupOldBackups utcLocation insertionSortNewestFirst (fun _ => none) "/var/backups"
        9223372036854775807 exampleNow (some futureEntries)).deleted =
          ["/var/backups/a.tar.gz"]) := by
  decide

/-- C6 (amended). In a directory where at least one archive is not older than
the cutoff (`os.ReadDir` succeeds), with every `os.Remove` succeeding, the
paths `cleanupOldBackups` removes are exactly the paths of the archives whose
modification time is strictly before the cutoff
`time.Now().AddDate(0, 0, -MaxBackupAgeDays)`, and an entry is still in the
directory afterwards exactly when it is not such an archive. For
`MaxBackupAgeDays` and `now` in a range where the date arithmetic does not
overflow, the cutoff is `now` minus `MaxBackupAgeDays` times 24 hours, plus the
offset of the local zone at `now`, minus the offset `Date` finds for the wall
clock reading `MaxBackupAgeDays` days earlier; in a zone whose offset never
changes, such as UTC, it is `now` minus `MaxBackupAgeDays` times 24 hours. -/
theorem C6_deletes_exactly_the_old (loc : Location) (sortSlice : List FileInfo → List FileInfo)
    (hsort : SortsNewestFirst sortSlice) (remove : String → Option String)
    (hrm : ∀ p, remove p = none)
    (backupDir : String) (maxBackupAgeDays : Int) (now : Time)
    (entries : List DirEntry) (hd : DistinctPaths backupDir entries)
    (hnew : ∃ e ∈ entries, isArchive e = true ∧
      ∃ t, e.Info = some t ∧ ¬ t < cutoffTime loc now maxBackupAgeDays) :
    (∀ p, p ∈ (cleanupOldBackups loc sortSlice remove backupDir maxBackupAgeDays now
          (some entries)).deleted ↔
        ∃ e ∈ entries, isArchive e = true ∧
          (∃ t, e.Info = some t ∧ t < cutoffTime loc now maxBackupAgeDays) ∧
          p = filepath.Join backupDir e.Name) ∧
    (∀ e ∈ entries,
      e ∈ entriesAfter backupDir
          (cleanupOldBackups loc sortSlice remove backupDir maxBackupAgeDays now
            (some entries)).deleted entries ↔
        ¬ (isArchive e = true ∧
          ∃ t, e.Info = some t ∧ t < cutoffTime loc now maxBackupAgeDays)) ∧
    (-1000000000000 ≤ maxBackupAgeDays → maxBackupAgeDays ≤ 1000000000000 →
      -1000000000000000000000000000 ≤ now → now ≤ 1000000000000000000000000000 →
      (∀ s, -1000000 ≤ (loc s).offset ∧ (loc s).offset ≤ 1000000) →
      cutoffTime loc now maxBackupAgeDays = now - maxBackupAgeDays * nsPerDay
        + ((loc (now / 1000000000)).offset
          - offsetForWall loc (now / 1000000000 + (loc (now / 1000000000)).offset
            - maxBackupAgeDays * 86400)) * 1000000000 ∧
      ((∀ s, (loc s).offset = (loc 0).offset) →
        cutoffTime loc now maxBackupAgeDays = now - maxBackupAgeDays * nsPerDay)) := by
  have hperm := (hsort ((entries.filterMap (toFileInfo backupDir)).filter
      (fun fi => decide (fi.ModTime < cutoffTime loc now maxBackupAgeDays)))).1
  have hmem : ∀ p, p ∈ (cleanupOldBackups loc sortSlice remove backupDir maxBackupAgeDays now
        (some entries)).deleted ↔
      p ∈ ((entries.filterMap (toFileInfo backupDir)).filter
        (fun fi => decide (fi.ModTime < cutoffTime loc now maxBackupAgeDays))).map
          FileInfo.Path := by
    intro p
    rw [cleanupOldBackups_deleted, scanBackups_eq]
    simp only []
    by_cases hlen : ((entries.filterMap (toFileInfo backupDir)).filter
        (fun fi => decide (fi.ModTime < cutoffTime loc now maxBackupAgeDays))).length = 0
    · rw [if_pos hlen, List.length_eq_zero.mp hlen]
      simp
    · rw [if_neg hlen]
      have hguard : ¬ (sortSlice ((entries.filterMap (toFileInfo backupDir)).filter
          (fun fi => decide (fi.ModTime < cutoffTime loc now maxBackupAgeDays)))).length ≥
          (entries.filterMap (toFileInfo backupDir)).length := by
        intro hge
        rw [hperm.length_eq] at hge
        have heq := List.Sublist.eq_of_length_le
          (List.filter_sublist (entries.filterMap (toFileInfo backupDir))
            (p := fun fi => decide (fi.ModTime < cutoffTime loc now maxBackupAgeDays))) hge
        obtain ⟨e, he, ha, t, ht, hnlt⟩ := hnew
        have hfi : (⟨filepath.Join backupDir e.Name, t⟩ : FileInfo) ∈
            entries.filterMap (toFileInfo backupDir) :=
          List.mem_filterMap.mpr ⟨e, he, toFileInfo_of_archive ha ht⟩
        rw [← heq] at hfi
        have := (List.mem_filter.mp hfi).2
        exact hnlt (by simpa using this)
      have hdl : deletionList (entries.filterMap (toFileInfo backupDir)).length
          (sortSlice ((entries.filterMap (toFileInfo backupDir)).filter
            (fun fi => decide (fi.ModTime < cutoffTime loc now maxBackupAgeDays)))) =
          sortSlice ((entries.filterMap (toFileInfo backupDir)).filter
            (fun fi => decide (fi.ModTime < cutoffTime loc now maxBackupAgeDays))) := by
        unfold deletionList
        rw [if_neg hguard]
      rw [hdl, deleteLoop_deleted_all remove hrm]
      exact (hperm.map FileInfo.Path).mem_iff
  have hchar : ∀ p, p ∈ (cleanupOldBackups loc sortSlice remove backupDir maxBackupAgeDays now
        (some entries)).deleted ↔
      ∃ e ∈ entries, isArchive e = true ∧
        (∃ t, e.Info = some t ∧ t < cutoffTime loc now maxBackupAgeDays) ∧
        p = filepath.Join backupDir e.Name := by
    intro p
    rw [hmem, List.mem_map]
    constructor
    · rintro ⟨fi, hfi, rfl⟩
      obtain ⟨e, he, ha, hi, hp, hlt⟩ := mem_oldBackups_iff.mp hfi
      exact ⟨e, he, ha, ⟨fi.ModTime, hi, hlt⟩, hp⟩
    · rintro ⟨e, he, ha, ⟨t, ht, hlt⟩, rfl⟩
      exact ⟨⟨filepath.Join backupDir e.Name, t⟩,
        mem_oldBackups_iff.mpr ⟨e, he, ha, ht, rfl, hlt⟩, rfl⟩
  refine ⟨hchar, ?_, ?_⟩
  · intro e he
    rw [mem_entriesAfter, hchar]
    constructor
    · rintro ⟨_, hnot⟩ ⟨ha, hold⟩
      exact hnot ⟨e, he, ha, hold, rfl⟩
    · intro hnot
      refine ⟨he, ?_⟩
      rintro ⟨e2, he2, ha2, hold2, hp2⟩
      have : e = e2 := List.inj_on_of_nodup_map hd he he2 hp2
      subst this
      exact hnot ⟨ha2, hold2⟩
  · intro hd1 hd2 ht1 ht2 ho
    refine ⟨cutoffTime_eq loc now maxBackupAgeDays hd1 hd2 ht1 ht2 ho, fun hconst => ?_⟩
    exact cutoffTime_fixed_offset loc now maxBackupAgeDays hd1 hd2 ht1 ht2 (loc 0).offset
      (ho 0).1 (ho 0).2 hconst

set_option maxRecDepth 100000 in
/-- C6 (amended) at the scenario of the spec in UTC: `a.tar.gz` one day old,
`b.tar.gz` ten days old, `MaxBackupAgeDays = 3`: the cutoff is three times 24
hours before `now`, afterwards `a.tar.gz` exists and `b.tar.gz` does not. -/
theorem C6_deletes_exactly_the_old_witness :
    cutoffTime utcLocation exampleNow 3 = exampleNow - 3 * nsPerDay ∧
      (⟨"a.tar.gz", .regular, some (99 * nsPerDay)⟩ : DirEntry) ∈
        entriesAfter "/var/backups"
          (cleanupOldBackups utcLocation insertionSortNewestFirst (fun _ => none)
            "/var/backups" 3 exampleNow (some mixedEntries)).deleted mixedEntries ∧
      (⟨"b.tar.gz", .regular, some (90 * nsPerDay)⟩ : DirEntry) ∉
        entriesAfter "/var/backups"
          (cleanupOldBackups utcLocation insertionSortNewestFirst (fun _ => none)
            "/var/backups" 3 exampleNow (some mixedEntries)).deleted mixedEntries :=
  have h := C6_deletes_exactly_the_old utcLocation insertionSortNewestFirst
    insertionSort_sortsNewestFirst
    (fun _ => none) (fun _ => rfl) "/var/backups" 3 exampleNow mixedEntries
    (by unfold DistinctPaths; decide)
    ⟨⟨"a.tar.gz", .regular, some (99 * nsPerDay)⟩, by decide, by decide, _, rfl, by decide⟩
  ⟨((h.2.2 (by decide) (by decide) (by decide) (by decide) utcLocation_offset).2
      (fun _ => rfl)),
    (h.2.1 _ (by decide)).mpr (by rintro ⟨_, t, ht, hlt⟩; cases ht; revert hlt; decide),
    fun hb => (h.2.1 _ (by decide)).mp hb ⟨by decide, _, rfl, by decide⟩⟩

/-- C10. Whatever subset of the `os.Remove` calls fails, `cleanupOldBackups`
calls `os.Remove` once on every file of its deletion list, in order; it logs
one WARN line for each file whose removal fails; the paths it counts as deleted
are those whose removal succeeded; and its last log line reports the number of
archives found minus the number of removals that succeeded. The function has
no exit path: it returns a result for every input. -/
theorem C10_delete_failures_do_not_abort (loc : Location) (sortSlice : List FileInfo → List FileInfo)
    (remove : String → Option String) (backupDir : String) (maxBackupAgeDays : Int)
    (now : Time) (entries : List DirEntry) :
    let scanned := scanBackups backupDir (cutoffTime loc now maxBackupAgeDays) entries
    let toDelete :=
      if scanned.2.length = 0 then [] else deletionList scanned.1.length (sortSlice scanned.2)
    let res := cleanupOldBackups loc sortSlice remove backupDir maxBackupAgeDays now (some entries)
    res.removeCalls = toDelete.map FileInfo.Path ∧
      (∀ fi ∈ toDelete, ∀ err, remove fi.Path = some err →
        (⟨"WARN", "Failed to delete " ++ fi.Path ++ ": " ++ err⟩ : LogLine) ∈ res.log) ∧
      res.deleted = (toDelete.filter (fun fi => (remove fi.Path).isNone)).map FileInfo.Path ∧
      res.log.getLast? = some ⟨"INFO", "Total backups: " ++
        toString ((scanned.1.length : Int) -
          ((toDelete.filter (fun fi => (remove fi.Path).isNone)).length : Int))⟩ := by
  intro scanned toDelete res
  by_cases hlen : scanned.2.length = 0
  · have htd : toDelete = [] := if_pos hlen
    have hres : res = ⟨[⟨"INFO", "Cleaning up backups older than " ++ toString maxBackupAgeDays
          ++ " days..."⟩, ⟨"INFO", "No old backups to delete"⟩,
          ⟨"INFO", "Total backups: " ++ toString scanned.1.length⟩], [], [], scanned.1⟩ := by
      show cleanupOldBackups loc sortSlice remove backupDir maxBackupAgeDays now (some entries) = _
      unfold cleanupOldBackups
      simp only []
      rw [if_pos hlen]
    rw [htd, hres]
    simp
    rfl
  · have htd : toDelete = deletionList scanned.1.length (sortSlice scanned.2) := if_neg hlen
    have hres : res.removeCalls = (deleteLoop remove toDelete).removeCalls ∧
        res.deleted = (deleteLoop remove toDelete).deleted ∧
        (∀ l, l ∈ (deleteLoop remove toDelete).log → l ∈ res.log) ∧
        res.log.getLast? = some ⟨"INFO", "Total backups: " ++
          toString ((scanned.1.length : Int) -
            ((deleteLoop remove toDelete).deleted.length : Int))⟩ := by
      rw [htd]
      show (cleanupOldBackups loc sortSlice remove backupDir maxBackupAgeDays now
          (some entries)).removeCalls = _ ∧
        (cleanupOldBackups loc sortSlice remove backupDir maxBackupAgeDays now
          (some entries)).deleted = _ ∧
        (∀ l, l ∈ _ → l ∈ (cleanupOldBackups loc sortSlice remove backupDir maxBackupAgeDays now
          (some entries)).log) ∧
        (cleanupOldBackups loc sortSlice remove backupDir maxBackupAgeDays now
          (some entries)).log.getLast? = _
      unfold cleanupOldBackups
      simp only []
      rw [if_neg hlen]
      refine ⟨rfl, rfl, ?_, ?_⟩
      · intro l hl
        simp only [List.mem_append]
        exact Or.inl (Or.inr hl)
      · rw [List.getLast?_append]
        rfl
    obtain ⟨h1, h2, h3, h4⟩ := hres
    refine ⟨?_, ?_, ?_, ?_⟩
    · rw [h1, deleteLoop_removeCalls]
    · intro fi hfi err herr
      exact h3 _ (deleteLoop_warn remove toDelete fi err hfi herr)
    · rw [h2, deleteLoop_deleted]
    · rw [h4, deleteLoop_deleted, List.length_map]

/-! ## Claims about the orchestrator -/

theorem runWithDeferred_of_exit (deferred : State → State) (body : State → Outcome Unit)
    (s : State) (h : (body s).exitCode ≠ none) :
    runWithDeferred deferred body s = body s := by
  unfold runWithDeferred
  cases hb : body s with
  | returned a s1 => rw [hb] at h; exact absurd rfl h
  | exited c s1 => rfl

set_option maxRecDepth 100000 in
/-- C2 (the code departs from the claim). A run whose archive fails
verification, started with the service running and no lock file: the process
exits with status 1 through `Logger.ErrorExit`, and whatever function was
deferred, the lock file is still there, the service is still stopped although
`wasRunning` is set, and neither `systemctl start` nor the removal of the lock
file was ever called. The same holds with an unreachable docker daemon, where
the lock file stays. With `Cleanup` deferred, the normal path of the same program does
remove the lock file and start the service. -/
theorem C2_fatal_exit_skips_teardown (deferred : State → State) :
    (runWithDeferred deferred (defaultBackup.Run verifyFailsEnv)
        (initialState true)).exitCode = some 1 ∧
      (runWithDeferred deferred (defaultBackup.Run verifyFailsEnv)
        (initialState true)).state.files defaultBackup.lockPath = some [] ∧
      (runWithDeferred deferred (defaultBackup.Run verifyFailsEnv)
        (initialState true)).state.wasRunning = true ∧
      (runWithDeferred deferred (defaultBackup.Run verifyFailsEnv)
        (initialState true)).state.serviceActive = false ∧
      (runWithDeferred deferred (defaultBackup.Run verifyFailsEnv)
        (initialState true)).state.events.all (fun e => !e.isTeardown) = true ∧
      (runWithDeferred deferred (defaultBackup.Run dockerDownEnv)
        (initialState true)).exitCode = some 1 ∧
      (runWithDeferred deferred (defaultBackup.Run dockerDownEnv)
        (initialState true)).state.files defaultBackup.lockPath = some [] ∧
      (runWithDeferred (defaultBackup.Cleanup healthyEnv) (defaultBackup.Run healthyEnv)
        (initialState true)).exitCode = none ∧
      (runWithDeferred (defaultBackup.Cleanup healthyEnv) (defaultBackup.Run healthyEnv)
        (initialState true)).state.files defaultBackup.lockPath = none ∧
      (runWithDeferred (defaultBackup.Cleanup healthyEnv) (defaultBackup.Run healthyEnv)
        (initialState true)).state.serviceActive = true := by
  rw [runWithDeferred_of_exit deferred (defaultBackup.Run verifyFailsEnv) _ (by decide),
    runWithDeferred_of_exit deferred (defaultBackup.Run dockerDownEnv) _ (by decide)]
  decide

/-- C7. When the lock file exists, `checkLock` ends the process with status 1
and leaves every file, the lock file included, as it was; so does the whole
run, whatever was deferred. When no lock file exists and the lock file can be
written, `checkLock` returns and afterwards an empty file exists at
`Join(BackupDir, LockFile)`, all other files being unchanged. -/
theorem C7_checkLock (cfg : Config) (env : Env) (s : State) :
    (∀ content, s.files (filepath.Join cfg.BackupDir cfg.LockFile) = some content →
      ((Backup.New cfg).checkLock env s).exitCode = some 1 ∧
      ((Backup.New cfg).checkLock env s).state.files = s.files ∧
      ((Backup.New cfg).checkLock env s).state.log.getLast? =
        some ⟨"ERROR", "Backup already running (lock file exists: "
          ++ filepath.Join cfg.BackupDir cfg.LockFile ++ ")"⟩ ∧
      ∀ deferred : State → State,
        (runWithDeferred deferred ((Backup.New cfg).Run env) s).exitCode = some 1 ∧
        (runWithDeferred deferred ((Backup.New cfg).Run env) s).state.files = s.files) ∧
    (s.files (filepath.Join cfg.BackupDir cfg.LockFile) = none → env.lockWritable = true →
      ((Backup.New cfg).checkLock env s).exitCode = none ∧
      ((Backup.New cfg).checkLock env s).state.files
        (filepath.Join cfg.BackupDir cfg.LockFile) = some [] ∧
      ∀ p, p ≠ filepath.Join cfg.BackupDir cfg.LockFile →
        ((Backup.New cfg).checkLock env s).state.files p = s.files p) := by
  constructor
  · intro content h
    have hcl : (Backup.New cfg).checkLock env s =
        .exited 1 (Logger.Log "ERROR" ("Backup already running (lock file exists: "
          ++ filepath.Join cfg.BackupDir cfg.LockFile ++ ")") s) := by
      unfold Backup.checkLock
      show (match s.files (filepath.Join cfg.BackupDir cfg.LockFile) with
        | some _ => _
        | none => _) = _
      rw [h]
      rfl
    refine ⟨by rw [hcl]; rfl, by rw [hcl]; rfl, ?_, ?_⟩
    · rw [hcl]
      show (s.log ++ [_]).getLast? = _
      rw [List.getLast?_append]
      rfl
    · intro deferred
      have hrun : (Backup.New cfg).Run env s =
          .exited 1 (Logger.Log "ERROR" ("Backup already running (lock file exists: "
            ++ filepath.Join cfg.BackupDir cfg.LockFile ++ ")")
            (Logger.Log "INFO" "Starting paperless-ngx backup" s)) := by
        unfold Backup.Run Backup.checkLock
        show Outcome.andThen (match s.files (filepath.Join cfg.BackupDir cfg.LockFile) with
          | some _ => _
          | none => _) _ = _
        rw [h]
        rfl
      rw [runWithDeferred_of_exit deferred _ _ (by rw [hrun]; exact fun h => nomatch h), hrun]
      exact ⟨rfl, rfl⟩
  · intro h hw
    have hcl : (Backup.New cfg).checkLock env s =
        .returned () ((s.writeFile (filepath.Join cfg.BackupDir cfg.LockFile) []).emit
          .lockCreated) := by
      unfold Backup.checkLock
      show (match s.files (filepath.Join cfg.BackupDir cfg.LockFile) with
        | some _ => _
        | none => _) = _
      rw [h]
      show (if env.lockWritable = true then _ else _) = _
      rw [if_pos hw]
      rfl
    rw [hcl]
    refine ⟨rfl, ?_, ?_⟩
    · show (if filepath.Join cfg.BackupDir cfg.LockFile = filepath.Join cfg.BackupDir cfg.LockFile
        then some [] else _) = _
      rw [if_pos rfl]
    · intro p hp
      show (if p = filepath.Join cfg.BackupDir cfg.LockFile then some [] else s.files p) = _
      rw [if_neg hp]

/-- C7 at the default configuration: with a lock file holding three bytes the
call exits and the three bytes are still there; from the fresh state the call
returns and the lock file is empty. -/
theorem C7_checkLock_witness :
    ((Backup.New Config.Default).checkLock healthyEnv lockedState).exitCode = some 1 ∧
      ((Backup.New Config.Default).checkLock healthyEnv lockedState).state.files
        "/var/local/paperless-ngx/backups/backup.lock" = some [1, 2, 3] ∧
      ((Backup.New Config.Default).checkLock healthyEnv (initialState true)).exitCode = none ∧
      ((Backup.New Config.Default).checkLock healthyEnv (initialState true)).state.files
        "/var/local/paperless-ngx/backups/backup.lock" = some [] :=
  have h := C7_checkLock Config.Default healthyEnv lockedState
  have h2 := C7_checkLock Config.Default healthyEnv (initialState true)
  ⟨(h.1 [1, 2, 3] (by decide)).1,
    by rw [(h.1 [1, 2, 3] (by decide)).2.1]; decide,
    (h2.2 (by decide) rfl).1, (h2.2 (by decide) rfl).2.1⟩

/-- C8. In every run of `Run`, recorded from its start: the retention cleanup
and each of its `os.Remove` calls come after a successful return of `Create`
and after a successful return of `Verify`; `Verify` is called only after
`Create` has returned without error; every `docker volume inspect`, every
`os.Stat` of a mount point and the archive creation that reads the volumes
come after `Manager.Stop` has returned. If `createBackup` or `Verify` returns
an error, `cleanupOldBackups` is not called, no `os.Remove` of an archive is
made, and the only files that can differ from the start are the lock file and
the file at the path of this run, which `os.Create` creates or truncates before
`Create` can fail. -/
theorem C8_run_order (b : Backup) (env : Env) (s : State) :
    Precedes Event.isVerifyOk Event.isCleanup (b.Run env { s with events := [] }).state.events ∧
      Precedes Event.isCreateOk Event.isCleanup
        (b.Run env { s with events := [] }).state.events ∧
      Precedes Event.isCreateOk Event.isVerifyCalled
        (b.Run env { s with events := [] }).state.events ∧
      Precedes Event.isStopReturned Event.touchesVolume
        (b.Run env { s with events := [] }).state.events ∧
      (Event.createReturned false ∈ (b.Run env { s with events := [] }).state.events ∨
          Event.verifyReturned false ∈ (b.Run env { s with events := [] }).state.events →
        Event.cleanupCalled ∉ (b.Run env { s with events := [] }).state.events ∧
        (∀ p, Event.removeCalled p ∉ (b.Run env { s with events := [] }).state.events) ∧
        ∀ p, p ≠ b.lockPath → p ≠ filepath.Join b.config.BackupDir (env.timestamp ++ ".tar.gz") →
          (b.Run env { s with events := [] }).state.files p = s.files p) := by
  obtain ⟨h1, h2, h3, h4, h5⟩ := run_checked b env s
  refine ⟨precedes_of_precedesB _ _ _ h4, precedes_of_precedesB _ _ _ h3,
    precedes_of_precedesB _ _ _ h2, precedes_of_precedesB _ _ _ h1, ?_⟩
  intro herr
  have hb : ∃ e ∈ (b.Run env { s with events := [] }).state.events, e.isFailure = true := by
    rcases herr with h | h
    · exact ⟨_, h, rfl⟩
    · exact ⟨_, h, rfl⟩
  obtain ⟨hnone, hframe⟩ := h5 hb
  exact ⟨fun hm => absurd (hnone _ hm) (by decide),
    fun p hm => Bool.noConfusion (hnone (.removeCalled p) hm), hframe⟩

set_option maxRecDepth 100000 in
/-- C8 at three runs of the default installation: the healthy run does call the
cleanup and removes the two old archives, after creation and verification; the
run whose archive fails verification and the run whose `Create` gives up on a
socket make no removal, and both leave a file at the path of the archive. An
archive that was at that path before the failing run is overwritten by it. -/
theorem C8_run_order_witness :
    Event.cleanupCalled ∈ (defaultBackup.Run healthyEnv (initialState true)).state.events ∧
      Event.removeCalled "/var/local/paperless-ngx/backups/oldest.tar.gz" ∈
        (defaultBackup.Run healthyEnv (initialState true)).state.events ∧
      Precedes Event.isVerifyOk Event.isCleanup
        (defaultBackup.Run healthyEnv (initialState true)).state.events ∧
      Event.verifyReturned false ∈
        (defaultBackup.Run verifyFailsEnv (initialState true)).state.events ∧
      Event.cleanupCalled ∉
        (defaultBackup.Run verifyFailsEnv (initialState true)).state.events ∧
      (defaultBackup.Run verifyFailsEnv (initialState true)).state.files
        "/var/local/paperless-ngx/backups/19700411_000000.tar.gz" = some [1, 1, 1, 1, 1, 1] ∧
      Event.createReturned false ∈
        (defaultBackup.Run createFailsEnv (initialState true)).state.events ∧
      (defaultBackup.Run createFailsEnv (initialState true)).state.files
        "/var/local/paperless-ngx/backups/19700411_000000.tar.gz" = some [] ∧
      (defaultBackup.Run createFailsEnv ((initialState true).writeFile
        "/var/local/paperless-ngx/backups/19700411_000000.tar.gz" [9, 9, 9])).state.files
        "/var/local/paperless-ngx/backups/19700411_000000.tar.gz" = some [] :=
  ⟨by decide, by decide, (C8_run_order defaultBackup healthyEnv (initialState true)).1,
    by decide,
    ((C8_run_order defaultBackup verifyFailsEnv (initialState true)).2.2.2.2
      (Or.inr (by decide))).1, by decide, by decide, by decide, by decide⟩

/-! ## Claims about the archive engine -/

/-- C3. Two source trees that agree once every modification, access and
change timestamp is erased (same paths in the same order, same types, sizes,
modes, owners and file bytes) make `Create` return the same result, the same
destination bytes included, for every tar and gzip encoding; every header it
writes carries the zero time in `ModTime`, `AccessTime` and `ChangeTime`, and
the bytes of a successful run are the gzip stream with the zero time in its
header. -/
theorem C3_create_ignores_timestamps (codec : Codec) (io : CreateIO)
    (fs1 fs2 : String → Except String FsNode) (outputPath : String)
    (sourcePaths : List String)
    (h : ∀ p, eraseRootTimes (fs1 p) = eraseRootTimes (fs2 p)) :
    Creator.Create codec io fs1 outputPath sourcePaths =
        Creator.Create codec io fs2 outputPath sourcePaths ∧
      (∀ e ∈ (Creator.Create codec io fs1 outputPath sourcePaths).written,
        e.header.ModTime = zeroTime ∧ e.header.AccessTime = zeroTime ∧
          e.header.ChangeTime = zeroTime) ∧
      ((Creator.Create codec io fs1 outputPath sourcePaths).err = none →
        (Creator.Create codec io fs1 outputPath sourcePaths).dest =
          some ⟨some (codec.gzipEncode zeroTime (codec.tarEncode
            (Creator.Create codec io fs1 outputPath sourcePaths).written)), 384⟩) := by
  refine ⟨?_, Create_written_zero codec io fs1 outputPath sourcePaths,
    fun hok => (Create_ok hok).1⟩
  rw [← Create_eraseTimes codec io fs1, ← Create_eraseTimes codec io fs2]
  have hfs : (fun p => eraseRootTimes (fs1 p)) = (fun p => eraseRootTimes (fs2 p)) :=
    funext h
  rw [hfs]

/-- C3 at one directory with one file, stamped at day 10 in one tree and at
days 50 to 55 in the other, with an encoding that writes every header time
into the stream: the two archives are the same bytes. -/
theorem C3_create_ignores_timestamps_witness :
    (∀ p, eraseRootTimes (fsWith treeEarly p) = eraseRootTimes (fsWith treeLate p)) ∧
      walk "/vol/data" treeEarly ≠ walk "/vol/data" treeLate ∧
      (Creator.Create dumpCodec healthyIO (fsWith treeEarly) "/b/x.tar.gz" ["/vol/data"]).err
        = none ∧
      (Creator.Create dumpCodec healthyIO (fsWith treeEarly) "/b/x.tar.gz" ["/vol/data"]).dest =
        (Creator.Create dumpCodec healthyIO (fsWith treeLate) "/b/x.tar.gz" ["/vol/data"]).dest :=
  have hfs : ∀ p, eraseRootTimes (fsWith treeEarly p) = eraseRootTimes (fsWith treeLate p) := by
    intro p
    unfold fsWith
    split <;> rfl
  ⟨hfs, by decide, by decide,
    congrArg CreateResult.dest
      (C3_create_ignores_timestamps dumpCodec healthyIO (fsWith treeEarly) (fsWith treeLate)
        "/b/x.tar.gz" ["/vol/data"] hfs).1⟩

/-- C4. When the tar and gzip readers read back every stream of complete
entries that the writers wrote, every successful `Create` leaves a destination file on which `Verify` returns no
error and reports, in its last log line, a count equal to the number of
objects the walks of `Create` visited over all source paths. -/
theorem C4_verify_after_create (codec : Codec) (hlaw : codec.ReadsBack) (io : CreateIO)
    (fs : String → Except String FsNode) (outputPath : String) (sourcePaths : List String)
    (hok : (Creator.Create codec io fs outputPath sourcePaths).err = none) :
    ∃ bytes,
      (Creator.Create codec io fs outputPath sourcePaths).dest = some ⟨some bytes, 384⟩ ∧
      (Creator.Verify codec (.ok bytes)).err = none ∧
      (Creator.Verify codec (.ok bytes)).log.getLast? =
        some ⟨"INFO", "Backup integrity check passed ("
          ++ toString (visitedCount fs sourcePaths) ++ " files)"⟩ := by
  obtain ⟨hdest, hnames, hcomplete⟩ := Create_ok hok
  have hlen : (Creator.Create codec io fs outputPath sourcePaths).written.length =
      visitedCount fs sourcePaths := by
    rw [visitedCount_eq, ← List.length_map _ (fun e : TarEntry => e.header.Name), hnames,
      List.length_map]
  obtain ⟨hgz, hcount, heof⟩ :=
    hlaw zeroTime (Creator.Create codec io fs outputPath sourcePaths).written hcomplete
  refine ⟨_, hdest, ?_⟩
  unfold Creator.Verify
  simp only [hgz]
  rw [heof, verifyLoop_eof, hcount, hlen, Nat.zero_add]
  exact ⟨rfl, rfl⟩

theorem countingCodec_readsBack : countingCodec.ReadsBack := by
  intro t es _
  simp [countingCodec]

/-- C4 at the directory with one file: `Create` succeeds, `Verify` accepts the
file and reports two entries. -/
theorem C4_verify_after_create_witness :
    (Creator.Create countingCodec healthyIO (fsWith treeEarly) "/b/x.tar.gz"
        ["/vol/data"]).err = none ∧
      visitedCount (fsWith treeEarly) ["/vol/data"] = 2 ∧
      ∃ bytes,
        (Creator.Create countingCodec healthyIO (fsWith treeEarly) "/b/x.tar.gz"
          ["/vol/data"]).dest = some ⟨some bytes, 384⟩ ∧
        (Creator.Verify countingCodec (.ok bytes)).err = none ∧
        (Creator.Verify countingCodec (.ok bytes)).log.getLast? =
          some ⟨"INFO", "Backup integrity check passed ("
            ++ toString (visitedCount (fsWith treeEarly) ["/vol/data"]) ++ " files)"⟩ :=
  ⟨by decide, by decide,
    C4_verify_after_create countingCodec countingCodec_readsBack healthyIO (fsWith treeEarly)
      "/b/x.tar.gz" ["/vol/data"] (by decide)⟩

/-- C9 (the code departs from the claim). `Create` on the source path
`//vol/data` succeeds, and the entry written for the root of the walk is named
`/vol/data`: the walk hands the root over as it was given, and `addToTar`
trims one `/` only. The entry of the file below it is named
`vol/data/file1.txt`, and with the source path `/vol/data` no name begins with
`/`. -/
theorem C9_double_slash_root_keeps_slash :
    (Creator.Create dumpCodec healthyIO (fsWith treeEarly) "/b/x.tar.gz"
        ["//vol/data"]).err = none ∧
      (Creator.Create dumpCodec healthyIO (fsWith treeEarly) "/b/x.tar.gz"
        ["//vol/data"]).written.map (fun e => e.header.Name) =
          ["/vol/data", "vol/data/file1.txt"] ∧
      (Creator.Create dumpCodec healthyIO (fsWith treeEarly) "/b/x.tar.gz"
        ["/vol/data"]).written.map (fun e => e.header.Name) =
          ["vol/data", "vol/data/file1.txt"] := by
  decide

/-! ## Claims about permissions, enumeration and the newest archive -/

/-- C12. For every input on which `Create` returns no error, the destination
file exists afterwards with permission bits 0600, whatever the permission it
was created with, whatever the codec, the file system and the source paths. -/
theorem C12_create_sets_mode_0600 (codec : Codec) (io : CreateIO)
    (fs : String → Except String FsNode) (outputPath : String) (sourcePaths : List String)
    (hok : (Creator.Create codec io fs outputPath sourcePaths).err = none) :
    (Creator.Create codec io fs outputPath sourcePaths).dest.map DestFile.perm =
      some 0o600 := by
  rw [(Create_ok hok).1]
  rfl

/-- C12 at a destination that `os.Create` made with mode 0777: `Create`
succeeds and the file ends with mode 0600. -/
theorem C12_create_sets_mode_0600_witness :
    (Creator.Create countingCodec { healthyIO with createdPerm := 0o777 } (fsWith treeEarly)
        "/b/x.tar.gz" ["/vol/data"]).err = none ∧
      (Creator.Create countingCodec { healthyIO with createdPerm := 0o777 } (fsWith treeEarly)
        "/b/x.tar.gz" ["/vol/data"]).dest.map DestFile.perm = some 0o600 :=
  ⟨by decide,
    C12_create_sets_mode_0600 countingCodec { healthyIO with createdPerm := 0o777 }
      (fsWith treeEarly) "/b/x.tar.gz" ["/vol/data"] (by decide)⟩

set_option maxRecDepth 100000 in
/-- C13 (the claim as stated fails). In a directory with one regular archive
and an older symbolic link named `latest.tar.gz`, both past the retention
period, the cleanup counts the link among the backups and removes it: the only
type test in the enumeration loop is `entry.IsDir()`. -/
theorem C13_symlink_is_counted_and_deleted :
    (⟨"latest.tar.gz", .symlink, some (80 * nsPerDay)⟩ : DirEntry) ∈ symlinkEntries ∧
      (cleanupOldBackups utcLocation insertionSortNewestFirst (fun _ => none) "/var/backups" 3 exampleNow
        (some symlinkEntries)).allBackups.map FileInfo.Path =
          ["/var/backups/20240101_000000.tar.gz", "/var/backups/latest.tar.gz"] ∧
      (cleanupOldBackups utcLocation insertionSortNewestFirst (fun _ => none) "/var/backups" 3 exampleNow
        (some symlinkEntries)).removeCalls = ["/var/backups/latest.tar.gz"] ∧
      (cleanupOldBackups utcLocation insertionSortNewestFirst (fun _ => none) "/var/backups" 3 exampleNow
        (some symlinkEntries)).deleted = ["/var/backups/latest.tar.gz"] := by
  decide

/-- C13 (amended). `cleanupOldBackups` enumerates the entries that are not
directories: every file it counts in ALL, and every path it hands to
`os.Remove`, belongs to an entry that is not a directory and whose name matches
`*.tar.gz`; every such entry whose `Info()` succeeds is counted, whatever its
file type; a directory named like an archive is neither counted nor deleted and
is still there afterwards. -/
theorem C13_counts_non_directories (loc : Location) (sortSlice : List FileInfo → List FileInfo)
    (hsort : SortsNewestFirst sortSlice) (remove : String → Option String)
    (backupDir : String) (days : Int) (now : Time) (entries : List DirEntry)
    (hd : DistinctPaths backupDir entries) :
    (∀ fi ∈ (cleanupOldBackups loc sortSlice remove backupDir days now (some entries)).allBackups,
      ∃ e ∈ entries, e.IsDir = false ∧ filepath.matchTarGz e.Name = true ∧
        e.Info = some fi.ModTime ∧ fi.Path = filepath.Join backupDir e.Name) ∧
    (∀ e ∈ entries, e.IsDir = false → filepath.matchTarGz e.Name = true →
      ∀ t, e.Info = some t → (⟨filepath.Join backupDir e.Name, t⟩ : FileInfo) ∈
        (cleanupOldBackups loc sortSlice remove backupDir days now (some entries)).allBackups) ∧
    (∀ p ∈ (cleanupOldBackups loc sortSlice remove backupDir days now (some entries)).removeCalls,
      ∃ e ∈ entries, e.IsDir = false ∧ filepath.matchTarGz e.Name = true ∧
        p = filepath.Join backupDir e.Name) ∧
    (∀ e ∈ entries, e.IsDir = true →
      filepath.Join backupDir e.Name ∉
        (cleanupOldBackups loc sortSlice remove backupDir days now
          (some entries)).allBackups.map FileInfo.Path ∧
      filepath.Join backupDir e.Name ∉
        (cleanupOldBackups loc sortSlice remove backupDir days now (some entries)).removeCalls ∧
      e ∈ entriesAfter backupDir
        (cleanupOldBackups loc sortSlice remove backupDir days now (some entries)).deleted
        entries) := by
  refine ⟨?_, ?_, ?_, ?_⟩
  · intro fi hfi
    rw [cleanupOldBackups_allBackups] at hfi
    obtain ⟨e, he, hfe⟩ := List.mem_filterMap.mp hfi
    obtain ⟨ha, hi, hp⟩ := toFileInfo_some hfe
    exact ⟨e, he, ((isArchive_iff e).mp ha).1, ((isArchive_iff e).mp ha).2, hi, hp⟩
  · intro e he hdir hm t ht
    rw [cleanupOldBackups_allBackups]
    exact List.mem_filterMap.mpr
      ⟨e, he, toFileInfo_of_archive ((isArchive_iff e).mpr ⟨hdir, hm⟩) ht⟩
  · intro p hp
    obtain ⟨e, he, ha, hpath, _⟩ := removeCalls_are_old_archives sortSlice hsort remove
      backupDir days now entries p hp
    exact ⟨e, he, ((isArchive_iff e).mp ha).1, ((isArchive_iff e).mp ha).2, hpath⟩
  · intro e he hdir
    have hna : isArchive e = false := isArchive_false_of e (Or.inr hdir)
    have hnr := @non_archive_not_removed loc sortSlice hsort remove backupDir days now entries hd
      e he hna
    refine ⟨?_, hnr, mem_entriesAfter.mpr ⟨he, fun hdel => hnr
      (deleted_subset_removeCalls sortSlice remove backupDir days now (some entries) _ hdel)⟩⟩
    intro hmem
    rw [cleanupOldBackups_allBackups] at hmem
    obtain ⟨fi, hfi, hfp⟩ := List.mem_map.mp hmem
    obtain ⟨e2, he2, hfe2⟩ := List.mem_filterMap.mp hfi
    obtain ⟨ha2, _, hp2⟩ := toFileInfo_some hfe2
    have heq : e2 = e := List.inj_on_of_nodup_map hd he2 he (by rw [← hp2, hfp])
    rw [heq, hna] at ha2
    exact Bool.noConfusion ha2

set_option maxRecDepth 100000 in
/-- C13 (amended) at a directory with two archives, a text file and a
subdirectory named `old.tar.gz`: the subdirectory is never handed to
`os.Remove`, while the old archive `b.tar.gz` is. -/
theorem C13_counts_non_directories_witness :
    DistinctPaths "/var/backups" clutteredEntries ∧
      (cleanupOldBackups utcLocation insertionSortNewestFirst (fun _ => none) "/var/backups" 3 exampleNow
        (some clutteredEntries)).removeCalls = ["/var/backups/b.tar.gz"] ∧
      (∀ e ∈ clutteredEntries, e.IsDir = true →
        filepath.Join "/var/backups" e.Name ∉
          (cleanupOldBackups utcLocation insertionSortNewestFirst (fun _ => none) "/var/backups" 3
            exampleNow (some clutteredEntries)).removeCalls) :=
  ⟨by unfold DistinctPaths; decide, by decide, fun e he hdir =>
    ((C13_counts_non_directories utcLocation insertionSortNewestFirst insertionSort_sortsNewestFirst
      (fun _ => none) "/var/backups" 3 exampleNow clutteredEntries
      (by unfold DistinctPaths; decide)).2.2.2 e he hdir).2.1⟩

/-- C14. For every directory state, every path `cleanupOldBackups` hands to
`os.Remove` is that of a non-directory entry whose name matches `*.tar.gz`;
every entry whose name does not match, and every subdirectory, whatever its
age, is still there afterwards and was never handed to `os.Remove`. On a
directory without any archive file (only non-matching names, only
subdirectories, or nothing at all) it calls `os.Remove` on nothing, deletes
nothing, logs three lines at level INFO and returns; when the directory cannot
be read it deletes nothing either. -/
theorem C14_cleanup_leaves_other_entries (loc : Location) (sortSlice : List FileInfo → List FileInfo)
    (hsort : SortsNewestFirst sortSlice) (remove : String → Option String)
    (backupDir : String) (days : Int) (now : Time) (entries : List DirEntry)
    (hd : DistinctPaths backupDir entries) :
    (∀ p ∈ (cleanupOldBackups loc sortSlice remove backupDir days now (some entries)).removeCalls,
      ∃ e ∈ entries, e.IsDir = false ∧ filepath.matchTarGz e.Name = true ∧
        p = filepath.Join backupDir e.Name) ∧
    (∀ e ∈ entries, filepath.matchTarGz e.Name = false ∨ e.IsDir = true →
      filepath.Join backupDir e.Name ∉
        (cleanupOldBackups loc sortSlice remove backupDir days now (some entries)).removeCalls ∧
      e ∈ entriesAfter backupDir
        (cleanupOldBackups loc sortSlice remove backupDir days now (some entries)).deleted
        entries) ∧
    ((∀ e ∈ entries, filepath.matchTarGz e.Name = false ∨ e.IsDir = true) →
      cleanupOldBackups loc sortSlice remove backupDir days now (some entries) =
        ⟨[⟨"INFO", "Cleaning up backups older than " ++ toString days ++ " days..."⟩,
          ⟨"INFO", "No old backups to delete"⟩, ⟨"INFO", "Total backups: 0"⟩], [], [], []⟩) ∧
    (cleanupOldBackups loc sortSlice remove backupDir days now none).removeCalls = [] ∧
    (cleanupOldBackups loc sortSlice remove backupDir days now none).deleted = [] := by
  refine ⟨?_, ?_, ?_, rfl, rfl⟩
  · intro p hp
    obtain ⟨e, he, ha, hpath, _⟩ := removeCalls_are_old_archives sortSlice hsort remove
      backupDir days now entries p hp
    exact ⟨e, he, ((isArchive_iff e).mp ha).1, ((isArchive_iff e).mp ha).2, hpath⟩
  · intro e he hna
    have hnr := @non_archive_not_removed loc sortSlice hsort remove backupDir days now entries hd
      e he (isArchive_false_of e hna)
    exact ⟨hnr, mem_entriesAfter.mpr ⟨he, fun hdel => hnr
      (deleted_subset_removeCalls sortSlice remove backupDir days now (some entries) _ hdel)⟩⟩
  · intro hno
    exact no_archives_no_removal sortSlice remove backupDir days now entries
      (fun e he => isArchive_false_of e (hno e he))

set_option maxRecDepth 100000 in
/-- C14 at the directory of `TestCleanupIgnoresNonBackupFiles` with a
subdirectory named `old.tar.gz` added: nothing is removed and all three entries
are still there, although all are older than the retention period. -/
theorem C14_cleanup_leaves_other_entries_witness :
    DistinctPaths "/var/backups" noArchiveEntries ∧
      (cleanupOldBackups utcLocation insertionSortNewestFirst (fun _ => none) "/var/backups" 3 exampleNow
        (some noArchiveEntries)).removeCalls = [] ∧
      entriesAfter "/var/backups"
        (cleanupOldBackups utcLocation insertionSortNewestFirst (fun _ => none) "/var/backups" 3 exampleNow
          (some noArchiveEntries)).deleted noArchiveEntries = noArchiveEntries :=
  ⟨by unfold DistinctPaths; decide,
    congrArg CleanupResult.removeCalls
      ((C14_cleanup_leaves_other_entries utcLocation insertionSortNewestFirst
        insertionSort_sortsNewestFirst (fun _ => none) "/var/backups" 3 exampleNow
        noArchiveEntries (by unfold DistinctPaths; decide)).2.2.1 (by decide)),
    by decide⟩

set_option maxRecDepth 100000 in
/-- C16 (the claim as stated fails). A run of the default installation with a
retention of zero days, and one with a retention of minus five days, into a
directory that holds another archive stamped two days ahead: each run hands the
archive it has just written to `os.Remove`, and the file is gone afterwards;
the retention cleanup alone does the same on that directory. -/
theorem C16_run_prunes_the_archive_it_wrote :
    Event.createReturned true ∈
        ((backupWithRetention 0).Run laterStampEnv (initialState true)).state.events ∧
      Event.removeCalled "/var/local/paperless-ngx/backups/19700411_000000.tar.gz" ∈
        ((backupWithRetention 0).Run laterStampEnv (initialState true)).state.events ∧
      ((backupWithRetention 0).Run laterStampEnv (initialState true)).state.files
        "/var/local/paperless-ngx/backups/19700411_000000.tar.gz" = none ∧
      Event.removeCalled "/var/local/paperless-ngx/backups/19700411_000000.tar.gz" ∈
        ((backupWithRetention (-5)).Run laterStampEnv (initialState true)).state.events ∧
      ((backupWithRetention (-5)).Run laterStampEnv (initialState true)).state.files
        "/var/local/paperless-ngx/backups/19700411_000000.tar.gz" = none ∧
      (cleanupOldBackups utcLocation insertionSortNewestFirst (fun _ => none)
        "/var/local/paperless-ngx/backups" 0 (exampleNow + 2000000000)
        (some laterStampEntries)).deleted =
          ["/var/local/paperless-ngx/backups/19700411_000000.tar.gz"] ∧
      (cleanupOldBackups utcLocation insertionSortNewestFirst (fun _ => none)
        "/var/local/paperless-ngx/backups" (-5) (exampleNow + 2000000000)
        (some laterStampEntries)).deleted =
          ["/var/local/paperless-ngx/backups/19700411_000000.tar.gz"] := by
  decide

/-- C16 (amended). For every directory state (with entries of distinct paths),
every `MaxBackupAgeDays`, positive, zero or negative, every clock and every
outcome of `os.Remove`: an archive whose modification time is strictly greater
than that of every other archive, or is not before the cutoff, is never handed
to `os.Remove` by `cleanupOldBackups`, is not deleted and is still in the
directory afterwards. Hence no run of `Run` calls `os.Remove` on the archive it
has just written when that archive is the strictly newest one in the backup
directory or is not older than the cutoff of the run. -/
theorem C16_newest_never_deleted (loc : Location) (sortSlice : List FileInfo → List FileInfo)
    (hsort : SortsNewestFirst sortSlice) (remove : String → Option String)
    (backupDir : String) (days : Int) (now : Time) (entries : List DirEntry)
    (hd : DistinctPaths backupDir entries) (e : DirEntry) (tnew : Time) (he : e ∈ entries)
    (ha : isArchive e = true) (hi : e.Info = some tnew)
    (hkeep : (∀ e2 ∈ entries, e2 ≠ e → isArchive e2 = true →
        ∀ t, e2.Info = some t → t < tnew) ∨ ¬ tnew < cutoffTime loc now days) :
    filepath.Join backupDir e.Name ∉
        (cleanupOldBackups loc sortSlice remove backupDir days now (some entries)).removeCalls ∧
      filepath.Join backupDir e.Name ∉
        (cleanupOldBackups loc sortSlice remove backupDir days now (some entries)).deleted ∧
      e ∈ entriesAfter backupDir
        (cleanupOldBackups loc sortSlice remove backupDir days now (some entries)).deleted
        entries ∧
      ∀ (b : Backup) (env : Env) (s : State), env.loc = loc → env.now = now →
        b.config.MaxBackupAgeDays = days → env.sortSlice = sortSlice →
        env.readDir = some entries → b.config.BackupDir = backupDir →
        e.Name = env.timestamp ++ ".tar.gz" →
        Event.removeCalled (filepath.Join b.config.BackupDir (env.timestamp ++ ".tar.gz")) ∉
          (b.Run env { s with events := [] }).state.events := by
  have hall : ∀ (rm : String → Option String), filepath.Join backupDir e.Name ∉
      (cleanupOldBackups loc sortSlice rm backupDir days now (some entries)).removeCalls := by
    intro rm
    rcases hkeep with hnewest | hfresh
    · exact @newest_not_removed loc sortSlice hsort rm backupDir days now entries hd e tnew
        he ha hi hnewest
    · intro hp
      obtain ⟨e2, he2, _, hpath, t, ht, hlt⟩ :=
        @removeCalls_are_old_archives loc sortSlice hsort rm backupDir days now entries _ hp
      have heq : e = e2 := List.inj_on_of_nodup_map hd he he2 hpath
      subst heq
      rw [hi] at ht
      cases ht
      exact hfresh hlt
  have hnd : filepath.Join backupDir e.Name ∉
      (cleanupOldBackups loc sortSlice remove backupDir days now (some entries)).deleted :=
    fun hdel => hall remove
      (deleted_subset_removeCalls sortSlice remove backupDir days now (some entries) _ hdel)
  refine ⟨hall remove, hnd, mem_entriesAfter.mpr ⟨he, hnd⟩, ?_⟩
  intro b env s hl hn hdays hs hr hb hname hev
  have hcall := run_removeCalls b env s _ hev
  rw [hl, hn, hdays, hs, hr, hb, ← hname] at hcall
  exact hall env.remove hcall

set_option maxRecDepth 100000 in
/-- C16 (amended) at the directory right after a run, with a retention of
minus five days, so that the cutoff is after the clock and every archive counts
as old: the two older archives are removed and the newest one, written at the
time of the clock, is not. The example run of the default installation makes no
`os.Remove` call on the archive it has written, and neither does the run with
a retention of three days into the directory that holds an archive stamped two
days ahead, the new archive being younger than the cutoff. -/
theorem C16_newest_never_deleted_witness :
    DistinctPaths "/var/backups" freshEntries ∧
      (cleanupOldBackups utcLocation insertionSortNewestFirst (fun _ => none) "/var/backups" (-5)
        exampleNow (some freshEntries)).removeCalls =
          ["/var/backups/19700406_000000.tar.gz", "/var/backups/19700401_000000.tar.gz"] ∧
      filepath.Join "/var/backups" "19700411_000000.tar.gz" ∉
        (cleanupOldBackups utcLocation insertionSortNewestFirst (fun _ => none) "/var/backups" (-5)
          exampleNow (some freshEntries)).removeCalls ∧
      Event.removeCalled "/var/local/paperless-ngx/backups/19700411_000000.tar.gz" ∉
        (defaultBackup.Run healthyEnv (initialState true)).state.events ∧
      Event.removeCalled "/var/local/paperless-ngx/backups/19700411_000000.tar.gz" ∉
        ((backupWithRetention 3).Run laterStampEnv (initialState true)).state.events :=
  ⟨by unfold DistinctPaths; decide, by decide,
    (C16_newest_never_deleted utcLocation insertionSortNewestFirst insertionSort_sortsNewestFirst
      (fun _ => none) "/var/backups" (-5) exampleNow freshEntries
      (by unfold DistinctPaths; decide)
      ⟨"19700411_000000.tar.gz", .regular, some exampleNow⟩ exampleNow (by decide) (by decide)
      rfl (Or.inl freshEntries_newest)).1,
    (C16_newest_never_deleted utcLocation insertionSortNewestFirst insertionSort_sortsNewestFirst
      (fun _ => none) "/var/local/paperless-ngx/backups" 3 exampleNow
      (⟨"19700411_000000.tar.gz", .regular, some exampleNow⟩ :: allOldEntries)
      (by unfold DistinctPaths; decide)
      ⟨"19700411_000000.tar.gz", .regular, some exampleNow⟩ exampleNow (by decide) (by decide)
      rfl (Or.inl healthyEntries_newest)).2.2.2 defaultBackup healthyEnv (initialState true)
      rfl rfl rfl rfl rfl rfl rfl,
    (C16_newest_never_deleted utcLocation insertionSortNewestFirst insertionSort_sortsNewestFirst
      (fun _ => none) "/var/local/paperless-ngx/backups" 3 (exampleNow + 2000000000)
      laterStampEntries (by unfold DistinctPaths; decide)
      ⟨"19700411_000000.tar.gz", .regular, some (exampleNow + 1000000000)⟩
      (exampleNow + 1000000000) (by decide) (by decide)
      rfl (Or.inr (by decide))).2.2.2 (backupWithRetention 3) laterStampEnv (initialState true)
      rfl rfl rfl rfl rfl rfl rfl⟩

/-! ## The claim about files that are not archives -/

/-- C15 (the claim as stated fails). Four pairs of starts `t1 < t2` whose
names are not in order. Two starts one nanosecond apart, within the same
second, derive the same name. When the offset of the local zone drops between
the starts, as in central Europe on 29 October 2023 at 01:00 UTC (from two
hours to one), a start at 00:30 UTC is named after 02:30 and a start at 01:00
UTC after 02:00, the smaller name. The last second of year 9999 is followed by
a name of five year digits, which is smaller. And among the years before year
0 the minus sign turns the order round. -/
theorem C15_later_start_without_greater_name :
    ((1700000000 * 1000000000 : Time) < 1700000000 * 1000000000 + 1 ∧
      archiveFileName 0 (1700000000 * 1000000000) = "20231114_221320.tar.gz" ∧
      archiveFileName 0 (1700000000 * 1000000000 + 1) = "20231114_221320.tar.gz" ∧
      ¬ archiveFileName 0 (1700000000 * 1000000000) <
        archiveFileName 0 (1700000000 * 1000000000 + 1)) ∧
    ((1698539400 * 1000000000 : Time) < 1698541200 * 1000000000 ∧
      archiveFileName 7200 (1698539400 * 1000000000) = "20231029_023000.tar.gz" ∧
      archiveFileName 3600 (1698541200 * 1000000000) = "20231029_020000.tar.gz" ∧
      archiveFileName 3600 (1698541200 * 1000000000) <
        archiveFileName 7200 (1698539400 * 1000000000)) ∧
    ((253402300799 * 1000000000 : Time) < 253402300800 * 1000000000 ∧
      archiveFileName 0 (253402300799 * 1000000000) = "99991231_235959.tar.gz" ∧
      archiveFileName 0 (253402300800 * 1000000000) = "100000101_000000.tar.gz" ∧
      archiveFileName 0 (253402300800 * 1000000000) <
        archiveFileName 0 (253402300799 * 1000000000)) ∧
    ((-62198755201 * 1000000000 : Time) < -62198755200 * 1000000000 ∧
      archiveFileName 0 (-62198755201 * 1000000000) = "-00021231_235959.tar.gz" ∧
      archiveFileName 0 (-62198755200 * 1000000000) = "-00010101_000000.tar.gz" ∧
      archiveFileName 0 (-62198755200 * 1000000000) <
        archiveFileName 0 (-62198755201 * 1000000000)) := by
  refine ⟨⟨by decide, by decide, by decide, ?_⟩, ⟨by decide, by decide, by decide, ?_⟩,
    ⟨by decide, by decide, by decide, ?_⟩, ⟨by decide, by decide, by decide, ?_⟩⟩
  · rw [show archiveFileName 0 (1700000000 * 1000000000 + 1) =
      archiveFileName 0 (1700000000 * 1000000000) by decide]
    exact lt_irrefl _
  · exact (archiveFileName_lt_iff 3600 (1698541200 * 1000000000) 7200
      (1698539400 * 1000000000) (by decide) (by decide) (by decide) (by decide)).mpr
      (by decide)
  · rw [show archiveFileName 0 (253402300800 * 1000000000) = "100000101_000000.tar.gz"
        by decide,
      show archiveFileName 0 (253402300799 * 1000000000) = "99991231_235959.tar.gz"
        by decide]
    exact String.lt_iff_toList_lt.mpr (by decide)
  · rw [show archiveFileName 0 (-62198755200 * 1000000000) = "-00010101_000000.tar.gz"
        by decide,
      show archiveFileName 0 (-62198755201 * 1000000000) = "-00021231_235959.tar.gz"
        by decide]
    exact String.lt_iff_toList_lt.mpr (by decide)

/-- C15 (amended). For every two times `t1 < t2` formatted with the same
offset of the local zone and falling in the years 0000 to 9999, the archive
names derived by `createBackup` are in order: the name of `t2` is never smaller
than the name of `t1`, it is greater exactly when the two times differ in their
whole second, and two times within the same second give the same name. The
name `createBackup` stores is the backup directory joined with this name. -/
theorem C15_names_sort_by_second (offset : Int) (t1 t2 : Time) (hlt : t1 < t2)
    (hy1 : 0 ≤ (localDate offset t1).year) (hy2 : (localDate offset t2).year ≤ 9999) :
    ¬ archiveFileName offset t2 < archiveFileName offset t1 ∧
      (archiveFileName offset t1 < archiveFileName offset t2 ↔
        t1 / 1000000000 < t2 / 1000000000) ∧
      (t1 / 1000000000 = t2 / 1000000000 →
        archiveFileName offset t1 = archiveFileName offset t2) ∧
      ∀ (b : Backup) (env : Env) (d m r : String) (s : State) (t : Time),
        env.timestamp = formatTimestamp offset t →
        (b.createBackup env d m r s).2.backupFile =
          filepath.Join b.config.BackupDir (archiveFileName offset t) := by
  have hw := wallSeconds_le offset t1 t2 hlt
  have hy := year_le_of_wallSeconds_le offset t1 offset t2 hw
  have hy1b : (localDate offset t1).year ≤ 9999 := le_trans hy hy2
  have hy2a : 0 ≤ (localDate offset t2).year := le_trans hy1 hy
  refine ⟨?_, ?_, ?_, ?_⟩
  · rw [archiveFileName_lt_iff offset t2 offset t1 hy2a hy2 hy1 hy1b, stampKey_lt_iff]
    exact not_lt.mpr hw
  · rw [archiveFileName_lt_iff offset t1 offset t2 hy1 hy1b hy2a hy2, stampKey_lt_iff]
    exact wallSeconds_lt_iff offset t1 t2
  · intro he
    unfold archiveFileName
    rw [formatTimestamp_congr offset t1 offset t2 (by unfold wallSeconds; rw [he])]
  · intro b env d m r s t ht
    rw [createBackup_backupFile]
    unfold Backup.archivePath archiveFileName
    rw [ht]

/-- C15 (amended) at two starts a day apart in a zone one hour east of UTC,
14 and 15 November 2023: the later start has the greater name. At day 100 after
the epoch in UTC the name is the one of the example run. -/
theorem C15_names_sort_by_second_witness :
    (1700000000 * 1000000000 : Time) < 1700086400 * 1000000000 ∧
      archiveFileName 3600 (1700000000 * 1000000000) = "20231114_231320.tar.gz" ∧
      archiveFileName 3600 (1700086400 * 1000000000) = "20231115_231320.tar.gz" ∧
      formatTimestamp 0 exampleNow = healthyEnv.timestamp ∧
      archiveFileName 3600 (1700000000 * 1000000000) <
        archiveFileName 3600 (1700086400 * 1000000000) :=
  ⟨by decide, by decide, by decide, by decide,
    ((C15_names_sort_by_second 3600 (1700000000 * 1000000000) (1700086400 * 1000000000)
      (by decide) (by decide) (by decide)).2.1).mpr (by decide)⟩


end PaperlessBackup
